import Mathlib

/-!
Verification of the cluster-container, hierarchy and label-selection-model
logic of the workbench repository (files `Common/ClusterContainer.cxx`,
`Common/CaretHierarchy.cxx`, `Files/LabelSelectionItemModel.cxx`).

The C++ code is shallowly embedded: classes become structures, mutation of
members becomes explicit state passing (a `const` method that fills mutable
caches returns the updated object next to its result), raised `CaretException`s
become `Option String` error components, and `NULL` pointers become `Option`.
Member coordinates of clusters are `Vector3D` (three floats) in C++; the
properties under study only ever inspect the sign of the x component and the
multiset of coordinates, never float arithmetic, so coordinates are embedded as
integer triples.

Everything is written inside the namespace `Caret`, mirroring the C++
namespace `caret`, and keeps the source's member and function names.
-/

namespace Caret

/-! ## The embedding: definitions translated from the source -/

/-- Coordinate triple standing for the C++ `Vector3D`. -/
structure V3 where
  x : Int
  y : Int
  z : Int
deriving DecidableEq, Repr

/-- The `Cluster::LocationType` enumeration from `Cluster.h`. -/
inductive LocationType where
  | UNKNOWN
  | CENTRAL
  | LEFT
  | RIGHT
deriving DecidableEq, Repr

/-- The `caret::Cluster` data carried by `ClusterContainer`: key, name,
location type and the member coordinates (`Cluster.h`, used throughout
`ClusterContainer.cxx`). Coordinates keep their insertion order, as the C++
`std::vector<Vector3D>` does. -/
structure Cluster where
  m_key : Int
  m_name : String
  m_locationType : LocationType
  m_coordinateXYZ : List V3
deriving DecidableEq, Repr

/-- The accessor `Cluster::getKey` used by `ClusterContainer::getAllClusterKeys`. -/
def Cluster.getKey (c : Cluster) : Int := c.m_key

/-- The accessor `Cluster::getLocationType` used by the merge loops. -/
def Cluster.getLocationType (c : Cluster) : LocationType := c.m_locationType

/-- Modelled from the spec: `Cluster::mergeCoordinates` (in `Cluster.cxx`,
which is not part of this excerpt) unions the other cluster's member
coordinates into this cluster ("later ones merged into it via coordinate-set
union recomputing center-of-gravity"). The coordinates are a `std::vector`, so
the union is the multiset union: list concatenation. The derived
center-of-gravity is float arithmetic not inspected by any claim and is not
modelled. -/
def Cluster.mergeCoordinates (self other : Cluster) : Cluster :=
  { self with m_coordinateXYZ := self.m_coordinateXYZ ++ other.m_coordinateXYZ }

/-- Modelled from the spec: `Cluster::splitClusterIntoRightAndLeft` (in
`Cluster.cxx`, not part of this excerpt) splits a CENTRAL cluster "into a LEFT
and a RIGHT cluster by the sign of each member coordinate's X value". The LEFT
half receives the negative-x coordinates and the RIGHT half the remaining
(non-negative-x) ones; x = 0 is not split off by the spec's words, the model
assigns it to the RIGHT half. The claims never depend on that boundary choice
nor on the relative order of the two returned clusters. -/
def Cluster.splitClusterIntoRightAndLeft (c : Cluster) : List Cluster :=
  [{ c with m_locationType := LocationType.LEFT
            m_coordinateXYZ := c.m_coordinateXYZ.filter (fun v => decide (v.x < 0)) },
   { c with m_locationType := LocationType.RIGHT
            m_coordinateXYZ := c.m_coordinateXYZ.filter (fun v => decide (0 ≤ v.x)) }]

/-- One entry of the C++ `std::multimap<int32_t, Cluster*>`; the key is stored
next to the cluster exactly as the multimap stores pairs. -/
abbrev KeyEntry := Int × Cluster

/-- One entry of the C++ `std::multimap<AString, Cluster*>`. -/
abbrev NameEntry := String × Cluster

/-- Insertion into a `std::multimap`. `std::multimap::insert` places the new
pair at the upper bound of its key: after every entry whose key is less than
or equal to the new key and before the first larger one, which keeps entries
with equal keys in insertion order. -/
def multimapInsert [LinearOrder α] (p : α × β) : List (α × β) → List (α × β)
  | [] => [p]
  | q :: rest => if q.1 ≤ p.1 then q :: multimapInsert p rest else p :: q :: rest

/-- The key multimap built from the clusters in container order, as the loop of
`ClusterContainer::createMultimapClustersSortedByKey` does. -/
def buildMultimapByKey (cs : List Cluster) : List KeyEntry :=
  cs.foldl (fun m c => multimapInsert (c.m_key, c) m) []

/-- The name multimap built from the clusters in container order, as the loop
of `ClusterContainer::createMultimapClustersSortedByName` does. -/
def buildMultimapByName (cs : List Cluster) : List NameEntry :=
  cs.foldl (fun m c => multimapInsert (c.m_name, c) m) []

/-- `std::multimap::equal_range`: the run of entries with the given key. On a
key-sorted multimap that run is exactly the sublist of entries with that key,
in multimap order. -/
def multimapEqualRange [BEq α] (m : List (α × β)) (key : α) : List (α × β) :=
  m.filter (fun p => p.1 == key)

/-- `equal_range` on the key multimap. -/
def multimapEqualRangeByKey (m : List KeyEntry) (key : Int) : List KeyEntry :=
  multimapEqualRange m key

/-- `equal_range` on the name multimap. -/
def multimapEqualRangeByName (m : List NameEntry) (name : String) : List NameEntry :=
  multimapEqualRange m name

/-- Insertion into a `std::set<int32_t>`: sorted, duplicates dropped. -/
def setInsertInt (x : Int) : List Int → List Int
  | [] => [x]
  | y :: rest =>
    if x < y then x :: y :: rest
    else if x = y then y :: rest
    else y :: setInsertInt x rest

/-- The sorted set of distinct keys collected by the loop of
`ClusterContainer::getAllClusterKeys`. -/
def allClusterKeysOf (cs : List Cluster) : List Int :=
  cs.foldl (fun s c => setInsertInt c.getKey s) []

/-- The `caret::ClusterContainer` state: the owned clusters plus the five
lazily built members that `clearSortedContainers` resets, plus the set fed by
`addKeyThatIsNotInAnyCluster`. An empty cached member means "not built yet",
exactly as the C++ code tests emptiness to decide whether to rebuild. -/
structure ClusterContainer where
  m_clusters : List Cluster
  m_mapWithClustersSortedByKey : List KeyEntry
  m_mapWithClustersSortedByName : List NameEntry
  m_vectorClustersSortedByKey : List Cluster
  m_vectorClustersSortedByName : List Cluster
  m_keysSorted : List Int
  m_keysThatAreNotInAnyClusters : List Int
deriving DecidableEq, Repr

namespace ClusterContainer

/-- The freshly constructed container (`ClusterContainer::ClusterContainer`). -/
def new : ClusterContainer :=
  { m_clusters := []
    m_mapWithClustersSortedByKey := []
    m_mapWithClustersSortedByName := []
    m_vectorClustersSortedByKey := []
    m_vectorClustersSortedByName := []
    m_keysSorted := []
    m_keysThatAreNotInAnyClusters := [] }

/-- `ClusterContainer::clearSortedContainers`: clears the two multimaps, the
two flattened vectors and the sorted key list. -/
def clearSortedContainers (c : ClusterContainer) : ClusterContainer :=
  { c with m_mapWithClustersSortedByKey := []
           m_mapWithClustersSortedByName := []
           m_vectorClustersSortedByKey := []
           m_vectorClustersSortedByName := []
           m_keysSorted := [] }

/-- `ClusterContainer::addCluster`: takes the cluster and invalidates every
cached sorted view. -/
def addCluster (c : ClusterContainer) (cluster : Cluster) : ClusterContainer :=
  clearSortedContainers { c with m_clusters := c.m_clusters ++ [cluster] }

/-- `ClusterContainer::clear`: drops the cached views and the clusters. -/
def clear (c : ClusterContainer) : ClusterContainer :=
  { c.clearSortedContainers with m_clusters := [] }

/-- `ClusterContainer::createMultimapClustersSortedByKey`: builds the key
multimap when it is empty (lazy initialization); a `const` method that fills a
`mutable` member, hence it returns the updated container. -/
def createMultimapClustersSortedByKey (c : ClusterContainer) : ClusterContainer :=
  if c.m_mapWithClustersSortedByKey.isEmpty then
    { c with m_mapWithClustersSortedByKey := buildMultimapByKey c.m_clusters }
  else c

/-- `ClusterContainer::createMultimapClustersSortedByName`. -/
def createMultimapClustersSortedByName (c : ClusterContainer) : ClusterContainer :=
  if c.m_mapWithClustersSortedByName.isEmpty then
    { c with m_mapWithClustersSortedByName := buildMultimapByName c.m_clusters }
  else c

/-- Helper for `getClustersSortedByKey`: flattening and caching the vector,
given the container whose multimap is already ensured. -/
def flattenVectorByKey (c1 : ClusterContainer) : List Cluster × ClusterContainer :=
  if c1.m_vectorClustersSortedByKey.isEmpty then
    (c1.m_mapWithClustersSortedByKey.map (fun p => p.2),
     { c1 with m_vectorClustersSortedByKey :=
         c1.m_mapWithClustersSortedByKey.map (fun p => p.2) })
  else (c1.m_vectorClustersSortedByKey, c1)

/-- Helper for `getClustersSortedByName`. -/
def flattenVectorByName (c1 : ClusterContainer) : List Cluster × ClusterContainer :=
  if c1.m_vectorClustersSortedByName.isEmpty then
    (c1.m_mapWithClustersSortedByName.map (fun p => p.2),
     { c1 with m_vectorClustersSortedByName :=
         c1.m_mapWithClustersSortedByName.map (fun p => p.2) })
  else (c1.m_vectorClustersSortedByName, c1)

/-- `ClusterContainer::getClustersSortedByKey`: ensures the multimap, then
flattens it into the cached vector if that is still empty. -/
def getClustersSortedByKey (c : ClusterContainer) : List Cluster × ClusterContainer :=
  flattenVectorByKey c.createMultimapClustersSortedByKey

/-- `ClusterContainer::getClustersSortedByName`. -/
def getClustersSortedByName (c : ClusterContainer) : List Cluster × ClusterContainer :=
  flattenVectorByName c.createMultimapClustersSortedByName

/-- `ClusterContainer::getClustersWithKey`: ensures the key multimap and walks
its equal range. -/
def getClustersWithKey (c : ClusterContainer) (key : Int) :
    List Cluster × ClusterContainer :=
  ((multimapEqualRangeByKey
      (c.createMultimapClustersSortedByKey).m_mapWithClustersSortedByKey key).map
        (fun p => p.2),
   c.createMultimapClustersSortedByKey)

/-- `ClusterContainer::getClustersWithName`. -/
def getClustersWithName (c : ClusterContainer) (name : String) :
    List Cluster × ClusterContainer :=
  ((multimapEqualRangeByName
      (c.createMultimapClustersSortedByName).m_mapWithClustersSortedByName name).map
        (fun p => p.2),
   c.createMultimapClustersSortedByName)

/-- `ClusterContainer::addKeyThatIsNotInAnyCluster`. -/
def addKeyThatIsNotInAnyCluster (c : ClusterContainer) (key : Int) : ClusterContainer :=
  { c with m_keysThatAreNotInAnyClusters := setInsertInt key c.m_keysThatAreNotInAnyClusters }

/-- `ClusterContainer::getKeysThatAreNotInAnyClusters`. -/
def getKeysThatAreNotInAnyClusters (c : ClusterContainer) : List Int :=
  c.m_keysThatAreNotInAnyClusters

/-- `ClusterContainer::getAllClusterKeys`: fills the sorted distinct key list
when it is empty, then returns it. -/
def getAllClusterKeys (c : ClusterContainer) : List Int × ClusterContainer :=
  if c.m_keysSorted.isEmpty then
    let keys := allClusterKeysOf c.m_clusters
    (keys, { c with m_keysSorted := keys })
  else (c.m_keysSorted, c)

end ClusterContainer

/-- Each cached sorted view of the container is either invalidated (empty) or
agrees with the view freshly computed from the current clusters. -/
def ClusterContainer.CacheConsistent (c : ClusterContainer) : Prop :=
  (c.m_mapWithClustersSortedByKey = [] ∨
     c.m_mapWithClustersSortedByKey = buildMultimapByKey c.m_clusters) ∧
  (c.m_mapWithClustersSortedByName = [] ∨
     c.m_mapWithClustersSortedByName = buildMultimapByName c.m_clusters) ∧
  (c.m_vectorClustersSortedByKey = [] ∨
     c.m_vectorClustersSortedByKey = (buildMultimapByKey c.m_clusters).map (fun p => p.2)) ∧
  (c.m_vectorClustersSortedByName = [] ∨
     c.m_vectorClustersSortedByName = (buildMultimapByName c.m_clusters).map (fun p => p.2)) ∧
  (c.m_keysSorted = [] ∨ c.m_keysSorted = allClusterKeysOf c.m_clusters)

instance (c : ClusterContainer) : Decidable c.CacheConsistent := by
  unfold ClusterContainer.CacheConsistent; infer_instance

/-- Concrete container used by closed witness statements: three clusters, two
of them sharing key 7. -/
def exampleContainerA : ClusterContainer :=
  ((ClusterContainer.new.addCluster ⟨7, "a", LocationType.LEFT, [⟨1, 2, 3⟩]⟩).addCluster
      ⟨3, "b", LocationType.RIGHT, []⟩).addCluster
    ⟨7, "c", LocationType.RIGHT, [⟨4, 5, 6⟩]⟩

/-- Concrete single-cluster container used by closed witness statements. -/
def exampleContainerB : ClusterContainer :=
  ClusterContainer.new.addCluster ⟨5, "x", LocationType.CENTRAL, [⟨-1, 0, 0⟩]⟩

/-- The body of the first loop: CENTRAL clusters contribute their split halves,
every other location type contributes nothing. -/
def splitCentralOnly (cl : Cluster) : List Cluster :=
  match cl.getLocationType with
  | LocationType.CENTRAL => cl.splitClusterIntoRightAndLeft
  | _ => []

/-- The four per-location accumulators of the per-key merge loop (the local
variables `unknownCluster`, `centralCluster`, `leftCluster`, `rightCluster`). -/
structure MergeBuckets where
  unknownCluster : Option Cluster
  centralCluster : Option Cluster
  leftCluster : Option Cluster
  rightCluster : Option Cluster
deriving DecidableEq, Repr

/-- All four accumulators start as NULL. -/
def emptyBuckets : MergeBuckets := ⟨none, none, none, none⟩

/-- One arm of the merge switch: `new Cluster(*cluster)` copies the first
cluster seen for a location, `mergeCoordinates` folds the later ones in. -/
def mergeSlot : Option Cluster → Cluster → Option Cluster
  | none, cl => some cl
  | some acc, cl => some (acc.mergeCoordinates cl)

/-- The switch on `cluster->getLocationType()` in the per-key merge loop. -/
def bucketStep (b : MergeBuckets) (cl : Cluster) : MergeBuckets :=
  match cl.getLocationType with
  | LocationType.UNKNOWN => { b with unknownCluster := mergeSlot b.unknownCluster cl }
  | LocationType.CENTRAL => { b with centralCluster := mergeSlot b.centralCluster cl }
  | LocationType.LEFT => { b with leftCluster := mergeSlot b.leftCluster cl }
  | LocationType.RIGHT => { b with rightCluster := mergeSlot b.rightCluster cl }

/-- Selects the accumulator for a location type. -/
def MergeBuckets.slot (b : MergeBuckets) : LocationType → Option Cluster
  | LocationType.UNKNOWN => b.unknownCluster
  | LocationType.CENTRAL => b.centralCluster
  | LocationType.LEFT => b.leftCluster
  | LocationType.RIGHT => b.rightCluster

/-- Adds a cluster to the output container when the accumulator is non-NULL. -/
def ClusterContainer.addOptCluster (out : ClusterContainer) :
    Option Cluster → ClusterContainer
  | some cl => out.addCluster cl
  | none => out

/-- The tail of the per-key loop: each non-NULL accumulator is added to the
output container, in the order unknown, central, left, right. -/
def emitBuckets (out : ClusterContainer) (b : MergeBuckets) : ClusterContainer :=
  (((out.addOptCluster b.unknownCluster).addOptCluster b.centralCluster).addOptCluster
      b.leftCluster).addOptCluster b.rightCluster

/-- The clusters that `emitBuckets` appends, in emission order. -/
def bucketList (b : MergeBuckets) : List Cluster :=
  b.unknownCluster.toList ++ b.centralCluster.toList ++
    b.leftCluster.toList ++ b.rightCluster.toList

/-- One step of the splitting loop of `mergeDisjointRightLeftClusters`:
re-reads the clusters with the key (filling the lazy cache) and collects the
split halves of the CENTRAL ones. -/
def mergePhase1Step (acc : List Cluster × ClusterContainer) (key : Int) :
    List Cluster × ClusterContainer :=
  (acc.1 ++ (acc.2.getClustersWithKey key).1.flatMap splitCentralOnly,
   (acc.2.getClustersWithKey key).2)

/-- One step of the merging loop of `mergeDisjointRightLeftClusters`: buckets
the live clusters with the key by location type and emits the merged
representatives into the output container. -/
def mergePhase2Step (acc : ClusterContainer × ClusterContainer) (key : Int) :
    ClusterContainer × ClusterContainer :=
  (emitBuckets acc.1 ((acc.2.getClustersWithKey key).1.foldl bucketStep emptyBuckets),
   (acc.2.getClustersWithKey key).2)

/-- `ClusterContainer::mergeDisjointRightLeftClusters`. The C++ method mutates
`this` (the split halves are added through `addCluster` so that they take part
in the merge loop; the CENTRAL originals are not removed) and returns a fresh
container; the embedding returns the pair (returned container, mutated self). -/
def ClusterContainer.mergeDisjointRightLeftClusters (c0 : ClusterContainer) :
    ClusterContainer × ClusterContainer :=
  (c0.getAllClusterKeys).1.foldl mergePhase2Step
    (ClusterContainer.new,
     ((c0.getAllClusterKeys).1.foldl mergePhase1Step
         ([], (c0.getAllClusterKeys).2)).1.foldl
       ClusterContainer.addCluster
       ((c0.getAllClusterKeys).1.foldl mergePhase1Step
         ([], (c0.getAllClusterKeys).2)).2)

/-- The clusters with a key, in container order (what `getClustersWithKey`
returns on a cache-consistent container). -/
def clustersWithKeyPure (cs : List Cluster) (k : Int) : List Cluster :=
  cs.filter (fun c => c.m_key == k)

/-- The split halves collected by the first loop, in loop order. -/
def mergePhase1Splits (cs : List Cluster) : List Cluster :=
  (allClusterKeysOf cs).flatMap
    (fun k => (clustersWithKeyPure cs k).flatMap splitCentralOnly)

/-- The merged representatives emitted for one key. -/
def mergedForKey (l : List Cluster) : List Cluster :=
  bucketList (l.foldl bucketStep emptyBuckets)

/-- Coalescing one location bucket: the first cluster copied, the others'
coordinates appended. -/
def mergeRun (l : List Cluster) : List Cluster :=
  match l with
  | [] => []
  | c :: rest =>
    [{ c with m_coordinateXYZ :=
        c.m_coordinateXYZ ++ rest.flatMap (fun x => x.m_coordinateXYZ) }]

/-- The cluster list of the container returned by
`mergeDisjointRightLeftClusters`, computed from the input cluster list. -/
def mergePure (cs : List Cluster) : List Cluster :=
  (allClusterKeysOf cs).flatMap
    (fun k => mergedForKey (clustersWithKeyPure (cs ++ mergePhase1Splits cs) k))

/-- The three-cluster scenario of the spec's example: one CENTRAL, one LEFT and
one RIGHT cluster, all with key 5, added in that order. -/
def c1ExampleContainer (nC nL nR : String) (cC cL cR : List V3) : ClusterContainer :=
  ((ClusterContainer.new.addCluster ⟨5, nC, LocationType.CENTRAL, cC⟩).addCluster
      ⟨5, nL, LocationType.LEFT, cL⟩).addCluster ⟨5, nR, LocationType.RIGHT, cR⟩

/-- `CaretHierarchy::Item`. -/
inductive Item where
  | mk (name : String) (id : String) (extraInfo : List (String × String))
       (children : List Item)

/-- The `name` member. -/
def Item.name : Item → String
  | .mk n _ _ _ => n

/-- The `id` member. -/
def Item.id : Item → String
  | .mk _ i _ _ => i

/-- The `extraInfo` member (`OrderedKVStore::getAllData`). -/
def Item.extraInfo : Item → List (String × String)
  | .mk _ _ e _ => e

/-- The `children` member. -/
def Item.children : Item → List Item
  | .mk _ _ _ ch => ch

mutual

/-- Decidable equality for the nested `Item` tree (the automatic deriving
does not handle the nesting). -/
def Item.decEq : (a b : Item) → Decidable (a = b)
  | .mk n1 i1 e1 c1, .mk n2 i2 e2 c2 =>
    match String.decEq n1 n2 with
    | isFalse h => isFalse (fun he => h (congrArg Item.name he))
    | isTrue h1 =>
      match String.decEq i1 i2 with
      | isFalse h => isFalse (fun he => h (congrArg Item.id he))
      | isTrue h2 =>
        match (inferInstance : Decidable (e1 = e2)) with
        | isFalse h => isFalse (fun he => h (congrArg Item.extraInfo he))
        | isTrue h3 =>
          match Item.decEqList c1 c2 with
          | isFalse h => isFalse (fun he => h (congrArg Item.children he))
          | isTrue h4 => isTrue (h1 ▸ h2 ▸ h3 ▸ h4 ▸ rfl)

def Item.decEqList : (a b : List Item) → Decidable (a = b)
  | [], [] => isTrue rfl
  | [], _ :: _ => isFalse (fun he => List.noConfusion he)
  | _ :: _, [] => isFalse (fun he => List.noConfusion he)
  | a :: as, b :: bs =>
    match Item.decEq a b with
    | isFalse h => isFalse (fun he => h (List.cons.inj he).1)
    | isTrue h1 =>
      match Item.decEqList as bs with
      | isFalse h => isFalse (fun he => h (List.cons.inj he).2)
      | isTrue h2 => isTrue (h1 ▸ h2 ▸ rfl)

end

instance : DecidableEq Item := Item.decEq

/-- `CaretHierarchy::Item::Item()`: empty name, id, store and children. -/
def emptyItem : Item := .mk "" "" [] []

mutual

/-- `CaretHierarchy::Item::add`: if this item is the parent, push the new item
onto the back of the children; otherwise search the children backwards
(reverse insertion order) and recurse, reporting whether some descendant
accepted the item. `none` models returning `false`, `some` carries the
updated subtree. -/
def Item.add (it : Item) (toAdd : Item) (parent : String) : Option Item :=
  match it with
  | .mk n i e ch =>
    if n = parent then some (.mk n i e (ch ++ [toAdd]))
    else match Item.addChildrenRev ch toAdd parent with
         | some ch2 => some (.mk n i e ch2)
         | none => none

/-- The backwards iteration over the children in `Item::add`: later children
are tried before earlier ones. -/
def Item.addChildrenRev (ch : List Item) (toAdd : Item) (parent : String) :
    Option (List Item) :=
  match ch with
  | [] => none
  | c :: rest =>
    match Item.addChildrenRev rest toAdd parent with
    | some rest2 => some (c :: rest2)
    | none =>
      match Item.add c toAdd parent with
      | some c2 => some (c2 :: rest)
      | none => none

end

mutual

/-- Names of the item and of all its descendants, in preorder. -/
def Item.names : Item → List String
  | .mk n _ _ ch => n :: Item.forestNames ch

def Item.forestNames : List Item → List String
  | [] => []
  | c :: rest => Item.names c ++ Item.forestNames rest

end

mutual

/-- The parent-name/child-name pairs of the tree below this item. -/
def Item.edges : Item → List (String × String)
  | .mk n _ _ ch => Item.forestEdges n ch

def Item.forestEdges (parent : String) : List Item → List (String × String)
  | [] => []
  | c :: rest => (parent, c.name) :: c.edges ++ Item.forestEdges parent rest

end

mutual

/-- Specification counterpart of `Item::add`: append `x` as last child of
every node named `p` (of the unique one, when names are unique). -/
def Item.graft (t : Item) (p : String) (x : Item) : Item :=
  match t with
  | .mk n i e ch =>
    if n = p then .mk n i e (Item.graftForest ch p x ++ [x])
    else .mk n i e (Item.graftForest ch p x)

def Item.graftForest (ch : List Item) (p : String) (x : Item) : List Item :=
  match ch with
  | [] => []
  | c :: rest => Item.graft c p x :: Item.graftForest rest p x

end

/-- The `caret::CaretHierarchy` state: the invisible root and the set of used
names. The `std::set<AString>` is modelled as a duplicate-free list; only
membership is ever queried. -/
structure CaretHierarchy where
  m_root : Item
  m_usedNames : List String
deriving DecidableEq

/-- `CaretHierarchy::CaretHierarchy()`: root item plus the reserved empty
name. -/
def initialHierarchy : CaretHierarchy := ⟨emptyItem, [""]⟩

/-- `CaretHierarchy::clear`: resets to the empty root and the reserved empty
name, regardless of the previous state. -/
def CaretHierarchy.clear (_h : CaretHierarchy) : CaretHierarchy := initialHierarchy

/-- `std::set::insert` on the used-name set. -/
def nameSetInsert (s : String) (l : List String) : List String :=
  if s ∈ l then l else l ++ [s]

/-- `CaretHierarchy::addItem` (without the `extraInfoOut` out-parameter, which
only hands back a pointer to the stored item's `extraInfo`; the XML reader
below reaches that store through the item's name instead, which is unique).
Returns the `bool` result next to the updated hierarchy. -/
def CaretHierarchy.addItem (h : CaretHierarchy) (toAdd : Item) (parent : String) :
    Bool × CaretHierarchy :=
  if toAdd.name ∈ h.m_usedNames then (false, h)
  else if parent ∉ h.m_usedNames then (false, h)
  else match h.m_root.add toAdd parent with
       | some root2 => (true, ⟨root2, nameSetInsert toAdd.name h.m_usedNames⟩)
       | none => (false, h)

/-- `CaretHierarchy::isEmpty` (declared in the header, not part of this
excerpt): the hierarchy is empty when the invisible root has no children. -/
def CaretHierarchy.isEmpty (h : CaretHierarchy) : Bool := h.m_root.children.isEmpty

/-- The class invariant tying the used-name set to the tree: a name is used
exactly when some item (or the root) bears it. Both quantifiers range over
lists, so the property is decidable. -/
def CaretHierarchy.UsedNamesConsistent (h : CaretHierarchy) : Prop :=
  (∀ s ∈ h.m_usedNames, s ∈ h.m_root.names) ∧
  (∀ s ∈ h.m_root.names, s ∈ h.m_usedNames)

instance (h : CaretHierarchy) : Decidable h.UsedNamesConsistent := by
  unfold CaretHierarchy.UsedNamesConsistent
  infer_instance

/-- Concrete two-item hierarchy used by closed witness statements. -/
def exampleHierarchy : CaretHierarchy :=
  ⟨Item.mk "" "" [] [Item.mk "a" "" [("k", "v")] []], ["", "a"]⟩

/-- Replay of a sequence of `addItem` calls, each `(item, parentName)`. -/
def runAddItems (h : CaretHierarchy) : List (Item × String) → CaretHierarchy
  | [] => h
  | (it, p) :: rest => runAddItems (h.addItem it p).2 rest

/-- The hierarchy invariant maintained by every `addItem` call on childless
items: consistent used names and unique tree names. -/
def HierarchyInv (h : CaretHierarchy) : Prop :=
  h.UsedNamesConsistent ∧ h.m_root.names.Nodup

instance (h : CaretHierarchy) : Decidable (HierarchyInv h) := by
  unfold HierarchyInv
  infer_instance

/-- One token of the Qt XML stream. -/
inductive XmlToken where
  | startElement (name : String) (attributes : List (String × String))
  | endElement (name : String)
  | other
deriving DecidableEq

/-- `attributes.value(key).toString()`: the attribute's value, or the empty
string when the attribute is absent. -/
def attrValue (attrs : List (String × String)) (key : String) : String :=
  (attrs.lookup key).getD ""

/-- Modelled from the spec: `OrderedKVStore::set` stores a key/value pair into
the annotation map — an existing key's value is replaced in place, a new key
is appended. -/
def kvSet (store : List (String × String)) (k v : String) : List (String × String) :=
  if (store.lookup k).isSome then
    store.map (fun q => if q.1 = k then (k, v) else q)
  else store ++ [(k, v)]

/-- The two tokens `Item::XMLWriteHelper` writes for one key/value pair. -/
def kvPairTokens (kv : String × String) : List XmlToken :=
  [XmlToken.startElement "InfoItem" [("Key", kv.1), ("Value", kv.2)],
   XmlToken.endElement "InfoItem"]

mutual

/-- `CaretHierarchy::Item::XMLWriteHelper`: the implicit root (empty name)
writes only its children; every other item writes an `Item` element with its
`Name` attribute, an `Info` block when the store is non-empty, its children,
and the end element. -/
def Item.writeTokens : Item → List XmlToken
  | .mk n _ e ch =>
    if n = "" then Item.forestWriteTokens ch
    else XmlToken.startElement "Item" [("Name", n)] ::
      ((if e.isEmpty then [] else
          XmlToken.startElement "Info" [] ::
            (e.flatMap kvPairTokens ++ [XmlToken.endElement "Info"])) ++
        (Item.forestWriteTokens ch ++ [XmlToken.endElement "Item"]))

def Item.forestWriteTokens : List Item → List XmlToken
  | [] => []
  | c :: rest => c.writeTokens ++ Item.forestWriteTokens rest

end

/-- `CaretHierarchy::writeXML`: the versioned wrapper element around the
root's helper output. -/
def CaretHierarchy.writeXML (h : CaretHierarchy) : List XmlToken :=
  XmlToken.startElement "CaretHierarchy" [("Version", "1")] ::
    (h.m_root.writeTokens ++ [XmlToken.endElement "CaretHierarchy"])

mutual

/-- Replaces the annotation store of every item named `nm` (of the unique one,
names being unique in hierarchies built through `addItem`). This models the
`extraInfoOut` pointer of `addItem`, through which the XML reader writes the
`Info` contents into the already-added item. -/
def Item.setInfoByName (t : Item) (nm : String) (kv : List (String × String)) : Item :=
  match t with
  | .mk n i e ch =>
    .mk n i (if n = nm then kv else e) (Item.setInfoByNameForest ch nm kv)

def Item.setInfoByNameForest (ch : List Item) (nm : String)
    (kv : List (String × String)) : List Item :=
  match ch with
  | [] => []
  | c :: rest => Item.setInfoByName c nm kv :: Item.setInfoByNameForest rest nm kv

end

/-- The hierarchy with the named item's annotation store replaced. -/
def updateItemInfo (h : CaretHierarchy) (nm : String)
    (kv : List (String × String)) : CaretHierarchy :=
  ⟨h.m_root.setInfoByName nm kv, h.m_usedNames⟩

/-- The token loop of `CaretHierarchy::readXML`. `parents` is the stack of
open item names seeded with the root's empty name (top at the head);
`addedInfo` is the parallel stack of open items whose stores an `Info` block
targets, kept as names (see `Item.setInfoByName`). The nested loop of
`OrderedKVStore::readXML` — entered on an `Info` start element, consuming
tokens up to and including the block's end element — is fused into this loop
as the `infoMode` state (`some store` while inside an `Info` block): the C++
sub-parser clears the store and then writes each `InfoItem`'s Key/Value pair
through the `extraInfoOut` pointer, so at every exit of the block (end
element, end of stream, or the raise on an unexpected element) the item's
store equals the pairs accumulated since the block opened, which is what the
fused automaton writes at those exits. Stray end elements that C++ would feed
to `pop_back` on an empty vector cannot be delivered by a well-formed Qt
stream; the embedding pops with `List.tail`, a no-op on the empty stack. The
`CaretAssert` on an unexpected end-element name is a release no-op; as in
C++, that branch records that the root element ended. -/
def readXMLLoop (h : CaretHierarchy) (parents : List String) (addedInfo : List String)
    (haveRoot rootEnded : Bool) (infoMode : Option (List (String × String))) :
    List XmlToken → CaretHierarchy × Option String
  | [] =>
    match infoMode with
    | none => (h, none)
    | some store => (updateItemInfo h (addedInfo.headD "") store, none)
  | XmlToken.startElement tagname attrs :: rest =>
    match infoMode with
    | some store =>
      if tagname = "InfoItem" then
        readXMLLoop h parents addedInfo haveRoot rootEnded
          (some (kvSet store (attrValue attrs "Key") (attrValue attrs "Value"))) rest
      else (updateItemInfo h (addedInfo.headD "") store,
            some "found unexpected element in Info context")
    | none =>
      if tagname = "CaretHierarchy" then
        if haveRoot then (h, some "found root CaretHierarchy element more than once")
        else if (attrs.lookup "Version").isSome = false then
          (h, some "no Version attribute in hierarchy XML")
        else if attrValue attrs "Version" ≠ "1" then
          (h, some "unknown hierarchy version")
        else readXMLLoop h parents addedInfo true rootEnded none rest
      else if tagname = "Item" then
        if haveRoot = false then (h, some "hierarchy XML is missing root element")
        else if rootEnded then (h, some "found Item tag after closing root tag")
        else if (h.addItem (Item.mk (attrValue attrs "Name") "" [] [])
            (parents.headD "")).1 then
          readXMLLoop
            (h.addItem (Item.mk (attrValue attrs "Name") "" [] []) (parents.headD "")).2
            (attrValue attrs "Name" :: parents) (attrValue attrs "Name" :: addedInfo)
            haveRoot rootEnded none rest
        else (h, some "failed to add item to hierarchy")
      else if tagname = "Info" then
        if addedInfo.isEmpty then (h, some "Info element not allowed at root level")
        else readXMLLoop h parents addedInfo haveRoot rootEnded (some []) rest
      else (h, some "unexpected element in hierarchy XML")
  | XmlToken.endElement name :: rest =>
    match infoMode with
    | some store =>
      if name = "InfoItem" then
        readXMLLoop h parents addedInfo haveRoot rootEnded (some store) rest
      else
        readXMLLoop (updateItemInfo h (addedInfo.headD "") store) parents addedInfo
          haveRoot rootEnded none rest
    | none =>
      if name = "Item" then
        readXMLLoop h parents.tail addedInfo.tail haveRoot rootEnded none rest
      else readXMLLoop h parents addedInfo haveRoot true none rest
  | XmlToken.other :: rest => readXMLLoop h parents addedInfo haveRoot rootEnded infoMode rest

/-- `CaretHierarchy::readXML`: clears the hierarchy, then runs the token loop
with the seeded parent stack. The final `xml.hasError()` check concerns
Qt-level well-formedness errors of the token source, outside this embedding. -/
def CaretHierarchy.readXML (h : CaretHierarchy) (toks : List XmlToken) :
    CaretHierarchy × Option String :=
  readXMLLoop h.clear [""] [] false false none toks

mutual

/-- Ids are not serialized to XML, so the round trip reproduces the tree with
every id reset to the empty string. -/
def Item.eraseIds : Item → Item
  | .mk n _ e ch => .mk n "" e (Item.eraseIdsForest ch)

def Item.eraseIdsForest : List Item → List Item
  | [] => []
  | c :: rest => c.eraseIds :: Item.eraseIdsForest rest

end

mutual

/-- Every node's annotation store has pairwise distinct keys — true of every
store built through `OrderedKVStore::set`. -/
def Item.kvNodup : Item → Bool
  | .mk _ _ e ch => decide (e.map Prod.fst).Nodup && Item.kvNodupForest ch

def Item.kvNodupForest : List Item → Bool
  | [] => true
  | c :: rest => c.kvNodup && Item.kvNodupForest rest

end

/-- Sequential grafting of erased subtrees under the parent named `p`: the
shape in which the XML reader rebuilds sibling subtrees. -/
def graftReplay (t : Item) (p : String) : List Item → Item
  | [] => t
  | c :: rest => graftReplay (t.graft p c.eraseIds) p rest

/-- Replay of `OrderedKVStore::set` over a pair list. -/
def kvFold (store : List (String × String)) (e : List (String × String)) :
    List (String × String) :=
  e.foldl (fun s kv => kvSet s kv.1 kv.2) store

/-- A Qt JSON value (`QJsonValue`). `num` carries the decimal rendering that
`AString::number(value, 'g', 16)` produces for the stored double — this
embedding treats the rendering as the number's identity, since only that
string ever reaches the hierarchy. `obj` holds a `QJsonObject`'s members in
the object's own iteration order: unique keys, sorted ascending, as Qt keeps
them; `QJsonObject::value` is association-list lookup on that list. -/
inductive JsonValue where
  | str (s : String)
  | boolean (b : Bool)
  | num (rendered : String)
  | jnull
  | arr (elems : List JsonValue)
  | obj (fields : List (String × JsonValue))

/-- `QJsonValue::toString`: the string payload, or empty for any
non-string value. -/
def JsonValue.toStr : JsonValue → String
  | .str s => s
  | _ => ""

/-- The `switch (valueobj.type())` of `handleJsonChild`: the string a
"stringish" value converts to (`Bool` to `"True"`/`"False"`, numbers to
their g16 rendering, strings to themselves), `none` for the `default:`
branch (`stringish = false`). -/
def JsonValue.stringish : JsonValue → Option String
  | .str s => some s
  | .boolean b => some (if b then "True" else "False")
  | .num r => some r
  | _ => none

/-- The `CaretException` message for an empty, non-string, or missing
`name` member (apostrophes of the original message omitted). -/
def jsonNameError (parent : String) : String :=
  if parent = "" then
    "empty, non-string, or missing name element in hierarchy json, in a top-level item"
  else
    "empty, non-string, or missing name element in hierarchy json, in children of "
      ++ parent

/-- The `CaretException` message when `addItem` rejects a JSON item. -/
def jsonAddFailError : String :=
  "failed to add hierarchy item, check whether all names are unique"

/-- Lexicographic comparison of character lists by code point. -/
def charListLt : List Char → List Char → Bool
  | [], [] => false
  | [], _ :: _ => true
  | _ :: _, [] => false
  | c :: cs, d :: ds =>
    if c.toNat < d.toNat then true
    else if d.toNat < c.toNat then false
    else charListLt cs ds

/-- The key order of `QJsonObject` (`QString::operator<`), by code point;
UTF-16 code-unit order and code-point order agree on the characters that
occur here. -/
def strLt (a b : String) : Bool := charListLt a.data b.data

/-- `QJsonObject::insert`: insert into the sorted-unique member list,
replacing the value when the key is already present. -/
def jsonObjInsert {α : Type} (fields : List (String × α)) (k : String) (v : α) :
    List (String × α) :=
  match fields with
  | [] => [(k, v)]
  | (k2, v2) :: rest =>
    if strLt k k2 then (k, v) :: (k2, v2) :: rest
    else if k = k2 then (k, v) :: rest
    else (k2, v2) :: jsonObjInsert rest k v

/-- A key/value store sorted by key, as a JSON write followed by a read
returns it: `QJsonObject` keeps members sorted, so the annotation pairs come
back in ascending key order. -/
def sortKV (e : List (String × String)) : List (String × String) :=
  e.foldl (fun acc kv => jsonObjInsert acc kv.1 kv.2) []

/-- Tags string pairs as JSON string members. -/
def liftKV (l : List (String × String)) : List (String × JsonValue) :=
  l.map (fun kv => (kv.1, JsonValue.str kv.2))

/-- `thisobj.value("name").toString()` of `handleJsonChild`. -/
def jsonFieldName (fields : List (String × JsonValue)) : String :=
  match fields.lookup "name" with
  | some v => v.toStr
  | none => ""

/-- The `keys()` loop of `handleJsonChild`: collect the stringish members
other than the reserved `name` and `children` into the item's store with
`OrderedKVStore::set`. -/
def jsonFieldsExtra (fields : List (String × JsonValue)) : List (String × String) :=
  fields.foldl
    (fun acc kv =>
      if kv.1 = "name" then acc
      else if kv.1 = "children" then acc
      else match kv.2.stringish with
        | some value => kvSet acc kv.1 value
        | none => acc)
    []

mutual

/-- `writeJsonHelper`: the JSON array for the children of `localroot`; the
name, id and store of `localroot` itself are not written. -/
def writeJsonHelper : Item → List JsonValue
  | .mk _ _ _ ch => writeJsonArr ch

def writeJsonArr : List Item → List JsonValue
  | [] => []
  | c :: rest => JsonValue.obj (writeJsonObj c) :: writeJsonArr rest

/-- The `childObj` built for one child: `name`, then every annotation pair
as a string member, then `children` when the child has any — each added with
`QJsonObject::insert`, so a reserved-key annotation overwrites. -/
def writeJsonObj : Item → List (String × JsonValue)
  | .mk n _ e ch =>
    if ch.isEmpty then
      e.foldl (fun acc kv => jsonObjInsert acc kv.1 (JsonValue.str kv.2))
        (jsonObjInsert [] "name" (JsonValue.str n))
    else
      jsonObjInsert
        (e.foldl (fun acc kv => jsonObjInsert acc kv.1 (JsonValue.str kv.2))
          (jsonObjInsert [] "name" (JsonValue.str n)))
        "children" (JsonValue.arr (writeJsonArr ch))

end

/-- `CaretHierarchy::writeJsonFile` up to the file system: the document
array is `writeJsonHelper(m_root)`. -/
def CaretHierarchy.writeJson (h : CaretHierarchy) : JsonValue :=
  JsonValue.arr (writeJsonHelper h.m_root)

mutual

/-- The loop of `recurseJsonArrayish` over a `QJsonArray`, with
`handleJsonChild` inlined in the object arm (and its empty-`name` failure in
the other arms, which is all `handleJsonChild` does on the empty object that
`toObject()` makes of a non-object element) so that the recursion is
structural; an exception stops the iteration with the state it was thrown
in. -/
def jsonChildList (h : CaretHierarchy) (parent : String) :
    List JsonValue → CaretHierarchy × Option String
  | [] => (h, none)
  | JsonValue.obj fields :: rest =>
    if jsonFieldName fields = "" then (h, some (jsonNameError parent))
    else if (h.addItem (Item.mk (jsonFieldName fields) "" (jsonFieldsExtra fields) [])
        parent).1 then
      match jsonScanChildren
          (h.addItem (Item.mk (jsonFieldName fields) "" (jsonFieldsExtra fields) [])
            parent).2
          (jsonFieldName fields) fields with
      | (h3, none) => jsonChildList h3 parent rest
      | (h3, some err) => (h3, some err)
    else (h, some jsonAddFailError)
  | _ :: _ => (h, some (jsonNameError parent))

/-- `thisobj.contains("children")` followed by the recursion on
`thisobj.value("children")`: scan the members for the unique `children` key
and recurse into its value. -/
def jsonScanChildren (h : CaretHierarchy) (nm : String) :
    List (String × JsonValue) → CaretHierarchy × Option String
  | [] => (h, none)
  | (k, v) :: rest =>
    if k = "children" then recurseJsonArrayish h nm v
    else jsonScanChildren h nm rest

/-- `recurseJsonArrayish`: arrays element-wise, anything else as a single
child object (`handleJsonChild` inlined as in `jsonChildList`). -/
def recurseJsonArrayish (h : CaretHierarchy) (parent : String) :
    JsonValue → CaretHierarchy × Option String
  | JsonValue.arr elems => jsonChildList h parent elems
  | JsonValue.obj fields =>
    if jsonFieldName fields = "" then (h, some (jsonNameError parent))
    else if (h.addItem (Item.mk (jsonFieldName fields) "" (jsonFieldsExtra fields) [])
        parent).1 then
      jsonScanChildren
        (h.addItem (Item.mk (jsonFieldName fields) "" (jsonFieldsExtra fields) [])
          parent).2
        (jsonFieldName fields) fields
    else (h, some jsonAddFailError)
  | _ => (h, some (jsonNameError parent))

end

/-- `CaretHierarchy::readJsonFile` up to the file system: clear, then
recurse from the document value with the empty parent name; a
`CaretException` is returned as the error component with the state it left
behind. -/
def CaretHierarchy.readJson (h : CaretHierarchy) (v : JsonValue) :
    CaretHierarchy × Option String :=
  recurseJsonArrayish h.clear "" v

mutual

/-- What a JSON round trip preserves of an item: the name and the
parent/child structure survive unchanged, the id is not written at all, and
the annotation store comes back sorted by key (`QJsonObject` orders its
members). -/
def Item.jsonNorm : Item → Item
  | .mk n _ e ch => .mk n "" (sortKV e) (Item.jsonNormForest ch)

def Item.jsonNormForest : List Item → List Item
  | [] => []
  | c :: rest => c.jsonNorm :: Item.jsonNormForest rest

end

mutual

/-- No annotation key collides with the reserved JSON member names `name`
and `children`, anywhere in the subtree. -/
def Item.jsonKeysOK : Item → Bool
  | .mk _ _ e ch =>
    decide ("name" ∉ e.map Prod.fst) && decide ("children" ∉ e.map Prod.fst) &&
      Item.jsonKeysOKForest ch

def Item.jsonKeysOKForest : List Item → Bool
  | [] => true
  | c :: rest => c.jsonKeysOK && Item.jsonKeysOKForest rest

end

/-- The JSON analogue of `graftReplay`: grafting the normalised subtrees one
at a time, as reading the written children replays them. -/
def jsonGraftReplay (t : Item) (p : String) : List Item → Item
  | [] => t
  | c :: rest => jsonGraftReplay (t.graft p c.jsonNorm) p rest

/-- Key lists are pairwise strictly increasing: the shape `QJsonObject`
keeps its member list in. -/
def KeySorted {α : Type} (l : List (String × α)) : Prop :=
  l.Pairwise (fun x y => strLt x.1 y.1 = true)

/-- The member filter that `handleJsonChild` applies: everything except the
reserved `name` and `children` keys. -/
def jsonPlainKey {α : Type} (kv : String × α) : Bool :=
  !(kv.1 == "name") && !(kv.1 == "children")

/-- The string-level image of the `keys()` collection loop, for lists whose
values are all strings. -/
def strExtract (l : List (String × String)) : List (String × String) :=
  l.foldl
    (fun acc kv =>
      if kv.1 = "name" then acc
      else if kv.1 = "children" then acc
      else kvSet acc kv.1 kv.2)
    []

/-- Modelled from the spec (GiftiLabel sources are not in this excerpt): a
label's key, name, and colour (the colour as the four bytes that
`getLabelRGBA` converts it to). -/
structure GiftiLabel where
  m_key : Int
  m_name : String
  m_rgba : List Nat

/-- Modelled from the spec (GiftiLabelTable sources are not in this
excerpt): the label list, the unassigned-label key, and the attached
hierarchy, which is everything `LabelSelectionItemModel` reads from it. -/
structure GiftiLabelTable where
  m_labels : List GiftiLabel
  m_unassignedKey : Int
  m_hierarchy : CaretHierarchy

/-- Modelled from the spec: `GiftiLabelTable::getLabel(name)` — the label
with the given name, NULL when absent. -/
def GiftiLabelTable.getLabel (t : GiftiLabelTable) (name : String) :
    Option GiftiLabel :=
  t.m_labels.find? (fun l => l.m_name == name)

/-- Modelled from the spec: `GiftiLabelTable::getLabelName(key)`. -/
def GiftiLabelTable.getLabelName (t : GiftiLabelTable) (key : Int) : String :=
  match t.m_labels.find? (fun l => l.m_key == key) with
  | some l => l.m_name
  | none => ""

/-- Modelled from the spec: `GiftiLabelTable::getUnassignedLabelKey()`. -/
def GiftiLabelTable.getUnassignedLabelKey (t : GiftiLabelTable) : Int :=
  t.m_unassignedKey

/-- Modelled from the spec: `GiftiLabelTable::getLabelKeysSortedByName()` —
the label keys listed in ascending label-name order (one key per name). -/
def GiftiLabelTable.getLabelKeysSortedByName (t : GiftiLabelTable) : List Int :=
  (t.m_labels.foldl (fun acc l => jsonObjInsert acc l.m_name l.m_key) []).map
    Prod.snd

/-- A `std::set<AString>` insertion: sorted, without duplicates. -/
def strSetInsert (l : List String) (s : String) : List String :=
  match l with
  | [] => [s]
  | x :: rest =>
    if strLt s x then s :: x :: rest
    else if s = x then x :: rest
    else x :: strSetInsert rest s

/-- Insertion into the key set of `m_labelKeyToLabelSelectionItem` (the
`std::map` is modelled by its key set plus the item trees the build
returns; the map's values are pointers into those trees). -/
def intListInsert (l : List Int) (k : Int) : List Int :=
  if l.contains k then l else l ++ [k]

/-- A `LabelSelectionItem` with the fields this model writes: display name,
ontology id, label key, colour, clusters, checked and enabled flags, the
appended tool-tip lines, and the child rows. -/
inductive LabelSelectionItem where
  | mk (name : String) (id : String) (labelKey : Int) (rgba : List Nat)
      (clusters : List Cluster) (checked : Bool) (enabled : Bool)
      (toolTipExtra : List String) (children : List LabelSelectionItem)

/-- `LabelSelectionItemModel::getLabelRGBA`: the label's colour bytes, or
white for NULL. -/
def getLabelRGBA (label : Option GiftiLabel) : List Nat :=
  match label with
  | some l => l.m_rgba
  | none => [255, 255, 255, 255]

/-- The `if (clusterContainer != NULL) itemOut->setClusters(...)` pattern:
with a NULL container the item keeps no clusters; otherwise the container's
lazy cache may be built by the read, so the mutated container is returned
alongside. -/
def optGetClustersWithKey (clusterContainer : Option ClusterContainer)
    (key : Int) : List Cluster × Option ClusterContainer :=
  match clusterContainer with
  | some cc => ((cc.getClustersWithKey key).1, some (cc.getClustersWithKey key).2)
  | none => ([], none)

/-- The state `buildTree` accumulates in the model: the key set of
`m_labelKeyToLabelSelectionItem`, `m_buildTreeMissingLabelNames`, and
`m_hierarchyParentNames`. -/
structure BuildTreeState where
  m_labelKeyToLabelSelectionItem : List Int
  m_buildTreeMissingLabelNames : List String
  m_hierarchyParentNames : List String

namespace LabelSelectionItemModel

mutual

/-- `LabelSelectionItemModel::buildTree`: build one item for the hierarchy
node — with label key, colour, and (NULL-guarded) clusters when the label
table knows the name — then its children; register the key, record parent
and missing-label names, and disable a childless item with no label. -/
def buildTree (hierarchyItem : Item) (giftiLabelTable : GiftiLabelTable)
    (clusterContainer : Option ClusterContainer) (st : BuildTreeState) :
    LabelSelectionItem × BuildTreeState × Option ClusterContainer :=
  match hierarchyItem with
  | .mk nm idv _ ch =>
    match ch with
    | [] =>
      match giftiLabelTable.getLabel nm with
      | some gl =>
        (LabelSelectionItem.mk nm idv gl.m_key gl.m_rgba
          (optGetClustersWithKey clusterContainer gl.m_key).1 false true [] [],
         { st with m_labelKeyToLabelSelectionItem :=
            if gl.m_key ≥ 0 then
              intListInsert st.m_labelKeyToLabelSelectionItem gl.m_key
            else st.m_labelKeyToLabelSelectionItem },
         (optGetClustersWithKey clusterContainer gl.m_key).2)
      | none =>
        (LabelSelectionItem.mk nm idv (-1) [255, 255, 255, 255]
          (optGetClustersWithKey clusterContainer (-1)).1 false false
          ["There is no label in the label table for this name"] [],
         { st with m_buildTreeMissingLabelNames :=
            strSetInsert st.m_buildTreeMissingLabelNames nm },
         (optGetClustersWithKey clusterContainer (-1)).2)
    | c :: crest =>
      match giftiLabelTable.getLabel nm with
      | some gl =>
        match buildTreeForest (c :: crest) giftiLabelTable
            (optGetClustersWithKey clusterContainer gl.m_key).2 st with
        | (childItems, st2, cc2) =>
          (LabelSelectionItem.mk nm idv gl.m_key gl.m_rgba
            (optGetClustersWithKey clusterContainer gl.m_key).1 false true []
            childItems,
           { st2 with
              m_labelKeyToLabelSelectionItem :=
                if gl.m_key ≥ 0 then
                  intListInsert st2.m_labelKeyToLabelSelectionItem gl.m_key
                else st2.m_labelKeyToLabelSelectionItem,
              m_hierarchyParentNames :=
                strSetInsert st2.m_hierarchyParentNames nm },
           cc2)
      | none =>
        match buildTreeForest (c :: crest) giftiLabelTable clusterContainer st with
        | (childItems, st2, cc2) =>
          (LabelSelectionItem.mk nm idv (-1) [255, 255, 255, 255] [] false true []
            childItems,
           { st2 with m_hierarchyParentNames :=
              strSetInsert st2.m_hierarchyParentNames nm },
           cc2)

def buildTreeForest (items : List Item) (giftiLabelTable : GiftiLabelTable)
    (clusterContainer : Option ClusterContainer) (st : BuildTreeState) :
    List LabelSelectionItem × BuildTreeState × Option ClusterContainer :=
  match items with
  | [] => ([], st, clusterContainer)
  | it :: rest =>
    match buildTree it giftiLabelTable clusterContainer st with
    | (item, st2, cc2) =>
      match buildTreeForest rest giftiLabelTable cc2 st2 with
      | (items2, st3, cc3) => (item :: items2, st3, cc3)

end

/-- The per-key scan of `buildModel` that classifies label-table keys
absent from the built map: names that are parents in the hierarchy versus
names missing from the hierarchy (both `std::set<AString>`, sorted). -/
def mismatchNames (t : GiftiLabelTable) (mapped : List Int)
    (parentNames : List String) : List String × List String :=
  t.getLabelKeysSortedByName.foldl
    (fun acc key =>
      if key == t.getUnassignedLabelKey then acc
      else if mapped.contains key then acc
      else if parentNames.contains (t.getLabelName key) then
        (acc.1, strSetInsert acc.2 (t.getLabelName key))
      else (strSetInsert acc.1 (t.getLabelName key), acc.2))
    ([], [])

/-- The "Label Table Only" loop of `buildModel`: one child item per missing
name that the label table still knows, clusters NULL-guarded, and the key
registered. -/
def labelTableOnlyItems : GiftiLabelTable → List String → List Int →
    Option ClusterContainer →
    List LabelSelectionItem × List Int × Option ClusterContainer
  | _, [], mapped, cc => ([], mapped, cc)
  | t, name :: rest, mapped, cc =>
    match t.getLabel name with
    | none => labelTableOnlyItems t rest mapped cc
    | some gl =>
      match labelTableOnlyItems t rest (intListInsert mapped gl.m_key)
          (optGetClustersWithKey cc gl.m_key).2 with
      | (items2, mapped2, cc2) =>
        (LabelSelectionItem.mk name "" gl.m_key gl.m_rgba
          (optGetClustersWithKey cc gl.m_key).1 false true [] [] :: items2,
         mapped2, cc2)

mutual

/-- The final per-key loop of `buildModel` on the items of the key map
(walked here over the trees that hold them): a key used by no brainordinate
gets the tool-tip note, and is disabled when the item is childless. -/
def markKeysNotInAnyCluster (keysNotInClusters mapped : List Int) :
    LabelSelectionItem → LabelSelectionItem
  | .mk nm idv key rgba cl chk en tt ch =>
    if mapped.contains key && keysNotInClusters.contains key then
      LabelSelectionItem.mk nm idv key rgba cl chk
        (if ch.isEmpty then false else en)
        (tt ++ ["This label is not used by any brainordinates"])
        (markForest keysNotInClusters mapped ch)
    else
      LabelSelectionItem.mk nm idv key rgba cl chk en tt
        (markForest keysNotInClusters mapped ch)

def markForest (keysNotInClusters mapped : List Int) :
    List LabelSelectionItem → List LabelSelectionItem
  | [] => []
  | c :: rest =>
    markKeysNotInAnyCluster keysNotInClusters mapped c ::
      markForest keysNotInClusters mapped rest

end

mutual

/-- Modelled from the spec (LabelSelectionItem sources are not in this
excerpt): `setCheckedStatusOfAllItems(true)` followed by
`updateCheckedStateOfAllItems()` leaves every item checked. -/
def setAllChecked : LabelSelectionItem → LabelSelectionItem
  | .mk nm idv key rgba cl _ en tt ch =>
    LabelSelectionItem.mk nm idv key rgba cl true en tt (setAllCheckedForest ch)

def setAllCheckedForest : List LabelSelectionItem → List LabelSelectionItem
  | [] => []
  | c :: rest => setAllChecked c :: setAllCheckedForest rest

end

end LabelSelectionItemModel

/-- The model state `buildModel` leaves behind (`setCenterOfGravityFromChildren`
concerns display geometry outside this excerpt and is omitted). -/
structure LabelSelectionItemModel where
  m_topLevelItems : List LabelSelectionItem
  m_labelKeyToLabelSelectionItem : List Int
  m_buildTreeMissingLabelNames : List String
  m_hierarchyParentNames : List String
  m_validFlag : Bool

/-- `LabelSelectionItemModel::isValid`. -/
def LabelSelectionItemModel.isValid (m : LabelSelectionItemModel) : Bool :=
  m.m_validFlag

/-- `LabelSelectionItemModel::buildModel`, the container passed as an
`Option` (`may be NULL`); `none` as a result is the NULL-pointer fault. The
build clears its state, returns early (still invalid) on an empty
hierarchy, builds the top-level trees, appends the "Label Table Only"
group, and then reads `clusterContainer->getKeysThatAreNotInAnyClusters()`
WITHOUT a NULL check (LabelSelectionItemModel.cxx:271) before marking
unused keys, checking all items, and setting `m_validFlag`. -/
def LabelSelectionItemModel.buildModel (t : GiftiLabelTable)
    (clusterContainer : Option ClusterContainer) :
    Option (LabelSelectionItemModel × Option ClusterContainer) :=
  if t.m_hierarchy.isEmpty then
    some (⟨[], [], [], [], false⟩, clusterContainer)
  else
    match LabelSelectionItemModel.buildTreeForest t.m_hierarchy.m_root.children t
        clusterContainer ⟨[], [], []⟩ with
    | (topLevelItems1, st1, cc1) =>
      match LabelSelectionItemModel.mismatchNames t
          st1.m_labelKeyToLabelSelectionItem st1.m_hierarchyParentNames with
      | (missingHierarchyNames, _parentInHierarchyNames) =>
        match LabelSelectionItemModel.labelTableOnlyItems t missingHierarchyNames
            st1.m_labelKeyToLabelSelectionItem cc1 with
        | (tableOnlyChildren, mapped2, cc2) =>
          match cc2 with
          | none => none
          | some cc =>
            some
              (⟨LabelSelectionItemModel.setAllCheckedForest
                  (LabelSelectionItemModel.markForest
                    cc.getKeysThatAreNotInAnyClusters mapped2
                    (topLevelItems1 ++
                      (if missingHierarchyNames.isEmpty then []
                       else [LabelSelectionItem.mk "Label Table Only" "" (-1)
                          [255, 255, 255, 255] [] false true []
                          tableOnlyChildren]))),
                mapped2, st1.m_buildTreeMissingLabelNames,
                st1.m_hierarchyParentNames, true⟩,
               some cc)

/-! ## The verification -/

theorem cacheConsistent_new : ClusterContainer.new.CacheConsistent := by
  simp [ClusterContainer.new, ClusterContainer.CacheConsistent]

/-- A mutation through `addCluster` leaves every cache invalidated, hence
consistent, and appends the cluster to the current clusters. -/
theorem addCluster_spec (c : ClusterContainer) (cl : Cluster) :
    (c.addCluster cl).m_clusters = c.m_clusters ++ [cl] ∧
    (c.addCluster cl).CacheConsistent := by
  simp [ClusterContainer.addCluster, ClusterContainer.clearSortedContainers,
    ClusterContainer.CacheConsistent]

/-- `clear` empties the clusters and leaves every cache invalidated. -/
theorem clear_spec (c : ClusterContainer) :
    (c.clear).m_clusters = [] ∧ (c.clear).CacheConsistent := by
  simp [ClusterContainer.clear, ClusterContainer.clearSortedContainers,
    ClusterContainer.CacheConsistent]

theorem createMultimapClustersSortedByKey_spec (c : ClusterContainer)
    (hc : c.CacheConsistent) :
    (c.createMultimapClustersSortedByKey).m_mapWithClustersSortedByKey =
        buildMultimapByKey c.m_clusters ∧
    (c.createMultimapClustersSortedByKey).m_clusters = c.m_clusters ∧
    (c.createMultimapClustersSortedByKey).m_keysThatAreNotInAnyClusters =
        c.m_keysThatAreNotInAnyClusters ∧
    (c.createMultimapClustersSortedByKey).CacheConsistent := by
  obtain ⟨h1, h2, h3, h4, h5⟩ := hc
  unfold ClusterContainer.createMultimapClustersSortedByKey
  by_cases he : c.m_mapWithClustersSortedByKey.isEmpty = true
  · rw [if_pos he]
    refine ⟨rfl, rfl, rfl, ?_⟩
    exact ⟨Or.inr rfl, h2, h3, h4, h5⟩
  · rw [if_neg he]
    rcases h1 with h1 | h1
    · exact absurd (by simp [h1]) he
    · exact ⟨h1, rfl, rfl, Or.inr h1, h2, h3, h4, h5⟩

theorem createMultimapClustersSortedByName_spec (c : ClusterContainer)
    (hc : c.CacheConsistent) :
    (c.createMultimapClustersSortedByName).m_mapWithClustersSortedByName =
        buildMultimapByName c.m_clusters ∧
    (c.createMultimapClustersSortedByName).m_clusters = c.m_clusters ∧
    (c.createMultimapClustersSortedByName).CacheConsistent := by
  obtain ⟨h1, h2, h3, h4, h5⟩ := hc
  unfold ClusterContainer.createMultimapClustersSortedByName
  by_cases he : c.m_mapWithClustersSortedByName.isEmpty = true
  · rw [if_pos he]
    exact ⟨rfl, rfl, h1, Or.inr rfl, h3, h4, h5⟩
  · rw [if_neg he]
    rcases h2 with h2 | h2
    · exact absurd (by simp [h2]) he
    · exact ⟨h2, rfl, h1, Or.inr h2, h3, h4, h5⟩

/-- Reading `getClustersWithKey` on a cache-consistent container walks the
equal range of the multimap computed from the current clusters, and preserves
the clusters and the invariant. -/
theorem getClustersWithKey_state_spec (c : ClusterContainer) (k : Int)
    (hc : c.CacheConsistent) :
    (c.getClustersWithKey k).1 =
        (multimapEqualRangeByKey (buildMultimapByKey c.m_clusters) k).map (fun p => p.2) ∧
    (c.getClustersWithKey k).2.m_clusters = c.m_clusters ∧
    (c.getClustersWithKey k).2.m_keysThatAreNotInAnyClusters =
        c.m_keysThatAreNotInAnyClusters ∧
    (c.getClustersWithKey k).2.CacheConsistent := by
  obtain ⟨hmap, hclusters, hkeys, hcons⟩ := createMultimapClustersSortedByKey_spec c hc
  refine ⟨?_, hclusters, hkeys, hcons⟩
  show (multimapEqualRangeByKey
      (c.createMultimapClustersSortedByKey).m_mapWithClustersSortedByKey k).map
        (fun p => p.2) = _
  rw [hmap]

/-- Reading `getAllClusterKeys` on a cache-consistent container returns the
sorted distinct keys of the current clusters, preserving the invariant. -/
theorem getAllClusterKeys_state_spec (c : ClusterContainer) (hc : c.CacheConsistent) :
    (c.getAllClusterKeys).1 = allClusterKeysOf c.m_clusters ∧
    (c.getAllClusterKeys).2.m_clusters = c.m_clusters ∧
    (c.getAllClusterKeys).2.m_keysThatAreNotInAnyClusters =
        c.m_keysThatAreNotInAnyClusters ∧
    (c.getAllClusterKeys).2.CacheConsistent := by
  obtain ⟨h1, h2, h3, h4, h5⟩ := hc
  unfold ClusterContainer.getAllClusterKeys
  by_cases he : c.m_keysSorted.isEmpty = true
  · rw [if_pos he]
    exact ⟨rfl, rfl, rfl, h1, h2, h3, h4, Or.inr rfl⟩
  · rw [if_neg he]
    rcases h5 with h5 | h5
    · exact absurd (by simp [h5]) he
    · exact ⟨h5, rfl, rfl, h1, h2, h3, h4, Or.inr h5⟩

theorem mem_multimapInsert [LinearOrder α] (p q : α × β) (m : List (α × β))
    (h : q ∈ multimapInsert p m) : q = p ∨ q ∈ m := by
  induction m with
  | nil => simpa [multimapInsert] using h
  | cons a rest ih =>
    by_cases hle : a.1 ≤ p.1
    · simp only [multimapInsert, if_pos hle] at h
      rcases List.mem_cons.mp h with h1 | h2
      · exact Or.inr (List.mem_cons.mpr (Or.inl h1))
      · rcases ih h2 with h3 | h4
        · exact Or.inl h3
        · exact Or.inr (List.mem_cons.mpr (Or.inr h4))
    · simp only [multimapInsert, if_neg hle] at h
      rcases List.mem_cons.mp h with h1 | h2
      · exact Or.inl h1
      · exact Or.inr h2

theorem pairwise_multimapInsert [LinearOrder α] (p : α × β) (m : List (α × β))
    (h : m.Pairwise (fun a b => a.1 ≤ b.1)) :
    (multimapInsert p m).Pairwise (fun a b => a.1 ≤ b.1) := by
  induction m with
  | nil => simp [multimapInsert]
  | cons a rest ih =>
    rcases List.pairwise_cons.mp h with ⟨ha, hrest⟩
    by_cases hle : a.1 ≤ p.1
    · simp only [multimapInsert, if_pos hle]
      refine List.pairwise_cons.mpr ⟨?_, ih hrest⟩
      intro q hq
      rcases mem_multimapInsert p q rest hq with rfl | hq2
      · exact hle
      · exact ha q hq2
    · simp only [multimapInsert, if_neg hle]
      have hpa : p.1 ≤ a.1 := le_of_not_le hle
      refine List.pairwise_cons.mpr ⟨?_, h⟩
      intro q hq
      rcases List.mem_cons.mp hq with rfl | hq2
      · exact hpa
      · exact le_trans hpa (ha q hq2)

theorem filter_multimapInsert [LinearOrder α] [BEq α] [LawfulBEq α]
    (p : α × β) (m : List (α × β)) (k : α)
    (h : m.Pairwise (fun a b => a.1 ≤ b.1)) :
    (multimapInsert p m).filter (fun q => q.1 == k) =
      if p.1 = k then m.filter (fun q => q.1 == k) ++ [p]
      else m.filter (fun q => q.1 == k) := by
  induction m with
  | nil => by_cases hpk : p.1 = k <;> simp [multimapInsert, hpk]
  | cons a rest ih =>
    rcases List.pairwise_cons.mp h with ⟨ha, hrest⟩
    by_cases hle : a.1 ≤ p.1
    · simp only [multimapInsert, if_pos hle, List.filter_cons]
      rw [ih hrest]
      by_cases hpk : p.1 = k <;> by_cases hak : a.1 = k <;> simp [hpk, hak]
    · have hlt : p.1 < a.1 := not_le.mp hle
      simp only [multimapInsert, if_neg hle]
      have hnil : ∀ m2 : α, p.1 = m2 →
          (a :: rest).filter (fun q => q.1 == m2) = [] := by
        intro m2 hm
        refine List.filter_eq_nil_iff.mpr ?_
        intro q hq
        rcases List.mem_cons.mp hq with rfl | hq2
        · simpa using hm ▸ ne_of_gt hlt
        · have h2 : a.1 ≤ q.1 := ha q hq2
          simpa using hm ▸ ne_of_gt (lt_of_lt_of_le hlt h2)
      by_cases hpk : p.1 = k
      · rw [List.filter_cons_of_pos (by simpa using hpk), hnil k hpk, if_pos hpk]
        rfl
      · rw [List.filter_cons_of_neg (by simpa using hpk), if_neg hpk]

theorem filter_foldl_multimapInsert [LinearOrder α] [BEq α] [LawfulBEq α]
    (key : Cluster → α) (cs : List Cluster) (m : List (α × Cluster)) (k : α)
    (h : m.Pairwise (fun a b => a.1 ≤ b.1)) :
    (cs.foldl (fun acc c => multimapInsert (key c, c) acc) m).filter
        (fun q => q.1 == k) =
      m.filter (fun q => q.1 == k) ++
        (cs.filter (fun c => key c == k)).map (fun c => (key c, c)) := by
  induction cs generalizing m with
  | nil => simp
  | cons c rest ih =>
    simp only [List.foldl_cons, List.filter_cons]
    rw [ih (multimapInsert (key c, c) m) (pairwise_multimapInsert _ m h)]
    rw [filter_multimapInsert (key c, c) m k h]
    by_cases hck : key c = k <;> simp [hck]

/-- Equal range against the freshly built key multimap is exactly the filter of
the clusters in container order: the multimap keeps equal keys in insertion
order. -/
theorem equalRange_buildMultimapByKey (cs : List Cluster) (k : Int) :
    (multimapEqualRangeByKey (buildMultimapByKey cs) k).map (fun p => p.2) =
      cs.filter (fun c => c.m_key == k) := by
  unfold multimapEqualRangeByKey multimapEqualRange buildMultimapByKey
  rw [filter_foldl_multimapInsert (fun c => c.m_key) cs [] k (by simp)]
  simp [List.map_map, Function.comp_def]

/-- Equal range against the freshly built name multimap is exactly the filter
of the clusters in container order. -/
theorem equalRange_buildMultimapByName (cs : List Cluster) (nm : String) :
    (multimapEqualRangeByName (buildMultimapByName cs) nm).map (fun p => p.2) =
      cs.filter (fun c => c.m_name == nm) := by
  unfold multimapEqualRangeByName multimapEqualRange buildMultimapByName
  rw [filter_foldl_multimapInsert (fun c => c.m_name) cs [] nm (by simp)]
  simp [List.map_map, Function.comp_def]

theorem getClustersWithName_state_spec (c : ClusterContainer) (nm : String)
    (hc : c.CacheConsistent) :
    (c.getClustersWithName nm).1 =
        (multimapEqualRangeByName (buildMultimapByName c.m_clusters) nm).map
          (fun p => p.2) ∧
    (c.getClustersWithName nm).2.m_clusters = c.m_clusters ∧
    (c.getClustersWithName nm).2.CacheConsistent := by
  obtain ⟨hmap, hclusters, hcons⟩ := createMultimapClustersSortedByName_spec c hc
  refine ⟨?_, hclusters, hcons⟩
  show (multimapEqualRangeByName
      (c.createMultimapClustersSortedByName).m_mapWithClustersSortedByName nm).map
        (fun p => p.2) = _
  rw [hmap]

theorem getClustersSortedByKey_spec (c : ClusterContainer) (hc : c.CacheConsistent) :
    (c.getClustersSortedByKey).1 = (buildMultimapByKey c.m_clusters).map (fun p => p.2) := by
  obtain ⟨hmap, hclus, _, hcons⟩ := createMultimapClustersSortedByKey_spec c hc
  obtain ⟨_, _, k3, _, _⟩ := hcons
  unfold ClusterContainer.getClustersSortedByKey ClusterContainer.flattenVectorByKey
  by_cases he :
      (c.createMultimapClustersSortedByKey).m_vectorClustersSortedByKey.isEmpty = true
  · rw [if_pos he]
    dsimp only
    rw [hmap]
  · rw [if_neg he]
    dsimp only
    rcases k3 with k3 | k3
    · exact absurd (by simp [k3]) he
    · rw [k3, hclus]

theorem getClustersSortedByName_spec (c : ClusterContainer) (hc : c.CacheConsistent) :
    (c.getClustersSortedByName).1 = (buildMultimapByName c.m_clusters).map (fun p => p.2) := by
  obtain ⟨hmap, hclus, hcons⟩ := createMultimapClustersSortedByName_spec c hc
  obtain ⟨_, _, _, k4, _⟩ := hcons
  unfold ClusterContainer.getClustersSortedByName ClusterContainer.flattenVectorByName
  by_cases he :
      (c.createMultimapClustersSortedByName).m_vectorClustersSortedByName.isEmpty = true
  · rw [if_pos he]
    dsimp only
    rw [hmap]
  · rw [if_neg he]
    dsimp only
    rcases k4 with k4 | k4
    · exact absurd (by simp [k4]) he
    · rw [k4, hclus]

/-- C9: `getClustersWithKey(k)` returns exactly those clusters of the container
whose key equals `k`, each exactly once and in container order (an order
consistent with insertion order), and the empty vector when no cluster has
key `k`. The hypothesis is the lazy-cache invariant, which holds for every
container reachable through the class interface. -/
theorem C9_getClustersWithKey_exact (c : ClusterContainer) (k : Int)
    (hc : c.CacheConsistent) :
    (c.getClustersWithKey k).1 = c.m_clusters.filter (fun cl => cl.m_key == k) ∧
    ((∀ cl ∈ c.m_clusters, cl.m_key ≠ k) → (c.getClustersWithKey k).1 = []) := by
  have h := (getClustersWithKey_state_spec c k hc).1
  rw [h, equalRange_buildMultimapByKey]
  refine ⟨rfl, ?_⟩
  intro hnone
  exact List.filter_eq_nil_iff.mpr (fun cl hcl => by simpa using hnone cl hcl)

/-- Closed instance of `C9_getClustersWithKey_exact` at a concrete container. -/
theorem C9_getClustersWithKey_exact_witness :
    exampleContainerA.CacheConsistent ∧
    ((exampleContainerA.getClustersWithKey 7).1 =
        exampleContainerA.m_clusters.filter (fun cl => cl.m_key == 7) ∧
      ((∀ cl ∈ exampleContainerA.m_clusters, cl.m_key ≠ 7) →
        (exampleContainerA.getClustersWithKey 7).1 = [])) :=
  ⟨by decide, C9_getClustersWithKey_exact exampleContainerA 7 (by decide)⟩

/-- C10: mutations (`addCluster`, `clear`) synchronously invalidate every
cached sorted view, re-establishing the lazy-cache invariant over the new
cluster set, and every read on an invariant-satisfying container — sorted
vectors, key/name lookups, sorted key list — is the value freshly computed
from the container's current clusters, never a stale cache. -/
theorem C10_no_stale_cache (c : ClusterContainer) (cl : Cluster) (k : Int) (nm : String)
    (hc : c.CacheConsistent) :
    ((c.addCluster cl).m_clusters = c.m_clusters ++ [cl] ∧
       (c.addCluster cl).CacheConsistent) ∧
    ((c.clear).m_clusters = [] ∧ (c.clear).CacheConsistent) ∧
    (c.getClustersWithKey k).1 = c.m_clusters.filter (fun x => x.m_key == k) ∧
    (c.getClustersWithName nm).1 = c.m_clusters.filter (fun x => x.m_name == nm) ∧
    (c.getClustersSortedByKey).1 = (buildMultimapByKey c.m_clusters).map (fun p => p.2) ∧
    (c.getClustersSortedByName).1 = (buildMultimapByName c.m_clusters).map (fun p => p.2) ∧
    (c.getAllClusterKeys).1 = allClusterKeysOf c.m_clusters := by
  refine ⟨addCluster_spec c cl, clear_spec c, ?_, ?_,
    getClustersSortedByKey_spec c hc, getClustersSortedByName_spec c hc,
    (getAllClusterKeys_state_spec c hc).1⟩
  · rw [(getClustersWithKey_state_spec c k hc).1, equalRange_buildMultimapByKey]
  · rw [(getClustersWithName_state_spec c nm hc).1, equalRange_buildMultimapByName]

/-- Closed instance of `C10_no_stale_cache` at a concrete container, cluster,
key and name. -/
theorem C10_no_stale_cache_witness :
    exampleContainerB.CacheConsistent ∧
    (((exampleContainerB.addCluster ⟨2, "y", LocationType.LEFT, []⟩).m_clusters =
          exampleContainerB.m_clusters ++ [⟨2, "y", LocationType.LEFT, []⟩] ∧
        (exampleContainerB.addCluster ⟨2, "y", LocationType.LEFT, []⟩).CacheConsistent) ∧
      ((exampleContainerB.clear).m_clusters = [] ∧ (exampleContainerB.clear).CacheConsistent) ∧
      (exampleContainerB.getClustersWithKey 5).1 =
        exampleContainerB.m_clusters.filter (fun x => x.m_key == 5) ∧
      (exampleContainerB.getClustersWithName "x").1 =
        exampleContainerB.m_clusters.filter (fun x => x.m_name == "x") ∧
      (exampleContainerB.getClustersSortedByKey).1 =
        (buildMultimapByKey exampleContainerB.m_clusters).map (fun p => p.2) ∧
      (exampleContainerB.getClustersSortedByName).1 =
        (buildMultimapByName exampleContainerB.m_clusters).map (fun p => p.2) ∧
      (exampleContainerB.getAllClusterKeys).1 =
        allClusterKeysOf exampleContainerB.m_clusters) :=
  ⟨by decide, C10_no_stale_cache exampleContainerB ⟨2, "y", LocationType.LEFT, []⟩ 5 "x"
    (by decide)⟩

theorem getClustersWithKey_pure (c : ClusterContainer) (k : Int)
    (hc : c.CacheConsistent) :
    (c.getClustersWithKey k).1 = clustersWithKeyPure c.m_clusters k ∧
    (c.getClustersWithKey k).2.m_clusters = c.m_clusters ∧
    (c.getClustersWithKey k).2.CacheConsistent := by
  obtain ⟨h1, h2, _, h4⟩ := getClustersWithKey_state_spec c k hc
  exact ⟨by rw [h1, equalRange_buildMultimapByKey]; rfl, h2, h4⟩

theorem phase1_foldl_spec (keys : List Int) (acc0 : List Cluster)
    (c : ClusterContainer) (hc : c.CacheConsistent) :
    (keys.foldl mergePhase1Step (acc0, c)).1 =
      acc0 ++ keys.flatMap
        (fun k => (clustersWithKeyPure c.m_clusters k).flatMap splitCentralOnly) ∧
    (keys.foldl mergePhase1Step (acc0, c)).2.m_clusters = c.m_clusters ∧
    (keys.foldl mergePhase1Step (acc0, c)).2.CacheConsistent := by
  induction keys generalizing acc0 c with
  | nil => simp [hc]
  | cons k rest ih =>
    obtain ⟨h1, h2, h3⟩ := getClustersWithKey_pure c k hc
    have step : mergePhase1Step (acc0, c) k =
        (acc0 ++ (clustersWithKeyPure c.m_clusters k).flatMap splitCentralOnly,
         (c.getClustersWithKey k).2) := by
      unfold mergePhase1Step
      rw [h1]
    obtain ⟨ih1, ih2, ih3⟩ := ih
      (acc0 ++ (clustersWithKeyPure c.m_clusters k).flatMap splitCentralOnly)
      (c.getClustersWithKey k).2 h3
    rw [List.foldl_cons, step]
    refine ⟨?_, by rw [ih2, h2], ih3⟩
    rw [ih1, h2]
    simp [List.append_assoc]

theorem foldl_addCluster_spec (cs : List Cluster) (c : ClusterContainer)
    (hc : c.CacheConsistent) :
    (cs.foldl ClusterContainer.addCluster c).m_clusters = c.m_clusters ++ cs ∧
    (cs.foldl ClusterContainer.addCluster c).CacheConsistent := by
  induction cs generalizing c with
  | nil => simp [hc]
  | cons cl rest ih =>
    obtain ⟨h1, h2⟩ := addCluster_spec c cl
    obtain ⟨ih1, ih2⟩ := ih (c.addCluster cl) h2
    refine ⟨?_, ih2⟩
    rw [List.foldl_cons, ih1, h1]
    simp [List.append_assoc]

theorem addOptCluster_spec (out : ClusterContainer) (oc : Option Cluster)
    (h : out.CacheConsistent) :
    (out.addOptCluster oc).m_clusters = out.m_clusters ++ oc.toList ∧
    (out.addOptCluster oc).CacheConsistent := by
  cases oc with
  | none => simpa [ClusterContainer.addOptCluster] using h
  | some cl => simpa [ClusterContainer.addOptCluster] using addCluster_spec out cl

theorem emitBuckets_spec (out : ClusterContainer) (b : MergeBuckets)
    (h : out.CacheConsistent) :
    (emitBuckets out b).m_clusters = out.m_clusters ++ bucketList b ∧
    (emitBuckets out b).CacheConsistent := by
  obtain ⟨h1, h2⟩ := addOptCluster_spec out b.unknownCluster h
  obtain ⟨h3, h4⟩ := addOptCluster_spec _ b.centralCluster h2
  obtain ⟨h5, h6⟩ := addOptCluster_spec _ b.leftCluster h4
  obtain ⟨h7, h8⟩ := addOptCluster_spec _ b.rightCluster h6
  refine ⟨?_, h8⟩
  unfold emitBuckets bucketList
  rw [h7, h5, h3, h1]
  simp [List.append_assoc]

theorem phase2_foldl_spec (keys : List Int) (out : ClusterContainer)
    (c : ClusterContainer) (hout : out.CacheConsistent) (hc : c.CacheConsistent) :
    (keys.foldl mergePhase2Step (out, c)).1.m_clusters =
      out.m_clusters ++ keys.flatMap
        (fun k => mergedForKey (clustersWithKeyPure c.m_clusters k)) ∧
    (keys.foldl mergePhase2Step (out, c)).1.CacheConsistent ∧
    (keys.foldl mergePhase2Step (out, c)).2.m_clusters = c.m_clusters := by
  induction keys generalizing out c with
  | nil => simp [hout, hc]
  | cons k rest ih =>
    obtain ⟨h1, h2, h3⟩ := getClustersWithKey_pure c k hc
    obtain ⟨e1, e2⟩ := emitBuckets_spec out
      ((c.getClustersWithKey k).1.foldl bucketStep emptyBuckets) hout
    have step : mergePhase2Step (out, c) k =
        (emitBuckets out ((c.getClustersWithKey k).1.foldl bucketStep emptyBuckets),
         (c.getClustersWithKey k).2) := rfl
    obtain ⟨ih1, ih2, ih3⟩ := ih
      (emitBuckets out ((c.getClustersWithKey k).1.foldl bucketStep emptyBuckets))
      (c.getClustersWithKey k).2 e2 h3
    rw [List.foldl_cons, step]
    refine ⟨?_, ih2, by rw [ih3, h2]⟩
    rw [ih1, h2, e1, h1]
    simp [mergedForKey, List.append_assoc]

/-- Full characterization of the merge on a cache-consistent container: the
returned container holds `mergePure` of the input clusters, and the mutated
input holds the original clusters followed by the split halves. -/
theorem mergeDisjointRightLeftClusters_spec (c0 : ClusterContainer)
    (hc : c0.CacheConsistent) :
    (c0.mergeDisjointRightLeftClusters).1.m_clusters = mergePure c0.m_clusters ∧
    (c0.mergeDisjointRightLeftClusters).2.m_clusters =
      c0.m_clusters ++ mergePhase1Splits c0.m_clusters ∧
    (c0.mergeDisjointRightLeftClusters).1.CacheConsistent := by
  obtain ⟨k1, k2, _, k4⟩ := getAllClusterKeys_state_spec c0 hc
  obtain ⟨p1, p2, p3⟩ :=
    phase1_foldl_spec (c0.getAllClusterKeys).1 [] (c0.getAllClusterKeys).2 k4
  obtain ⟨a1, a2⟩ := foldl_addCluster_spec
    ((c0.getAllClusterKeys).1.foldl mergePhase1Step ([], (c0.getAllClusterKeys).2)).1
    ((c0.getAllClusterKeys).1.foldl mergePhase1Step ([], (c0.getAllClusterKeys).2)).2 p3
  obtain ⟨q1, q2, q3⟩ := phase2_foldl_spec (c0.getAllClusterKeys).1
    ClusterContainer.new
    (((c0.getAllClusterKeys).1.foldl mergePhase1Step
        ([], (c0.getAllClusterKeys).2)).1.foldl
      ClusterContainer.addCluster
      ((c0.getAllClusterKeys).1.foldl mergePhase1Step
        ([], (c0.getAllClusterKeys).2)).2)
    cacheConsistent_new a2
  have hsplits : ((c0.getAllClusterKeys).1.foldl mergePhase1Step
      ([], (c0.getAllClusterKeys).2)).1 = mergePhase1Splits c0.m_clusters := by
    rw [p1, k1, k2]
    simp [mergePhase1Splits]
  have hclusters2 : (((c0.getAllClusterKeys).1.foldl mergePhase1Step
      ([], (c0.getAllClusterKeys).2)).1.foldl
        ClusterContainer.addCluster
        ((c0.getAllClusterKeys).1.foldl mergePhase1Step
          ([], (c0.getAllClusterKeys).2)).2).m_clusters =
      c0.m_clusters ++ mergePhase1Splits c0.m_clusters := by
    rw [a1, p2, k2, hsplits]
  unfold ClusterContainer.mergeDisjointRightLeftClusters
  refine ⟨?_, ?_, q2⟩
  · rw [q1, hclusters2, k1]
    simp [mergePure, ClusterContainer.new]
  · rw [q3, hclusters2]

theorem foldl_mergeSlot_some (l : List Cluster) (b : Cluster) :
    l.foldl mergeSlot (some b) =
      some { b with m_coordinateXYZ :=
        b.m_coordinateXYZ ++ l.flatMap (fun x => x.m_coordinateXYZ) } := by
  induction l generalizing b with
  | nil => simp
  | cons c rest ih =>
    rw [List.foldl_cons]
    show rest.foldl mergeSlot (some (b.mergeCoordinates c)) = _
    rw [ih]
    simp [Cluster.mergeCoordinates, List.append_assoc]

theorem toList_foldl_mergeSlot (l : List Cluster) :
    (l.foldl mergeSlot none).toList = mergeRun l := by
  cases l with
  | nil => rfl
  | cons c rest =>
    rw [List.foldl_cons]
    show (rest.foldl mergeSlot (some c)).toList = _
    rw [foldl_mergeSlot_some]
    rfl

theorem slot_foldl_bucketStep (l : List Cluster) (b : MergeBuckets) (t : LocationType) :
    (l.foldl bucketStep b).slot t =
      (l.filter (fun c => c.m_locationType == t)).foldl mergeSlot (b.slot t) := by
  induction l generalizing b with
  | nil => simp
  | cons cl rest ih =>
    rw [List.foldl_cons, List.filter_cons, ih]
    rcases hct : cl.m_locationType <;> cases t <;>
      simp [bucketStep, MergeBuckets.slot, Cluster.getLocationType, hct]

/-- The merged representatives for one key are the coalesced runs of the four
location filters, in emission order. -/
theorem mergedForKey_eq_four (l : List Cluster) :
    mergedForKey l =
      mergeRun (l.filter (fun c => c.m_locationType == LocationType.UNKNOWN)) ++
      mergeRun (l.filter (fun c => c.m_locationType == LocationType.CENTRAL)) ++
      mergeRun (l.filter (fun c => c.m_locationType == LocationType.LEFT)) ++
      mergeRun (l.filter (fun c => c.m_locationType == LocationType.RIGHT)) := by
  unfold mergedForKey bucketList
  have f1 : (List.foldl bucketStep emptyBuckets l).unknownCluster =
      (List.foldl bucketStep emptyBuckets l).slot LocationType.UNKNOWN := rfl
  have f2 : (List.foldl bucketStep emptyBuckets l).centralCluster =
      (List.foldl bucketStep emptyBuckets l).slot LocationType.CENTRAL := rfl
  have f3 : (List.foldl bucketStep emptyBuckets l).leftCluster =
      (List.foldl bucketStep emptyBuckets l).slot LocationType.LEFT := rfl
  have f4 : (List.foldl bucketStep emptyBuckets l).rightCluster =
      (List.foldl bucketStep emptyBuckets l).slot LocationType.RIGHT := rfl
  rw [f1, f2, f3, f4, slot_foldl_bucketStep, slot_foldl_bucketStep,
    slot_foldl_bucketStep, slot_foldl_bucketStep]
  rw [show emptyBuckets.slot LocationType.UNKNOWN = none from rfl,
    show emptyBuckets.slot LocationType.CENTRAL = none from rfl,
    show emptyBuckets.slot LocationType.LEFT = none from rfl,
    show emptyBuckets.slot LocationType.RIGHT = none from rfl,
    toList_foldl_mergeSlot, toList_foldl_mergeSlot,
    toList_foldl_mergeSlot, toList_foldl_mergeSlot]

theorem filter_type_mergeRun (L : List Cluster) (t t' : LocationType)
    (hL : ∀ c ∈ L, c.m_locationType = t') :
    (mergeRun L).filter (fun c => c.m_locationType == t) =
      if t' = t then mergeRun L else [] := by
  cases L with
  | nil => by_cases htt : t' = t <;> simp [mergeRun, htt]
  | cons c rest =>
    have hc : c.m_locationType = t' := hL c (List.mem_cons_self c rest)
    by_cases htt : t' = t
    · subst htt
      simp [mergeRun, hc]
    · simp [mergeRun, hc, htt]

theorem mergedForKey_filter_type (l : List Cluster) (t : LocationType) :
    (mergedForKey l).filter (fun c => c.m_locationType == t) =
      mergeRun (l.filter (fun c => c.m_locationType == t)) := by
  have hfact : ∀ t' : LocationType,
      ∀ c ∈ l.filter (fun c => c.m_locationType == t'), c.m_locationType = t' := by
    intro t' c hmem
    simpa using (List.mem_filter.mp hmem).2
  rw [mergedForKey_eq_four, List.filter_append, List.filter_append, List.filter_append,
    filter_type_mergeRun _ t LocationType.UNKNOWN (hfact _),
    filter_type_mergeRun _ t LocationType.CENTRAL (hfact _),
    filter_type_mergeRun _ t LocationType.LEFT (hfact _),
    filter_type_mergeRun _ t LocationType.RIGHT (hfact _)]
  cases t <;> simp

theorem mem_mergeRun (L : List Cluster) (c' : Cluster) (h : c' ∈ mergeRun L) :
    ∃ c ∈ L, c'.m_key = c.m_key := by
  cases L with
  | nil => simp [mergeRun] at h
  | cons c rest =>
    simp only [mergeRun, List.mem_singleton] at h
    exact ⟨c, List.mem_cons_self c rest, by rw [h]⟩

theorem mem_mergedForKey (l : List Cluster) (c' : Cluster) (h : c' ∈ mergedForKey l) :
    ∃ c ∈ l, c'.m_key = c.m_key := by
  rw [mergedForKey_eq_four] at h
  rcases List.mem_append.mp h with h1 | hR
  · rcases List.mem_append.mp h1 with h2 | hL
    · rcases List.mem_append.mp h2 with h3 | hC
      · obtain ⟨c, hc, hk⟩ := mem_mergeRun _ _ h3
        exact ⟨c, (List.mem_filter.mp hc).1, hk⟩
      · obtain ⟨c, hc, hk⟩ := mem_mergeRun _ _ hC
        exact ⟨c, (List.mem_filter.mp hc).1, hk⟩
    · obtain ⟨c, hc, hk⟩ := mem_mergeRun _ _ hL
      exact ⟨c, (List.mem_filter.mp hc).1, hk⟩
  · obtain ⟨c, hc, hk⟩ := mem_mergeRun _ _ hR
    exact ⟨c, (List.mem_filter.mp hc).1, hk⟩

theorem mem_setInsertInt (x : Int) (l : List Int) (y : Int) :
    y ∈ setInsertInt x l ↔ y = x ∨ y ∈ l := by
  induction l with
  | nil => simp [setInsertInt]
  | cons z rest ih =>
    by_cases h1 : x < z
    · simp [setInsertInt, h1]
    · by_cases h2 : x = z
      · subst h2
        have hx : setInsertInt x (x :: rest) = x :: rest := by simp [setInsertInt]
        rw [hx]
        simp only [List.mem_cons]
        tauto
      · have hx : setInsertInt x (z :: rest) = z :: setInsertInt x rest := by
          simp [setInsertInt, h1, h2]
        rw [hx]
        simp only [List.mem_cons, ih]
        tauto

theorem sorted_setInsertInt (x : Int) (l : List Int) (h : l.Pairwise (· < ·)) :
    (setInsertInt x l).Pairwise (· < ·) := by
  induction l with
  | nil => simp [setInsertInt]
  | cons z rest ih =>
    rcases List.pairwise_cons.mp h with ⟨hz, hrest⟩
    by_cases h1 : x < z
    · simp only [setInsertInt, if_pos h1]
      refine List.pairwise_cons.mpr ⟨?_, h⟩
      intro y hy
      rcases List.mem_cons.mp hy with rfl | hy2
      · exact h1
      · exact lt_trans h1 (hz y hy2)
    · by_cases h2 : x = z
      · simpa [setInsertInt, h1, h2] using h
      · have hzx : z < x := lt_of_le_of_ne (not_lt.mp h1) (Ne.symm h2)
        simp only [setInsertInt, if_neg h1, if_neg h2]
        refine List.pairwise_cons.mpr ⟨?_, ih hrest⟩
        intro y hy
        rcases (mem_setInsertInt x rest y).mp hy with rfl | hy2
        · exact hzx
        · exact hz y hy2

theorem sorted_foldl_setInsertInt (cs : List Cluster) (s : List Int)
    (h : s.Pairwise (· < ·)) :
    (cs.foldl (fun s c => setInsertInt c.getKey s) s).Pairwise (· < ·) := by
  induction cs generalizing s with
  | nil => simpa using h
  | cons c rest ih => exact ih _ (sorted_setInsertInt c.getKey s h)

theorem nodup_allClusterKeysOf (cs : List Cluster) : (allClusterKeysOf cs).Nodup := by
  have h := sorted_foldl_setInsertInt cs [] (by simp)
  exact (h.imp fun hlt => ne_of_lt hlt)

theorem mem_foldl_setInsertInt (cs : List Cluster) (s : List Int) (k : Int) :
    k ∈ cs.foldl (fun s c => setInsertInt c.getKey s) s ↔
      k ∈ s ∨ ∃ c ∈ cs, c.m_key = k := by
  induction cs generalizing s with
  | nil => simp
  | cons c rest ih =>
    rw [List.foldl_cons, ih]
    rw [mem_setInsertInt]
    simp only [Cluster.getKey, List.mem_cons]
    constructor
    · rintro ((rfl | hs) | ⟨c2, hc2, hk⟩)
      · exact Or.inr ⟨c, Or.inl rfl, rfl⟩
      · exact Or.inl hs
      · exact Or.inr ⟨c2, Or.inr hc2, hk⟩
    · rintro (hs | ⟨c2, (rfl | hc2), hk⟩)
      · exact Or.inl (Or.inr hs)
      · exact Or.inl (Or.inl hk.symm)
      · exact Or.inr ⟨c2, hc2, hk⟩

theorem mem_allClusterKeysOf (cs : List Cluster) (k : Int) :
    k ∈ allClusterKeysOf cs ↔ ∃ c ∈ cs, c.m_key = k := by
  rw [allClusterKeysOf, mem_foldl_setInsertInt]
  simp

theorem filter_flatMap_keyed (keys : List Int) (f : Int → List Cluster) (k : Int)
    (hf : ∀ k' ∈ keys, ∀ c ∈ f k', c.m_key = k')
    (hnd : keys.Nodup) (hk : k ∈ keys) :
    (keys.flatMap f).filter (fun c => c.m_key == k) = f k := by
  induction keys with
  | nil => simp at hk
  | cons k' rest ih =>
    rcases List.nodup_cons.mp hnd with ⟨hk'r, hndr⟩
    rw [List.flatMap_cons, List.filter_append]
    rcases List.mem_cons.mp hk with rfl | hkrest
    · have h1 : (f k).filter (fun c => c.m_key == k) = f k :=
        List.filter_eq_self.mpr fun c hc => by
          simp [hf k (List.mem_cons_self k rest) c hc]
      have h2 : (rest.flatMap f).filter (fun c => c.m_key == k) = [] := by
        refine List.filter_eq_nil_iff.mpr ?_
        intro c hc
        obtain ⟨k2, hk2, hck2⟩ := List.mem_flatMap.mp hc
        have := hf k2 (List.mem_cons_of_mem _ hk2) c hck2
        simp only [beq_iff_eq, this]
        intro hkk
        exact hk'r (hkk ▸ hk2)
      rw [h1, h2, List.append_nil]
    · have hne : k' ≠ k := fun he => hk'r (he ▸ hkrest)
      have h1 : (f k').filter (fun c => c.m_key == k) = [] := by
        refine List.filter_eq_nil_iff.mpr ?_
        intro c hc
        have := hf k' (List.mem_cons_self k' rest) c hc
        simp [this, hne]
      rw [h1, List.nil_append]
      exact ih (fun k2 hk2 => hf k2 (List.mem_cons_of_mem _ hk2)) hndr hkrest

theorem flatMap_mergeRun (L : List Cluster) :
    (mergeRun L).flatMap (fun c => c.m_coordinateXYZ) =
      L.flatMap (fun c => c.m_coordinateXYZ) := by
  cases L <;> simp [mergeRun]

theorem length_mergeRun (L : List Cluster) : (mergeRun L).length ≤ 1 := by
  cases L <;> simp [mergeRun]

/-- C4: after `mergeDisjointRightLeftClusters()`, for every key `k` present in
the container before the merge and every location type `t`, the returned
container holds at most one cluster with key `k` and type `t`, and the multiset
of member coordinates over those clusters equals the multiset of member
coordinates over the clusters of key `k` and type `t` of the input container
after its CENTRAL clusters have been split (the mutated input container, which
holds the original clusters plus the split halves). -/
theorem C4_merge_per_key_and_type (c0 : ClusterContainer) (k : Int) (t : LocationType)
    (hc : c0.CacheConsistent) (hk : ∃ cl ∈ c0.m_clusters, cl.m_key = k) :
    ((c0.mergeDisjointRightLeftClusters).1.m_clusters.filter
        (fun c => c.m_key == k && c.m_locationType == t)).length ≤ 1 ∧
    (((c0.mergeDisjointRightLeftClusters).1.m_clusters.filter
        (fun c => c.m_key == k && c.m_locationType == t)).flatMap
          (fun c => c.m_coordinateXYZ) : Multiset V3) =
      (((c0.mergeDisjointRightLeftClusters).2.m_clusters.filter
        (fun c => c.m_key == k && c.m_locationType == t)).flatMap
          (fun c => c.m_coordinateXYZ) : Multiset V3) := by
  obtain ⟨m1, m2, _⟩ := mergeDisjointRightLeftClusters_spec c0 hc
  rw [m1, m2]
  have hsplit : ∀ l : List Cluster,
      l.filter (fun c => c.m_key == k && c.m_locationType == t) =
        (l.filter (fun c => c.m_key == k)).filter
          (fun c => c.m_locationType == t) := by
    intro l
    rw [List.filter_filter]
    exact List.filter_congr fun c _ => by rw [Bool.and_comm]
  have hkey : (mergePure c0.m_clusters).filter (fun c => c.m_key == k) =
      mergedForKey (clustersWithKeyPure
        (c0.m_clusters ++ mergePhase1Splits c0.m_clusters) k) := by
    unfold mergePure
    refine filter_flatMap_keyed _ _ k ?_ (nodup_allClusterKeysOf c0.m_clusters)
      ((mem_allClusterKeysOf c0.m_clusters k).mpr hk)
    intro k2 _ c hcmem
    obtain ⟨c2, hc2, hkeq⟩ := mem_mergedForKey _ c hcmem
    have : (c2.m_key == k2) = true := (List.mem_filter.mp hc2).2
    rw [hkeq]
    simpa using this
  have hLHS : (mergePure c0.m_clusters).filter
      (fun c => c.m_key == k && c.m_locationType == t) =
      mergeRun ((clustersWithKeyPure
        (c0.m_clusters ++ mergePhase1Splits c0.m_clusters) k).filter
          (fun c => c.m_locationType == t)) := by
    rw [hsplit, hkey, mergedForKey_filter_type]
  have hRHS : (c0.m_clusters ++ mergePhase1Splits c0.m_clusters).filter
      (fun c => c.m_key == k && c.m_locationType == t) =
      (clustersWithKeyPure
        (c0.m_clusters ++ mergePhase1Splits c0.m_clusters) k).filter
          (fun c => c.m_locationType == t) := by
    rw [hsplit]
    rfl
  rw [hLHS, hRHS]
  exact ⟨length_mergeRun _, by rw [flatMap_mergeRun]⟩

/-- Closed instance of `C4_merge_per_key_and_type`: the single-cluster
container with a CENTRAL cluster of key 5, checked at key 5 and type LEFT. -/
theorem C4_merge_per_key_and_type_witness :
    exampleContainerB.CacheConsistent ∧
    (∃ cl ∈ exampleContainerB.m_clusters, cl.m_key = 5) ∧
    (((exampleContainerB.mergeDisjointRightLeftClusters).1.m_clusters.filter
        (fun c => c.m_key == 5 && c.m_locationType == LocationType.LEFT)).length ≤ 1 ∧
      ((((exampleContainerB.mergeDisjointRightLeftClusters).1.m_clusters.filter
        (fun c => c.m_key == 5 && c.m_locationType == LocationType.LEFT)).flatMap
          (fun c => c.m_coordinateXYZ) : Multiset V3) =
        (((exampleContainerB.mergeDisjointRightLeftClusters).2.m_clusters.filter
          (fun c => c.m_key == 5 && c.m_locationType == LocationType.LEFT)).flatMap
            (fun c => c.m_coordinateXYZ) : Multiset V3))) :=
  ⟨by decide, by decide,
    C4_merge_per_key_and_type exampleContainerB 5 LocationType.LEFT (by decide) (by decide)⟩

/-- C1 counterexample: in the spec's example scenario (CENTRAL coordinates on
both sides of X = 0, plus a LEFT and a RIGHT cluster, all with key 5) the
container returned by `mergeDisjointRightLeftClusters()` DOES contain a
CENTRAL cluster with key 5 — the claim says it contains none. The merge loop
re-reads the live cluster set, in which the CENTRAL original still sits, and
emits its bucket. -/
theorem C1_merge_example_counterexample :
    (∃ v ∈ ([⟨-1, 0, 0⟩, ⟨2, 0, 0⟩] : List V3), v.x < 0) ∧
    (∃ v ∈ ([⟨-1, 0, 0⟩, ⟨2, 0, 0⟩] : List V3), 0 < v.x) ∧
    ((c1ExampleContainer "central" "left" "right" [⟨-1, 0, 0⟩, ⟨2, 0, 0⟩]
        [⟨-5, 0, 0⟩] [⟨6, 0, 0⟩]).mergeDisjointRightLeftClusters).1.m_clusters.filter
      (fun c => c.m_key == 5 && c.m_locationType == LocationType.CENTRAL) ≠ [] := by
  decide

set_option maxHeartbeats 2000000 in
/-- C1 amended: in the example scenario the merged container holds for key 5
exactly one LEFT cluster (the original LEFT coordinates followed by the
CENTRAL cluster's negative-x half), exactly one RIGHT cluster (the original
RIGHT coordinates followed by the CENTRAL cluster's non-negative-x half),
exactly one CENTRAL cluster carrying the original CENTRAL coordinates — the
claim's "no CENTRAL cluster remains" fails — and no UNKNOWN cluster. -/
theorem C1_merge_example_amended (nC nL nR : String) (cC cL cR : List V3)
    (_hneg : ∃ v ∈ cC, v.x < 0) (_hpos : ∃ v ∈ cC, 0 < v.x) :
    ((c1ExampleContainer nC nL nR cC cL cR).mergeDisjointRightLeftClusters).1.m_clusters.filter
        (fun c => c.m_key == 5 && c.m_locationType == LocationType.LEFT) =
      [⟨5, nL, LocationType.LEFT, cL ++ cC.filter (fun v => decide (v.x < 0))⟩] ∧
    ((c1ExampleContainer nC nL nR cC cL cR).mergeDisjointRightLeftClusters).1.m_clusters.filter
        (fun c => c.m_key == 5 && c.m_locationType == LocationType.RIGHT) =
      [⟨5, nR, LocationType.RIGHT, cR ++ cC.filter (fun v => decide (0 ≤ v.x))⟩] ∧
    ((c1ExampleContainer nC nL nR cC cL cR).mergeDisjointRightLeftClusters).1.m_clusters.filter
        (fun c => c.m_key == 5 && c.m_locationType == LocationType.CENTRAL) =
      [⟨5, nC, LocationType.CENTRAL, cC⟩] ∧
    ((c1ExampleContainer nC nL nR cC cL cR).mergeDisjointRightLeftClusters).1.m_clusters.filter
        (fun c => c.m_key == 5 && c.m_locationType == LocationType.UNKNOWN) = [] := by
  have hcc : (c1ExampleContainer nC nL nR cC cL cR).CacheConsistent :=
    ⟨Or.inl rfl, Or.inl rfl, Or.inl rfl, Or.inl rfl, Or.inl rfl⟩
  obtain ⟨m1, _, _⟩ := mergeDisjointRightLeftClusters_spec _ hcc
  rw [m1]
  exact ⟨rfl, rfl, rfl, rfl⟩

/-- Closed instance of `C1_merge_example_amended` at concrete coordinates. -/
theorem C1_merge_example_amended_witness :
    (∃ v ∈ ([⟨-1, 0, 0⟩, ⟨2, 0, 0⟩] : List V3), v.x < 0) ∧
    (∃ v ∈ ([⟨-1, 0, 0⟩, ⟨2, 0, 0⟩] : List V3), 0 < v.x) ∧
    (((c1ExampleContainer "central" "left" "right" [⟨-1, 0, 0⟩, ⟨2, 0, 0⟩]
          [⟨-5, 0, 0⟩] [⟨6, 0, 0⟩]).mergeDisjointRightLeftClusters).1.m_clusters.filter
          (fun c => c.m_key == 5 && c.m_locationType == LocationType.LEFT) =
        [⟨5, "left", LocationType.LEFT,
          [⟨-5, 0, 0⟩] ++ ([⟨-1, 0, 0⟩, ⟨2, 0, 0⟩] : List V3).filter
            (fun v => decide (v.x < 0))⟩] ∧
      ((c1ExampleContainer "central" "left" "right" [⟨-1, 0, 0⟩, ⟨2, 0, 0⟩]
          [⟨-5, 0, 0⟩] [⟨6, 0, 0⟩]).mergeDisjointRightLeftClusters).1.m_clusters.filter
          (fun c => c.m_key == 5 && c.m_locationType == LocationType.RIGHT) =
        [⟨5, "right", LocationType.RIGHT,
          [⟨6, 0, 0⟩] ++ ([⟨-1, 0, 0⟩, ⟨2, 0, 0⟩] : List V3).filter
            (fun v => decide (0 ≤ v.x))⟩] ∧
      ((c1ExampleContainer "central" "left" "right" [⟨-1, 0, 0⟩, ⟨2, 0, 0⟩]
          [⟨-5, 0, 0⟩] [⟨6, 0, 0⟩]).mergeDisjointRightLeftClusters).1.m_clusters.filter
          (fun c => c.m_key == 5 && c.m_locationType == LocationType.CENTRAL) =
        [⟨5, "central", LocationType.CENTRAL, [⟨-1, 0, 0⟩, ⟨2, 0, 0⟩]⟩] ∧
      ((c1ExampleContainer "central" "left" "right" [⟨-1, 0, 0⟩, ⟨2, 0, 0⟩]
          [⟨-5, 0, 0⟩] [⟨6, 0, 0⟩]).mergeDisjointRightLeftClusters).1.m_clusters.filter
          (fun c => c.m_key == 5 && c.m_locationType == LocationType.UNKNOWN) = []) :=
  ⟨by decide, by decide,
    C1_merge_example_amended "central" "left" "right" [⟨-1, 0, 0⟩, ⟨2, 0, 0⟩]
      [⟨-5, 0, 0⟩] [⟨6, 0, 0⟩] ⟨⟨-1, 0, 0⟩, by decide, by decide⟩
      ⟨⟨2, 0, 0⟩, by decide, by decide⟩⟩

theorem Item.forestNames_append (a b : List Item) :
    Item.forestNames (a ++ b) = Item.forestNames a ++ Item.forestNames b := by
  induction a with
  | nil => simp [Item.forestNames]
  | cons c rest ih => simp [Item.forestNames, ih]

theorem Item.forestEdges_append (parent : String) (a b : List Item) :
    Item.forestEdges parent (a ++ b) =
      Item.forestEdges parent a ++ Item.forestEdges parent b := by
  induction a with
  | nil => simp [Item.forestEdges]
  | cons c rest ih => simp [Item.forestEdges, ih]

theorem Item.name_add (t x : Item) (p : String) (t' : Item)
    (h : t.add x p = some t') : t'.name = t.name := by
  cases t with
  | mk n i e ch =>
    unfold Item.add at h
    by_cases hn : n = p
    · rw [if_pos hn] at h
      simp only [Option.some.injEq] at h
      subst h
      rfl
    · rw [if_neg hn] at h
      cases hm : Item.addChildrenRev ch x p with
      | none => rw [hm] at h; simp at h
      | some ch2 =>
        rw [hm] at h
        simp only [Option.some.injEq] at h
        subst h
        rfl

mutual

theorem Item.add_not_mem : ∀ (t x : Item) (p : String),
    p ∉ t.names → t.add x p = none
  | .mk n i e ch, x, p, h => by
    rw [Item.names] at h
    simp only [List.mem_cons, not_or] at h
    obtain ⟨hn, hch⟩ := h
    unfold Item.add
    rw [if_neg (fun he => hn he.symm), Item.addChildrenRev_not_mem ch x p hch]

theorem Item.addChildrenRev_not_mem : ∀ (ch : List Item) (x : Item) (p : String),
    p ∉ Item.forestNames ch → Item.addChildrenRev ch x p = none
  | [], _, _, _ => rfl
  | c :: rest, x, p, h => by
    rw [Item.forestNames] at h
    simp only [List.mem_append, not_or] at h
    unfold Item.addChildrenRev
    rw [Item.addChildrenRev_not_mem rest x p h.2, Item.add_not_mem c x p h.1]

end

mutual

theorem Item.graft_not_mem : ∀ (t : Item) (p : String) (x : Item),
    p ∉ t.names → t.graft p x = t
  | .mk n i e ch, p, x, h => by
    rw [Item.names] at h
    simp only [List.mem_cons, not_or] at h
    unfold Item.graft
    rw [if_neg (fun he => h.1 he.symm), Item.graftForest_not_mem ch p x h.2]

theorem Item.graftForest_not_mem : ∀ (ch : List Item) (p : String) (x : Item),
    p ∉ Item.forestNames ch → Item.graftForest ch p x = ch
  | [], _, _, _ => rfl
  | c :: rest, p, x, h => by
    rw [Item.forestNames] at h
    simp only [List.mem_append, not_or] at h
    unfold Item.graftForest
    rw [Item.graft_not_mem c p x h.1, Item.graftForest_not_mem rest p x h.2]

end

mutual

/-- With names unique on the search path (the class invariant), `Item::add`
appends the item as last child of the node named `p`: exactly `graft`. -/
theorem Item.add_eq_graft : ∀ (t x : Item) (p : String),
    t.names.count p = 1 → t.add x p = some (t.graft p x)
  | .mk n i e ch, x, p, hcount => by
    rw [Item.names] at hcount
    unfold Item.add Item.graft
    by_cases hn : n = p
    · subst hn
      rw [List.count_cons_self] at hcount
      have hz : (Item.forestNames ch).count n = 0 := by omega
      rw [if_pos rfl, if_pos rfl,
        Item.graftForest_not_mem ch n x (List.count_eq_zero.mp hz)]
    · have hone : (Item.forestNames ch).count p = 1 := by
        rw [List.count_cons_of_ne (fun he => hn he.symm)] at hcount
        exact hcount
      rw [if_neg hn, if_neg hn, Item.addChildrenRev_eq_graftForest ch x p hone]

theorem Item.addChildrenRev_eq_graftForest : ∀ (ch : List Item) (x : Item) (p : String),
    (Item.forestNames ch).count p = 1 →
    Item.addChildrenRev ch x p = some (Item.graftForest ch p x)
  | [], x, p, h => by simp [Item.forestNames] at h
  | c :: rest, x, p, h => by
    rw [Item.forestNames, List.count_append] at h
    unfold Item.addChildrenRev Item.graftForest
    by_cases hr : (Item.forestNames rest).count p = 0
    · have hc : (Item.names c).count p = 1 := by omega
      rw [Item.addChildrenRev_not_mem rest x p (List.count_eq_zero.mp hr),
        Item.add_eq_graft c x p hc,
        Item.graftForest_not_mem rest p x (List.count_eq_zero.mp hr)]
    · have hr1 : (Item.forestNames rest).count p = 1 := by omega
      have hc0 : (Item.names c).count p = 0 := by omega
      rw [Item.addChildrenRev_eq_graftForest rest x p hr1,
        Item.graft_not_mem c p x (List.count_eq_zero.mp hc0)]

end

mutual

/-- A successful `Item::add` adds exactly the names of the added subtree. -/
theorem Item.names_add_perm : ∀ (t x : Item) (p : String) (t' : Item),
    t.add x p = some t' → t'.names.Perm (t.names ++ x.names)
  | .mk n i e ch, x, p, t', h => by
    unfold Item.add at h
    by_cases hn : n = p
    · rw [if_pos hn] at h
      simp only [Option.some.injEq] at h
      subst h
      rw [Item.names, Item.names, Item.forestNames_append]
      have hx : Item.forestNames [x] = x.names := by
        rw [Item.forestNames, Item.forestNames, List.append_nil]
      rw [hx, List.cons_append]
    · rw [if_neg hn] at h
      cases hm : Item.addChildrenRev ch x p with
      | none => rw [hm] at h; simp at h
      | some ch2 =>
        rw [hm] at h
        simp only [Option.some.injEq] at h
        subst h
        rw [Item.names, Item.names, List.cons_append]
        exact (Item.forestNames_addChildrenRev_perm ch x p ch2 hm).cons n

theorem Item.forestNames_addChildrenRev_perm : ∀ (ch : List Item) (x : Item)
    (p : String) (ch2 : List Item),
    Item.addChildrenRev ch x p = some ch2 →
    (Item.forestNames ch2).Perm (Item.forestNames ch ++ x.names)
  | [], x, p, ch2, h => by simp [Item.addChildrenRev] at h
  | c :: rest, x, p, ch2, h => by
    unfold Item.addChildrenRev at h
    cases hm : Item.addChildrenRev rest x p with
    | some rest2 =>
      rw [hm] at h
      simp only [Option.some.injEq] at h
      subst h
      rw [Item.forestNames, Item.forestNames, List.append_assoc]
      exact (Item.forestNames_addChildrenRev_perm rest x p rest2 hm).append_left _
    | none =>
      rw [hm] at h
      cases ha : Item.add c x p with
      | none => rw [ha] at h; simp at h
      | some c2 =>
        rw [ha] at h
        simp only [Option.some.injEq] at h
        subst h
        rw [Item.forestNames, Item.forestNames]
        have ih := Item.names_add_perm c x p c2 ha
        refine (ih.append_right (Item.forestNames rest)).trans ?_
        rw [List.append_assoc, List.append_assoc]
        exact List.perm_append_comm.append_left _

end

mutual

/-- A successful `Item::add` creates the parent/child edge from the node named
`p` to the added item. -/
theorem Item.add_mem_edges : ∀ (t x : Item) (p : String) (t' : Item),
    t.add x p = some t' → (p, x.name) ∈ t'.edges
  | .mk n i e ch, x, p, t', h => by
    unfold Item.add at h
    by_cases hn : n = p
    · rw [if_pos hn] at h
      simp only [Option.some.injEq] at h
      subst h
      rw [Item.edges, Item.forestEdges_append, Item.forestEdges, Item.forestEdges,
        List.append_nil]
      subst hn
      exact List.mem_append.mpr (Or.inr (List.mem_cons_self _ _))
    · rw [if_neg hn] at h
      cases hm : Item.addChildrenRev ch x p with
      | none => rw [hm] at h; simp at h
      | some ch2 =>
        rw [hm] at h
        simp only [Option.some.injEq] at h
        subst h
        rw [Item.edges]
        exact Item.addChildrenRev_mem_edges ch x p ch2 n hm

theorem Item.addChildrenRev_mem_edges : ∀ (ch : List Item) (x : Item) (p : String)
    (ch2 : List Item) (parent : String),
    Item.addChildrenRev ch x p = some ch2 →
    (p, x.name) ∈ Item.forestEdges parent ch2
  | [], x, p, ch2, parent, h => by simp [Item.addChildrenRev] at h
  | c :: rest, x, p, ch2, parent, h => by
    unfold Item.addChildrenRev at h
    cases hm : Item.addChildrenRev rest x p with
    | some rest2 =>
      rw [hm] at h
      simp only [Option.some.injEq] at h
      subst h
      rw [Item.forestEdges]
      refine List.mem_cons_of_mem _ (List.mem_append.mpr (Or.inr ?_))
      exact Item.addChildrenRev_mem_edges rest x p rest2 parent hm
    | none =>
      rw [hm] at h
      cases ha : Item.add c x p with
      | none => rw [ha] at h; simp at h
      | some c2 =>
        rw [ha] at h
        simp only [Option.some.injEq] at h
        subst h
        rw [Item.forestEdges]
        refine List.mem_cons_of_mem _ (List.mem_append.mpr (Or.inl ?_))
        exact Item.add_mem_edges c x p c2 ha

end

mutual

/-- A successful `Item::add` keeps every existing parent/child edge. -/
theorem Item.add_edges_mono : ∀ (t x : Item) (p : String) (t' : Item)
    (e : String × String),
    t.add x p = some t' → e ∈ t.edges → e ∈ t'.edges
  | .mk n i e0 ch, x, p, t', e, h, hmem => by
    unfold Item.add at h
    by_cases hn : n = p
    · rw [if_pos hn] at h
      simp only [Option.some.injEq] at h
      subst h
      rw [Item.edges] at hmem ⊢
      rw [Item.forestEdges_append]
      exact List.mem_append.mpr (Or.inl hmem)
    · rw [if_neg hn] at h
      cases hm : Item.addChildrenRev ch x p with
      | none => rw [hm] at h; simp at h
      | some ch2 =>
        rw [hm] at h
        simp only [Option.some.injEq] at h
        subst h
        rw [Item.edges] at hmem ⊢
        exact Item.addChildrenRev_edges_mono ch x p ch2 n e hm hmem

theorem Item.addChildrenRev_edges_mono : ∀ (ch : List Item) (x : Item) (p : String)
    (ch2 : List Item) (parent : String) (e : String × String),
    Item.addChildrenRev ch x p = some ch2 →
    e ∈ Item.forestEdges parent ch → e ∈ Item.forestEdges parent ch2
  | [], x, p, ch2, parent, e, h, hmem => by simp [Item.addChildrenRev] at h
  | c :: rest, x, p, ch2, parent, e, h, hmem => by
    unfold Item.addChildrenRev at h
    rw [Item.forestEdges] at hmem
    cases hm : Item.addChildrenRev rest x p with
    | some rest2 =>
      rw [hm] at h
      simp only [Option.some.injEq] at h
      subst h
      rw [Item.forestEdges]
      rcases List.mem_cons.mp hmem with h1 | h2
      · exact List.mem_cons.mpr (Or.inl h1)
      · rcases List.mem_append.mp h2 with h3 | h4
        · exact List.mem_cons_of_mem _ (List.mem_append.mpr (Or.inl h3))
        · exact List.mem_cons_of_mem _ (List.mem_append.mpr
            (Or.inr (Item.addChildrenRev_edges_mono rest x p rest2 parent e hm h4)))
    | none =>
      rw [hm] at h
      cases ha : Item.add c x p with
      | none => rw [ha] at h; simp at h
      | some c2 =>
        rw [ha] at h
        simp only [Option.some.injEq] at h
        subst h
        rw [Item.forestEdges]
        rcases List.mem_cons.mp hmem with h1 | h2
        · rw [Item.name_add c x p c2 ha]
          exact List.mem_cons.mpr (Or.inl h1)
        · rcases List.mem_append.mp h2 with h3 | h4
          · exact List.mem_cons_of_mem _ (List.mem_append.mpr
              (Or.inl (Item.add_edges_mono c x p c2 e ha h3)))
          · exact List.mem_cons_of_mem _ (List.mem_append.mpr (Or.inr h4))

end

/-- C5: under the class invariant (used names are exactly the tree's names,
and names are unique), `addItem` fails without mutation when the item's name
is already used or the parent name is not used; otherwise it appends the item
as the last child of the node named `parent` (located by the reverse-order
depth-first search of `Item::add`), registers the name, and returns true. -/
theorem C5_addItem_contract (h : CaretHierarchy) (toAdd : Item) (parent : String)
    (hinv : h.UsedNamesConsistent) (hnd : h.m_root.names.Nodup) :
    (toAdd.name ∈ h.m_usedNames → h.addItem toAdd parent = (false, h)) ∧
    (parent ∉ h.m_usedNames → h.addItem toAdd parent = (false, h)) ∧
    (toAdd.name ∉ h.m_usedNames → parent ∈ h.m_usedNames →
      h.addItem toAdd parent =
        (true, ⟨h.m_root.graft parent toAdd, h.m_usedNames ++ [toAdd.name]⟩)) := by
  refine ⟨?_, ?_, ?_⟩
  · intro hmem
    unfold CaretHierarchy.addItem
    rw [if_pos hmem]
  · intro hpar
    unfold CaretHierarchy.addItem
    by_cases hmem : toAdd.name ∈ h.m_usedNames
    · rw [if_pos hmem]
    · rw [if_neg hmem, if_pos hpar]
  · intro hname hpar
    unfold CaretHierarchy.addItem
    rw [if_neg hname, if_neg (not_not.mpr hpar)]
    have hcount : h.m_root.names.count parent = 1 :=
      List.count_eq_one_of_mem hnd (hinv.1 parent hpar)
    rw [Item.add_eq_graft h.m_root toAdd parent hcount]
    unfold nameSetInsert
    rw [if_neg hname]

/-- Closed instance of `C5_addItem_contract`. -/
theorem C5_addItem_contract_witness :
    exampleHierarchy.UsedNamesConsistent ∧ exampleHierarchy.m_root.names.Nodup ∧
    (((Item.mk "b" "" [] []).name ∈ exampleHierarchy.m_usedNames →
        exampleHierarchy.addItem (Item.mk "b" "" [] []) "a" = (false, exampleHierarchy)) ∧
      ("a" ∉ exampleHierarchy.m_usedNames →
        exampleHierarchy.addItem (Item.mk "b" "" [] []) "a" = (false, exampleHierarchy)) ∧
      ((Item.mk "b" "" [] []).name ∉ exampleHierarchy.m_usedNames →
        "a" ∈ exampleHierarchy.m_usedNames →
        exampleHierarchy.addItem (Item.mk "b" "" [] []) "a" =
          (true, ⟨exampleHierarchy.m_root.graft "a" (Item.mk "b" "" [] []),
                  exampleHierarchy.m_usedNames ++ [(Item.mk "b" "" [] []).name]⟩))) :=
  ⟨by decide, by decide,
    C5_addItem_contract exampleHierarchy (Item.mk "b" "" [] []) "a" (by decide) (by decide)⟩

theorem runAddItems_append (h : CaretHierarchy) (a b : List (Item × String)) :
    runAddItems h (a ++ b) = runAddItems (runAddItems h a) b := by
  induction a generalizing h with
  | nil => rfl
  | cons c rest ih =>
    obtain ⟨it, p⟩ := c
    rw [List.cons_append, runAddItems, runAddItems, ih]

theorem addItem_preserves_inv (h : CaretHierarchy) (it : Item) (p : String)
    (hleaf : it.children = []) (hinv : HierarchyInv h) :
    HierarchyInv (h.addItem it p).2 := by
  unfold CaretHierarchy.addItem
  by_cases h1 : it.name ∈ h.m_usedNames
  · rw [if_pos h1]
    exact hinv
  · rw [if_neg h1]
    by_cases h2 : p ∉ h.m_usedNames
    · rw [if_pos h2]
      exact hinv
    · rw [if_neg h2]
      cases ha : h.m_root.add it p with
      | none => exact hinv
      | some root2 =>
        have hxnames : it.names = [it.name] := by
          cases it with
          | mk n i e ch =>
            have : ch = [] := hleaf
            subst this
            rfl
        have hfresh : it.name ∉ h.m_root.names := fun hmem => h1 (hinv.1.2 _ hmem)
        have hperm : root2.names.Perm (h.m_root.names ++ [it.name]) := by
          have := Item.names_add_perm h.m_root it p root2 ha
          rwa [hxnames] at this
        have hins : nameSetInsert it.name h.m_usedNames =
            h.m_usedNames ++ [it.name] := by
          unfold nameSetInsert
          rw [if_neg h1]
        refine ⟨⟨?_, ?_⟩, ?_⟩
        · intro s hs
          rw [hins] at hs
          rw [hperm.mem_iff]
          rcases List.mem_append.mp hs with hs1 | hs2
          · exact List.mem_append.mpr (Or.inl (hinv.1.1 s hs1))
          · exact List.mem_append.mpr (Or.inr hs2)
        · intro s hs
          rw [hperm.mem_iff] at hs
          rw [hins]
          rcases List.mem_append.mp hs with hs1 | hs2
          · exact List.mem_append.mpr (Or.inl (hinv.1.2 s hs1))
          · exact List.mem_append.mpr (Or.inr hs2)
        · refine hperm.nodup_iff.mpr ?_
          refine List.nodup_append.mpr ⟨hinv.2, List.nodup_singleton _, ?_⟩
          intro a ha1 ha2
          rw [List.mem_singleton] at ha2
          exact hfresh (ha2 ▸ ha1)

theorem runAddItems_inv (calls : List (Item × String)) (h : CaretHierarchy)
    (hleaf : ∀ c ∈ calls, c.1.children = []) (hinv : HierarchyInv h) :
    HierarchyInv (runAddItems h calls) := by
  induction calls generalizing h with
  | nil => exact hinv
  | cons c rest ih =>
    obtain ⟨it, p⟩ := c
    rw [runAddItems]
    exact ih _ (fun d hd => hleaf d (List.mem_cons_of_mem _ hd))
      (addItem_preserves_inv h it p (hleaf (it, p) (List.mem_cons_self _ _)) hinv)

theorem addItem_edges_mono (h : CaretHierarchy) (it : Item) (p : String)
    (e : String × String) (hmem : e ∈ h.m_root.edges) :
    e ∈ (h.addItem it p).2.m_root.edges := by
  unfold CaretHierarchy.addItem
  by_cases h1 : it.name ∈ h.m_usedNames
  · rw [if_pos h1]
    exact hmem
  · rw [if_neg h1]
    by_cases h2 : p ∉ h.m_usedNames
    · rw [if_pos h2]
      exact hmem
    · rw [if_neg h2]
      cases ha : h.m_root.add it p with
      | none => exact hmem
      | some root2 => exact Item.add_edges_mono h.m_root it p root2 e ha hmem

theorem runAddItems_edges_mono (calls : List (Item × String)) (h : CaretHierarchy)
    (e : String × String) (hmem : e ∈ h.m_root.edges) :
    e ∈ (runAddItems h calls).m_root.edges := by
  induction calls generalizing h with
  | nil => exact hmem
  | cons c rest ih =>
    obtain ⟨it, p⟩ := c
    rw [runAddItems]
    exact ih _ (addItem_edges_mono h it p e hmem)

theorem addItem_true_elim (h : CaretHierarchy) (it : Item) (p : String)
    (hs : (h.addItem it p).1 = true) :
    h.m_root.add it p = some (h.addItem it p).2.m_root := by
  unfold CaretHierarchy.addItem at hs ⊢
  by_cases h1 : it.name ∈ h.m_usedNames
  · rw [if_pos h1] at hs
    simp at hs
  · rw [if_neg h1] at hs ⊢
    by_cases h2 : p ∉ h.m_usedNames
    · rw [if_pos h2] at hs
      simp at hs
    · rw [if_neg h2] at hs ⊢
      cases ha : h.m_root.add it p with
      | none =>
        rw [ha] at hs
        simp at hs
      | some root2 => rfl

theorem initialHierarchy_inv : HierarchyInv initialHierarchy := by decide

/-- C6 counterexample: `addItem` only registers the name of the item itself,
not the names of children the item already carries, so a sequence of two
successful `addItem` calls can produce a tree with two items named "b". -/
theorem C6_sequences_counterexample :
    (initialHierarchy.addItem (Item.mk "a" "" [] [Item.mk "b" "" [] []]) "").1 = true ∧
    ((runAddItems initialHierarchy
        [(Item.mk "a" "" [] [Item.mk "b" "" [] []], "")]).addItem
      (Item.mk "b" "" [] []) "a").1 = true ∧
    ¬ (runAddItems initialHierarchy
        [(Item.mk "a" "" [] [Item.mk "b" "" [] []], ""),
         (Item.mk "b" "" [] [], "a")]).m_root.names.Nodup := by
  decide

/-- C6 amended: for every sequence of `addItem` calls on childless items,
starting from a fresh hierarchy, no two items of the resulting tree share a
name, and every call that returned true put its item into the final tree as a
child of the node named by the requested parent. -/
theorem C6_sequences_amended (calls : List (Item × String))
    (hleaf : ∀ c ∈ calls, c.1.children = []) :
    (runAddItems initialHierarchy calls).m_root.names.Nodup ∧
    (∀ (pre post : List (Item × String)) (it : Item) (p : String),
      calls = pre ++ (it, p) :: post →
      ((runAddItems initialHierarchy pre).addItem it p).1 = true →
      (p, it.name) ∈ (runAddItems initialHierarchy calls).m_root.edges) := by
  constructor
  · exact (runAddItems_inv calls initialHierarchy hleaf initialHierarchy_inv).2
  · intro pre post it p hdecomp hsuccess
    subst hdecomp
    rw [runAddItems_append]
    have hstep : runAddItems (runAddItems initialHierarchy pre) ((it, p) :: post) =
        runAddItems ((runAddItems initialHierarchy pre).addItem it p).2 post := rfl
    rw [hstep]
    refine runAddItems_edges_mono post _ _ ?_
    exact Item.add_mem_edges _ it p _ (addItem_true_elim _ it p hsuccess)

/-- Closed instance of `C6_sequences_amended` at a concrete call list. -/
theorem C6_sequences_amended_witness :
    (∀ c ∈ [(Item.mk "a" "" [] [], ""), (Item.mk "b" "" [] [], "a")],
      (Prod.fst c).children = []) ∧
    ((runAddItems initialHierarchy
        [(Item.mk "a" "" [] [], ""), (Item.mk "b" "" [] [], "a")]).m_root.names.Nodup ∧
      (∀ (pre post : List (Item × String)) (it : Item) (p : String),
        [(Item.mk "a" "" [] [], ""), (Item.mk "b" "" [] [], "a")] =
          pre ++ (it, p) :: post →
        ((runAddItems initialHierarchy pre).addItem it p).1 = true →
        (p, it.name) ∈ (runAddItems initialHierarchy
          [(Item.mk "a" "" [] [], ""), (Item.mk "b" "" [] [], "a")]).m_root.edges)) :=
  ⟨by decide,
    C6_sequences_amended [(Item.mk "a" "" [] [], ""), (Item.mk "b" "" [] [], "a")]
      (by decide)⟩

/-- C2 counterexample: a parse that adds the item "a" and then meets an
unknown element throws, and the hierarchy it leaves behind holds the partial
tree with "a" — not the cleared state: `readXML` clears at the start, not on
failure. -/
theorem C2_failed_parse_counterexample :
    ((initialHierarchy.readXML
        [XmlToken.startElement "CaretHierarchy" [("Version", "1")],
         XmlToken.startElement "Item" [("Name", "a")],
         XmlToken.startElement "Bogus" []]).2).isSome = true ∧
    (initialHierarchy.readXML
        [XmlToken.startElement "CaretHierarchy" [("Version", "1")],
         XmlToken.startElement "Item" [("Name", "a")],
         XmlToken.startElement "Bogus" []]).1 ≠ initialHierarchy.clear := by
  decide

/-- C2 amended: every parse (successful or failed) begins by clearing the
hierarchy, so its outcome — final hierarchy and error alike — is independent
of the pre-parse state: no content from before the parse survives. A failed
parse can, however, leave the items added before the error (the partial tree
of that parse), not the cleared state. On an empty token stream the parse
returns the cleared hierarchy with no error. -/
theorem C2_parse_clears_first (h1 h2 : CaretHierarchy) (toks : List XmlToken) :
    h1.readXML toks = h2.readXML toks ∧ h1.readXML [] = (h1.clear, none) :=
  ⟨rfl, rfl⟩

mutual

theorem Item.names_eraseIds : ∀ t : Item, t.eraseIds.names = t.names
  | .mk n i e ch => by
    rw [Item.eraseIds, Item.names, Item.names, Item.forestNames_eraseIds]

theorem Item.forestNames_eraseIds : ∀ ch : List Item,
    Item.forestNames (Item.eraseIdsForest ch) = Item.forestNames ch
  | [] => rfl
  | c :: rest => by
    rw [Item.eraseIdsForest, Item.forestNames, Item.forestNames,
      Item.names_eraseIds, Item.forestNames_eraseIds]

end

theorem Item.graftForest_append (a b : List Item) (p : String) (x : Item) :
    Item.graftForest (a ++ b) p x =
      Item.graftForest a p x ++ Item.graftForest b p x := by
  induction a with
  | nil => simp [Item.graftForest]
  | cons c rest ih => simp [Item.graftForest, ih]

theorem Item.setInfoByNameForest_append (a b : List Item) (nm : String)
    (kv : List (String × String)) :
    Item.setInfoByNameForest (a ++ b) nm kv =
      Item.setInfoByNameForest a nm kv ++ Item.setInfoByNameForest b nm kv := by
  induction a with
  | nil => simp [Item.setInfoByNameForest]
  | cons c rest ih => simp [Item.setInfoByNameForest, ih]

/-- Equation of `graft` on a constructor. -/
theorem Item.graft_mk (m j : String) (f : List (String × String)) (gh : List Item)
    (p : String) (x : Item) :
    (Item.mk m j f gh).graft p x =
      if m = p then Item.mk m j f (Item.graftForest gh p x ++ [x])
      else Item.mk m j f (Item.graftForest gh p x) := by
  unfold Item.graft
  by_cases hmp : m = p <;> simp [hmp]

mutual

/-- Grafting `x` under the freshly grafted node named `n` appends `x` to that
node's children: the one-step composition behind the reader's replay. -/
theorem Item.graft_graft_step : ∀ (t : Item) (p n i : String)
    (e : List (String × String)) (cs : List Item) (x : Item),
    n ∉ t.names → n ∉ Item.forestNames cs →
    (t.graft p (.mk n i e cs)).graft n x = t.graft p (.mk n i e (cs ++ [x]))
  | .mk m j f gh, p, n, i, e, cs, x, hnt, hncs => by
    rw [Item.names] at hnt
    simp only [List.mem_cons, not_or] at hnt
    have hmn : m ≠ n := fun he => hnt.1 he.symm
    by_cases hmp : m = p
    · rw [Item.graft_mk m j f gh p (Item.mk n i e cs), if_pos hmp,
        Item.graft_mk m j f gh p (Item.mk n i e (cs ++ [x])), if_pos hmp,
        Item.graft_mk m j f
          (Item.graftForest gh p (Item.mk n i e cs) ++ [Item.mk n i e cs]) n x,
        if_neg hmn, Item.graftForest_append,
        Item.forestGraft_graft_step gh p n i e cs x hnt.2 hncs,
        show Item.graftForest [Item.mk n i e cs] n x =
          [(Item.mk n i e cs).graft n x] from rfl,
        Item.graft_mk n i e cs n x, if_pos rfl,
        Item.graftForest_not_mem cs n x hncs]
    · rw [Item.graft_mk m j f gh p (Item.mk n i e cs), if_neg hmp,
        Item.graft_mk m j f gh p (Item.mk n i e (cs ++ [x])), if_neg hmp,
        Item.graft_mk m j f (Item.graftForest gh p (Item.mk n i e cs)) n x,
        if_neg hmn, Item.forestGraft_graft_step gh p n i e cs x hnt.2 hncs]

theorem Item.forestGraft_graft_step : ∀ (ch : List Item) (p n i : String)
    (e : List (String × String)) (cs : List Item) (x : Item),
    n ∉ Item.forestNames ch → n ∉ Item.forestNames cs →
    Item.graftForest (Item.graftForest ch p (.mk n i e cs)) n x =
      Item.graftForest ch p (.mk n i e (cs ++ [x]))
  | [], _, _, _, _, _, _, _, _ => rfl
  | c :: rest, p, n, i, e, cs, x, hch, hncs => by
    rw [Item.forestNames] at hch
    simp only [List.mem_append, not_or] at hch
    rw [Item.graftForest, Item.graftForest, Item.graftForest]
    rw [Item.graft_graft_step c p n i e cs x hch.1 hncs,
      Item.forestGraft_graft_step rest p n i e cs x hch.2 hncs]

end

/-- Iterated composition: replaying the children of the freshly grafted node
named `n` builds the whole erased subtree in place. -/
theorem graftReplay_compose (ch : List Item) (t : Item) (p n : String)
    (i : String) (e : List (String × String)) (cs : List Item)
    (hnt : n ∉ t.names) (hncs : n ∉ Item.forestNames cs)
    (hnch : n ∉ Item.forestNames ch) :
    graftReplay (t.graft p (.mk n i e cs)) n ch =
      t.graft p (.mk n i e (cs ++ Item.eraseIdsForest ch)) := by
  induction ch generalizing cs with
  | nil =>
    rw [graftReplay, Item.eraseIdsForest, List.append_nil]
  | cons c rest ih =>
    rw [Item.forestNames] at hnch
    simp only [List.mem_append, not_or] at hnch
    rw [graftReplay, Item.graft_graft_step t p n i e cs c.eraseIds hnt hncs,
      Item.eraseIdsForest]
    have hncs2 : n ∉ Item.forestNames (cs ++ [c.eraseIds]) := by
      rw [Item.forestNames_append]
      simp only [List.mem_append, not_or]
      refine ⟨hncs, ?_⟩
      rw [Item.forestNames, Item.names_eraseIds, Item.forestNames, List.append_nil]
      exact hnch.1
    rw [ih (cs ++ [c.eraseIds]) hncs2 hnch.2, List.append_assoc]
    rfl

/-- Replay at the root: grafting the children under the root's own name
appends them to the root. -/
theorem graftReplay_root (ch : List Item) (n i : String)
    (e : List (String × String)) (cs : List Item)
    (hncs : n ∉ Item.forestNames cs) (hnch : n ∉ Item.forestNames ch) :
    graftReplay (.mk n i e cs) n ch = .mk n i e (cs ++ Item.eraseIdsForest ch) := by
  induction ch generalizing cs with
  | nil => rw [graftReplay, Item.eraseIdsForest, List.append_nil]
  | cons c rest ih =>
    rw [Item.forestNames] at hnch
    simp only [List.mem_append, not_or] at hnch
    rw [graftReplay]
    have hg : (Item.mk n i e cs).graft n c.eraseIds =
        Item.mk n i e (cs ++ [c.eraseIds]) := by
      unfold Item.graft
      rw [if_pos rfl, Item.graftForest_not_mem cs n c.eraseIds hncs]
    rw [hg]
    have hncs2 : n ∉ Item.forestNames (cs ++ [c.eraseIds]) := by
      rw [Item.forestNames_append]
      simp only [List.mem_append, not_or]
      refine ⟨hncs, ?_⟩
      rw [Item.forestNames, Item.names_eraseIds, Item.forestNames, List.append_nil]
      exact hnch.1
    rw [ih (cs ++ [c.eraseIds]) hncs2 hnch.2, List.append_assoc]
    rfl

/-- Equation of `setInfoByName` on a constructor. -/
theorem Item.setInfoByName_mk (m j : String) (f : List (String × String))
    (gh : List Item) (nm : String) (kv : List (String × String)) :
    (Item.mk m j f gh).setInfoByName nm kv =
      .mk m j (if m = nm then kv else f) (Item.setInfoByNameForest gh nm kv) := rfl

mutual

/-- Writing the `Info` contents into the just-grafted bare item fills exactly
that item's store. -/
theorem Item.setInfo_graft_bare : ∀ (t : Item) (p n : String)
    (kv : List (String × String)),
    n ∉ t.names →
    (t.graft p (.mk n "" [] [])).setInfoByName n kv = t.graft p (.mk n "" kv []) := by
  intro t p n kv hnt
  match t with
  | .mk m j f gh =>
    rw [Item.names] at hnt
    simp only [List.mem_cons, not_or] at hnt
    have hmn : m ≠ n := fun he => hnt.1 he.symm
    by_cases hmp : m = p
    · rw [Item.graft_mk m j f gh p (.mk n "" [] []), if_pos hmp,
        Item.graft_mk m j f gh p (.mk n "" kv []), if_pos hmp,
        Item.setInfoByName_mk, if_neg hmn, Item.setInfoByNameForest_append,
        Item.forestSetInfo_graft_bare gh p n kv hnt.2,
        show Item.setInfoByNameForest [Item.mk n "" [] []] n kv =
          [(Item.mk n "" [] []).setInfoByName n kv] from rfl,
        Item.setInfoByName_mk, if_pos rfl]
      rfl
    · rw [Item.graft_mk m j f gh p (.mk n "" [] []), if_neg hmp,
        Item.graft_mk m j f gh p (.mk n "" kv []), if_neg hmp,
        Item.setInfoByName_mk, if_neg hmn,
        Item.forestSetInfo_graft_bare gh p n kv hnt.2]

theorem Item.forestSetInfo_graft_bare : ∀ (ch : List Item) (p n : String)
    (kv : List (String × String)),
    n ∉ Item.forestNames ch →
    Item.setInfoByNameForest (Item.graftForest ch p (.mk n "" [] [])) n kv =
      Item.graftForest ch p (.mk n "" kv []) := by
  intro ch p n kv hch
  match ch with
  | [] => rfl
  | c :: rest =>
    rw [Item.forestNames] at hch
    simp only [List.mem_append, not_or] at hch
    rw [Item.graftForest, Item.graftForest, Item.setInfoByNameForest]
    rw [Item.setInfo_graft_bare c p n kv hch.1,
      Item.forestSetInfo_graft_bare rest p n kv hch.2]

end

/-- The success case of `addItem` under the class invariant: the item lands as
the last child of the node named `parent`, and its name is appended to the
used names. -/
theorem addItem_success_graft (h : CaretHierarchy) (toAdd : Item) (parent : String)
    (hinv : h.UsedNamesConsistent) (hnd : h.m_root.names.Nodup)
    (hname : toAdd.name ∉ h.m_usedNames) (hpar : parent ∈ h.m_usedNames) :
    h.addItem toAdd parent =
      (true, ⟨h.m_root.graft parent toAdd, h.m_usedNames ++ [toAdd.name]⟩) := by
  unfold CaretHierarchy.addItem
  rw [if_neg hname, if_neg (not_not.mpr hpar)]
  have hcount : h.m_root.names.count parent = 1 :=
    List.count_eq_one_of_mem hnd (hinv.1 parent hpar)
  rw [Item.add_eq_graft h.m_root toAdd parent hcount]
  unfold nameSetInsert
  rw [if_neg hname]

theorem lookup_none_of_not_mem_keys (l : List (String × String)) (k : String)
    (h : k ∉ l.map Prod.fst) : l.lookup k = none := by
  induction l with
  | nil => rfl
  | cons q rest ih =>
    obtain ⟨a, b⟩ := q
    simp only [List.map_cons, List.mem_cons, not_or] at h
    rw [List.lookup_cons, show (k == a) = false from beq_eq_false_iff_ne.mpr h.1]
    exact ih h.2

theorem kvSet_append (store : List (String × String)) (k v : String)
    (h : k ∉ store.map Prod.fst) : kvSet store k v = store ++ [(k, v)] := by
  unfold kvSet
  rw [lookup_none_of_not_mem_keys store k h]
  simp

theorem kvFold_from_disjoint (e store : List (String × String))
    (hnd : (e.map Prod.fst).Nodup)
    (hdisj : ∀ k ∈ e.map Prod.fst, k ∉ store.map Prod.fst) :
    kvFold store e = store ++ e := by
  induction e generalizing store with
  | nil => simp [kvFold]
  | cons kv rest ih =>
    obtain ⟨k, v⟩ := kv
    simp only [List.map_cons, List.nodup_cons] at hnd
    unfold kvFold
    rw [List.foldl_cons]
    have hk : k ∉ store.map Prod.fst :=
      hdisj k (List.mem_cons_self _ _)
    rw [show kvSet store (k, v).1 (k, v).2 = store ++ [(k, v)] from kvSet_append store k v hk]
    have hdisj2 : ∀ k2 ∈ rest.map Prod.fst, k2 ∉ (store ++ [(k, v)]).map Prod.fst := by
      intro k2 hk2
      rw [List.map_append]
      simp only [List.mem_append, not_or]
      refine ⟨hdisj k2 (List.mem_cons_of_mem _ hk2), ?_⟩
      simp only [List.map_cons, List.map_nil, List.mem_singleton]
      exact fun he => hnd.1 (he ▸ hk2)
    have := ih (store ++ [(k, v)]) hnd.2 hdisj2
    unfold kvFold at this
    rw [this, List.append_assoc]
    rfl

theorem kvFold_nil (e : List (String × String)) (hnd : (e.map Prod.fst).Nodup) :
    kvFold [] e = e := by
  rw [kvFold_from_disjoint e [] hnd (by simp)]
  rfl

/-- Equation of `writeTokens` for a named (non-root) item. -/
theorem Item.writeTokens_mk (n idv : String) (e : List (String × String))
    (ch : List Item) (hn : n ≠ "") :
    (Item.mk n idv e ch).writeTokens =
      XmlToken.startElement "Item" [("Name", n)] ::
        ((if e.isEmpty then [] else
            XmlToken.startElement "Info" [] ::
              (e.flatMap kvPairTokens ++ [XmlToken.endElement "Info"])) ++
          (Item.forestWriteTokens ch ++ [XmlToken.endElement "Item"])) := by
  unfold Item.writeTokens
  rw [if_neg hn]

/-- Inside an `Info` block the loop replays the written pairs into the store
and leaves the block at its end element. -/
theorem readXMLLoop_infoMode (e : List (String × String))
    (store : List (String × String)) (h : CaretHierarchy) (parents ai : List String)
    (hr re : Bool) (rest : List XmlToken) :
    readXMLLoop h parents ai hr re (some store)
        (e.flatMap kvPairTokens ++ XmlToken.endElement "Info" :: rest) =
      readXMLLoop (updateItemInfo h (ai.headD "") (kvFold store e)) parents ai hr re
        none rest := by
  induction e generalizing store with
  | nil =>
    rw [List.flatMap_nil, List.nil_append, readXMLLoop,
      if_neg (by decide : ¬ ("Info" : String) = "InfoItem")]
    rfl
  | cons kv rest2 ih =>
    obtain ⟨k, v⟩ := kv
    rw [List.flatMap_cons]
    rw [show kvPairTokens (k, v) =
      [XmlToken.startElement "InfoItem" [("Key", k), ("Value", v)],
       XmlToken.endElement "InfoItem"] from rfl]
    simp only [List.cons_append, List.nil_append]
    rw [readXMLLoop, if_pos rfl]
    rw [readXMLLoop, if_pos rfl]
    rw [show attrValue [("Key", k), ("Value", v)] "Key" = k from rfl,
      show attrValue [("Key", k), ("Value", v)] "Value" = v from rfl]
    rw [ih (kvSet store k v)]
    rfl

mutual

/-- Replaying the written tokens of one well-formed item from a consistent
mid-parse state grafts the item's erased subtree under the open parent and
appends its names to the used set. -/
theorem readXML_replay_item : ∀ (it : Item) (h : CaretHierarchy) (p : String)
    (ps ai : List String) (rest : List XmlToken),
    HierarchyInv h → "" ∈ h.m_usedNames → p ∈ h.m_usedNames →
    (∀ s ∈ it.names, s ∉ h.m_usedNames) → it.names.Nodup → it.kvNodup = true →
    readXMLLoop h (p :: ps) ai true false none (it.writeTokens ++ rest) =
      readXMLLoop ⟨h.m_root.graft p it.eraseIds, h.m_usedNames ++ it.names⟩
        (p :: ps) ai true false none rest
  | .mk n idv e ch, h, p, ps, ai, rest, hinv, hempty, hpar, hfresh, hnd, hkv => by
    have hn_used : n ∉ h.m_usedNames :=
      hfresh n (by rw [Item.names]; exact List.mem_cons_self _ _)
    rw [Item.names] at hfresh hnd
    have hch_fresh : ∀ s ∈ Item.forestNames ch, s ∉ h.m_usedNames :=
      fun s hs => hfresh s (List.mem_cons_of_mem _ hs)
    have hnn : n ≠ "" := fun he => hn_used (he ▸ hempty)
    rcases List.nodup_cons.mp hnd with ⟨hn_notin_ch, hnd_ch⟩
    rw [Item.kvNodup] at hkv
    simp only [Bool.and_eq_true, decide_eq_true_eq] at hkv
    obtain ⟨hkv_e, hkv_ch⟩ := hkv
    have hn_notin_root : n ∉ h.m_root.names := fun hm => hn_used (hinv.1.2 n hm)
    -- the Item start element adds the bare item
    rw [Item.writeTokens_mk n idv e ch hnn, List.cons_append, readXMLLoop,
      if_neg (by decide : ¬ ("Item" : String) = "CaretHierarchy"), if_pos rfl,
      if_neg (by decide : ¬ (true = false)),
      if_neg (by decide : ¬ (false = true)),
      show attrValue [("Name", n)] "Name" = n from rfl,
      show (p :: ps).headD "" = p from rfl,
      addItem_success_graft h (Item.mk n "" [] []) p hinv.1 hinv.2 hn_used hpar,
      if_pos rfl]
    dsimp only [Item.name]
    simp only [List.append_assoc, List.singleton_append]
    -- the Info block (if any) fills the bare item's store
    have hitem2 := addItem_success_graft h (Item.mk n "" e []) p hinv.1 hinv.2 hn_used hpar
    rw [show (Item.mk n "" e []).name = n from rfl] at hitem2
    have hinv2 : HierarchyInv
        (⟨h.m_root.graft p (Item.mk n "" e []), h.m_usedNames ++ [n]⟩ :
          CaretHierarchy) := by
      have := addItem_preserves_inv h (Item.mk n "" e []) p rfl hinv
      rwa [hitem2] at this
    have hinfo : readXMLLoop
        (⟨h.m_root.graft p (Item.mk n "" [] []), h.m_usedNames ++ [n]⟩ : CaretHierarchy)
        (n :: p :: ps) (n :: ai) true false none
        ((if e.isEmpty then [] else
            XmlToken.startElement "Info" [] ::
              (e.flatMap kvPairTokens ++ [XmlToken.endElement "Info"])) ++
          (Item.forestWriteTokens ch ++ XmlToken.endElement "Item" :: rest)) =
        readXMLLoop
          (⟨h.m_root.graft p (Item.mk n "" e []), h.m_usedNames ++ [n]⟩ : CaretHierarchy)
          (n :: p :: ps) (n :: ai) true false none
          (Item.forestWriteTokens ch ++ XmlToken.endElement "Item" :: rest) := by
      by_cases hemp : e.isEmpty = true
      · have hE : e = [] := by simpa using hemp
        subst hE
        rw [if_pos hemp, List.nil_append]
      · rw [if_neg hemp, List.cons_append, readXMLLoop,
          if_neg (by decide : ¬ ("Info" : String) = "CaretHierarchy"),
          if_neg (by decide : ¬ ("Info" : String) = "Item"), if_pos rfl,
          if_neg (by simp : ¬ (n :: ai).isEmpty = true)]
        simp only [List.append_assoc, List.singleton_append]
        rw [readXMLLoop_infoMode e []]
        rw [show ((n : String) :: ai).headD "" = n from rfl, kvFold_nil e hkv_e]
        rw [show updateItemInfo
            (⟨h.m_root.graft p (Item.mk n "" [] []), h.m_usedNames ++ [n]⟩ :
              CaretHierarchy) n e =
            ⟨(h.m_root.graft p (Item.mk n "" [] [])).setInfoByName n e,
              h.m_usedNames ++ [n]⟩ from rfl]
        rw [Item.setInfo_graft_bare h.m_root p n e hn_notin_root]
    rw [hinfo]
    -- the children
    have hch_fresh2 : ∀ s ∈ Item.forestNames ch,
        s ∉ h.m_usedNames ++ [n] := by
      intro s hs
      simp only [List.mem_append, List.mem_singleton, not_or]
      exact ⟨hch_fresh s hs, fun he => hn_notin_ch (he ▸ hs)⟩
    have hforest := readXML_replay_forest ch
      (⟨h.m_root.graft p (Item.mk n "" e []), h.m_usedNames ++ [n]⟩ : CaretHierarchy)
      n (p :: ps) (n :: ai) (XmlToken.endElement "Item" :: rest)
      hinv2 (List.mem_append.mpr (Or.inl hempty))
      (List.mem_append.mpr (Or.inr (List.mem_singleton.mpr rfl)))
      hch_fresh2 hnd_ch hkv_ch
    rw [hforest]
    -- the Item end element pops the stacks
    rw [readXMLLoop, if_pos rfl]
    dsimp only [List.tail_cons]
    -- compose the grafts into the erased subtree
    rw [graftReplay_compose ch h.m_root p n "" e [] hn_notin_root
        (by simp [Item.forestNames]) hn_notin_ch]
    rw [List.nil_append]
    rw [show (Item.mk n idv e ch).eraseIds = Item.mk n "" e (Item.eraseIdsForest ch)
      from rfl]
    rw [show (Item.mk n idv e ch).names = n :: Item.forestNames ch from rfl]
    simp only [List.append_assoc, List.singleton_append]

theorem readXML_replay_forest : ∀ (ch : List Item) (h : CaretHierarchy) (p : String)
    (ps ai : List String) (rest : List XmlToken),
    HierarchyInv h → "" ∈ h.m_usedNames → p ∈ h.m_usedNames →
    (∀ s ∈ Item.forestNames ch, s ∉ h.m_usedNames) →
    (Item.forestNames ch).Nodup → Item.kvNodupForest ch = true →
    readXMLLoop h (p :: ps) ai true false none (Item.forestWriteTokens ch ++ rest) =
      readXMLLoop ⟨graftReplay h.m_root p ch, h.m_usedNames ++ Item.forestNames ch⟩
        (p :: ps) ai true false none rest
  | [], h, p, ps, ai, rest, hinv, hempty, hpar, hfresh, hnd, hkv => by
    rw [Item.forestWriteTokens, List.nil_append, Item.forestNames, List.append_nil,
      graftReplay]
  | c :: rest', h, p, ps, ai, rest, hinv, hempty, hpar, hfresh, hnd, hkv => by
    rw [Item.forestNames] at hfresh hnd
    rw [Item.kvNodupForest] at hkv
    simp only [Bool.and_eq_true] at hkv
    have hc_fresh : ∀ s ∈ (c : Item).names, s ∉ h.m_usedNames :=
      fun s hs => hfresh s (List.mem_append.mpr (Or.inl hs))
    have hr_fresh : ∀ s ∈ Item.forestNames rest', s ∉ h.m_usedNames :=
      fun s hs => hfresh s (List.mem_append.mpr (Or.inr hs))
    rcases List.nodup_append.mp hnd with ⟨hnd_c, hnd_r, hdisj⟩
    -- replay the head item
    rw [Item.forestWriteTokens, List.append_assoc]
    rw [readXML_replay_item c h p ps ai (Item.forestWriteTokens rest' ++ rest)
      hinv hempty hpar hc_fresh hnd_c hkv.1]
    -- the invariant after grafting the head's subtree
    have hcount : h.m_root.names.count p = 1 :=
      List.count_eq_one_of_mem hinv.2 (hinv.1.1 p hpar)
    have hperm : (h.m_root.graft p c.eraseIds).names.Perm
        (h.m_root.names ++ (c : Item).names) := by
      have := Item.names_add_perm h.m_root c.eraseIds p (h.m_root.graft p c.eraseIds)
        (Item.add_eq_graft h.m_root c.eraseIds p hcount)
      rwa [Item.names_eraseIds] at this
    have hdisj_root : ∀ s ∈ (c : Item).names, s ∉ h.m_root.names :=
      fun s hs hm => hc_fresh s hs (hinv.1.2 s hm)
    have hinvA : HierarchyInv
        (⟨h.m_root.graft p c.eraseIds, h.m_usedNames ++ (c : Item).names⟩ :
          CaretHierarchy) := by
      refine ⟨⟨?_, ?_⟩, ?_⟩
      · intro s hs
        rw [hperm.mem_iff]
        rcases List.mem_append.mp hs with hs1 | hs2
        · exact List.mem_append.mpr (Or.inl (hinv.1.1 s hs1))
        · exact List.mem_append.mpr (Or.inr hs2)
      · intro s hs
        rw [hperm.mem_iff] at hs
        rcases List.mem_append.mp hs with hs1 | hs2
        · exact List.mem_append.mpr (Or.inl (hinv.1.2 s hs1))
        · exact List.mem_append.mpr (Or.inr hs2)
      · exact hperm.nodup_iff.mpr
          (List.nodup_append.mpr ⟨hinv.2, hnd_c, fun a ha1 ha2 => hdisj_root a ha2 ha1⟩)
    have hr_fresh2 : ∀ s ∈ Item.forestNames rest',
        s ∉ h.m_usedNames ++ (c : Item).names := by
      intro s hs
      simp only [List.mem_append, not_or]
      exact ⟨hr_fresh s hs, fun hc2 => hdisj hc2 hs⟩
    -- replay the rest of the forest
    rw [readXML_replay_forest rest'
      (⟨h.m_root.graft p c.eraseIds, h.m_usedNames ++ (c : Item).names⟩ : CaretHierarchy)
      p ps ai rest hinvA (List.mem_append.mpr (Or.inl hempty))
      (List.mem_append.mpr (Or.inl hpar)) hr_fresh2 hnd_r hkv.2]
    rw [show graftReplay h.m_root p (c :: rest') =
      graftReplay (h.m_root.graft p c.eraseIds) p rest' from rfl]
    rw [show h.m_usedNames ++ (c : Item).names ++ Item.forestNames rest' =
      h.m_usedNames ++ ((c : Item).names ++ Item.forestNames rest') from
      List.append_assoc _ _ _]
    dsimp only
    rw [Item.forestNames]

end

/-- C7: the XML round trip reproduces the hierarchy: the parse of the written
tokens succeeds, and the resulting tree has the same item names, the same
parent/child structure with child order preserved, and the same annotation
key/value pairs as the original — it equals the original tree up to erasing
the item ids, which the XML format does not carry; the used-name set comes
back as exactly the tree's names. Hypotheses (all maintained by the class
interface): the root is the implicit unnamed item with no annotations, tree
names are unique, and each annotation store has pairwise distinct keys. -/
theorem C7_xml_round_trip (h : CaretHierarchy)
    (hname : h.m_root.name = "") (hinfoE : h.m_root.extraInfo = [])
    (hnd : h.m_root.names.Nodup) (hkv : h.m_root.kvNodup = true) :
    h.readXML h.writeXML = (⟨h.m_root.eraseIds, h.m_root.names⟩, none) := by
  obtain ⟨root, used⟩ := h
  obtain ⟨n, rid, re, rch⟩ := root
  have hn : n = "" := hname
  subst hn
  have hre : re = [] := hinfoE
  subst hre
  have hnd2 : ("" :: Item.forestNames rch).Nodup := hnd
  have hne : "" ∉ Item.forestNames rch := (List.nodup_cons.mp hnd2).1
  have hndf : (Item.forestNames rch).Nodup := (List.nodup_cons.mp hnd2).2
  have hkvf : Item.kvNodupForest rch = true := by
    have hkv2 : (decide (List.map Prod.fst ([] : List (String × String))).Nodup
        && Item.kvNodupForest rch) = true := hkv
    simpa using hkv2
  have hfresh : ∀ s ∈ Item.forestNames rch, s ∉ ([""] : List String) := by
    intro s hs hmem
    rw [List.mem_singleton] at hmem
    exact hne (hmem ▸ hs)
  have hw : (⟨Item.mk "" rid [] rch, used⟩ : CaretHierarchy).writeXML =
      XmlToken.startElement "CaretHierarchy" [("Version", "1")] ::
        (Item.forestWriteTokens rch ++ [XmlToken.endElement "CaretHierarchy"]) := by
    rw [CaretHierarchy.writeXML]
    rw [show (⟨Item.mk "" rid [] rch, used⟩ : CaretHierarchy).m_root =
      Item.mk "" rid [] rch from rfl]
    rw [show (Item.mk "" rid [] rch).writeTokens = Item.forestWriteTokens rch from by
      unfold Item.writeTokens
      rw [if_pos rfl]]
  rw [show (⟨Item.mk "" rid [] rch, used⟩ : CaretHierarchy).readXML
      ((⟨Item.mk "" rid [] rch, used⟩ : CaretHierarchy).writeXML) =
      readXMLLoop initialHierarchy [""] [] false false none
        ((⟨Item.mk "" rid [] rch, used⟩ : CaretHierarchy).writeXML) from rfl]
  rw [hw]
  rw [show readXMLLoop initialHierarchy [""] [] false false none
      (XmlToken.startElement "CaretHierarchy" [("Version", "1")] ::
        (Item.forestWriteTokens rch ++ [XmlToken.endElement "CaretHierarchy"])) =
      readXMLLoop initialHierarchy [""] [] true false none
        (Item.forestWriteTokens rch ++ [XmlToken.endElement "CaretHierarchy"]) from rfl]
  rw [readXML_replay_forest rch initialHierarchy "" [] []
    [XmlToken.endElement "CaretHierarchy"] initialHierarchy_inv
    (List.mem_singleton.mpr rfl) (List.mem_singleton.mpr rfl) hfresh hndf hkvf]
  rw [show initialHierarchy.m_root = Item.mk "" "" [] [] from rfl]
  rw [graftReplay_root rch "" "" [] [] (by simp [Item.forestNames]) hne]
  rfl

/-- Closed instance of `C7_xml_round_trip`: a hierarchy with one annotated
item round-trips through the XML writer and reader. -/
theorem C7_xml_round_trip_witness :
    exampleHierarchy.m_root.name = "" ∧
    exampleHierarchy.readXML exampleHierarchy.writeXML =
      (⟨exampleHierarchy.m_root.eraseIds, exampleHierarchy.m_root.names⟩, none) :=
  ⟨by decide, C7_xml_round_trip exampleHierarchy (by decide) (by decide)
    (by decide) (by decide)⟩

theorem charListLt_irrefl : ∀ x : List Char, charListLt x x = false
  | [] => rfl
  | c :: cs => by
    rw [charListLt, if_neg (Nat.lt_irrefl _), if_neg (Nat.lt_irrefl _)]
    exact charListLt_irrefl cs

theorem charListLt_trans : ∀ x y z : List Char,
    charListLt x y = true → charListLt y z = true → charListLt x z = true
  | [], [], _ => fun h1 _ => by rw [charListLt] at h1; cases h1
  | _ :: _, [], _ => fun h1 _ => by rw [charListLt] at h1; cases h1
  | [], _ :: _, [] => fun _ h2 => by rw [charListLt] at h2; cases h2
  | _ :: _, _ :: _, [] => fun _ h2 => by rw [charListLt] at h2; cases h2
  | [], _ :: _, _ :: _ => fun _ _ => rfl
  | c :: cs, d :: ds, f :: fs => by
    intro h1 h2
    rw [charListLt] at h1 h2 ⊢
    by_cases h1a : c.toNat < d.toNat
    · by_cases h2a : d.toNat < f.toNat
      · rw [if_pos (Nat.lt_trans h1a h2a)]
      · rw [if_neg h2a] at h2
        by_cases h2b : f.toNat < d.toNat
        · rw [if_pos h2b] at h2; cases h2
        · rw [if_pos (by omega : c.toNat < f.toNat)]
    · rw [if_neg h1a] at h1
      by_cases h1b : d.toNat < c.toNat
      · rw [if_pos h1b] at h1; cases h1
      · rw [if_neg h1b] at h1
        by_cases h2a : d.toNat < f.toNat
        · rw [if_pos (by omega : c.toNat < f.toNat)]
        · rw [if_neg h2a] at h2
          by_cases h2b : f.toNat < d.toNat
          · rw [if_pos h2b] at h2; cases h2
          · rw [if_neg h2b] at h2
            rw [if_neg (by omega : ¬ c.toNat < f.toNat),
              if_neg (by omega : ¬ f.toNat < c.toNat)]
            exact charListLt_trans cs ds fs h1 h2

theorem charListLt_conn : ∀ x y : List Char,
    charListLt x y = false → x ≠ y → charListLt y x = true
  | [], [] => fun _ hne => absurd rfl hne
  | [], _ :: _ => fun h _ => by rw [charListLt] at h; cases h
  | _ :: _, [] => fun _ _ => rfl
  | c :: cs, d :: ds => by
    intro h hne
    rw [charListLt] at h ⊢
    by_cases hcd : c.toNat < d.toNat
    · rw [if_pos hcd] at h; cases h
    · rw [if_neg hcd] at h
      by_cases hdc : d.toNat < c.toNat
      · rw [if_pos hdc]
      · rw [if_neg hdc] at h
        have hcd2 : c = d := by
          apply Char.ext
          unfold Char.toNat at hcd hdc
          exact UInt32.ext (by omega)
        subst hcd2
        rw [if_neg (Nat.lt_irrefl _), if_neg (Nat.lt_irrefl _)]
        exact charListLt_conn cs ds h (fun he => hne (he ▸ rfl))

theorem strLt_irrefl (a : String) : strLt a a = false := charListLt_irrefl a.data

theorem strLt_trans {a b c : String} (h1 : strLt a b = true)
    (h2 : strLt b c = true) : strLt a c = true :=
  charListLt_trans a.data b.data c.data h1 h2

theorem strLt_conn {a b : String} (h : strLt a b = false) (hne : a ≠ b) :
    strLt b a = true :=
  charListLt_conn a.data b.data h
    (fun he => hne (by cases a; cases b; exact congrArg String.mk he))

theorem strLt_ne {a b : String} (h : strLt a b = true) : a ≠ b := by
  intro he
  rw [he, strLt_irrefl] at h
  cases h

theorem mem_keys_jsonObjInsert {α : Type} (l : List (String × α)) (k : String)
    (v : α) (a : String) :
    a ∈ (jsonObjInsert l k v).map Prod.fst ↔ a = k ∨ a ∈ l.map Prod.fst := by
  induction l with
  | nil => simp [jsonObjInsert]
  | cons kv rest ih =>
    obtain ⟨k2, v2⟩ := kv
    rw [jsonObjInsert]
    by_cases hlt : strLt k k2 = true
    · rw [if_pos hlt]
      simp only [List.map_cons, List.mem_cons]
    · rw [if_neg hlt]
      by_cases heq : k = k2
      · rw [if_pos heq]
        subst heq
        simp only [List.map_cons, List.mem_cons]
        tauto
      · rw [if_neg heq]
        simp only [List.map_cons, List.mem_cons, ih]
        tauto

theorem keySorted_jsonObjInsert {α : Type} {l : List (String × α)} (k : String)
    (v : α) (hs : KeySorted l) : KeySorted (jsonObjInsert l k v) := by
  induction l with
  | nil =>
    rw [jsonObjInsert]
    exact List.pairwise_singleton _ _
  | cons kv rest ih =>
    obtain ⟨k2, v2⟩ := kv
    rw [KeySorted, List.pairwise_cons] at hs
    obtain ⟨hall, hrest⟩ := hs
    rw [jsonObjInsert]
    by_cases hlt : strLt k k2 = true
    · rw [if_pos hlt]
      rw [KeySorted, List.pairwise_cons]
      refine ⟨?_, List.pairwise_cons.mpr ⟨hall, hrest⟩⟩
      intro y hy
      rcases List.mem_cons.mp hy with he | hy2
      · rw [he]
        exact hlt
      · exact strLt_trans hlt (hall y hy2)
    · rw [if_neg hlt]
      by_cases heq : k = k2
      · rw [if_pos heq]
        subst heq
        rw [KeySorted, List.pairwise_cons]
        exact ⟨hall, hrest⟩
      · rw [if_neg heq]
        rw [KeySorted, List.pairwise_cons]
        refine ⟨?_, ih hrest⟩
        intro y hy
        have hk : y.1 = k ∨ y.1 ∈ rest.map Prod.fst :=
          (mem_keys_jsonObjInsert rest k v y.1).mp (List.mem_map_of_mem Prod.fst hy)
        rcases hk with he | hmem
        · rw [he]
          exact strLt_conn (by simpa using hlt) heq
        · rcases List.mem_map.mp hmem with ⟨x, hx, hxe⟩
          rw [← hxe]
          exact hall x hx

theorem keys_nodup_of_keySorted {α : Type} {l : List (String × α)}
    (hs : KeySorted l) : (l.map Prod.fst).Nodup := by
  rw [List.Nodup, List.pairwise_map]
  exact hs.imp (fun h => strLt_ne h)

theorem lookup_jsonObjInsert_self {α : Type} (l : List (String × α)) (k : String)
    (v : α) : (jsonObjInsert l k v).lookup k = some v := by
  induction l with
  | nil =>
    rw [jsonObjInsert, List.lookup]
    rw [show (k == k) = true from beq_self_eq_true k]
  | cons kv rest ih =>
    obtain ⟨k2, v2⟩ := kv
    rw [jsonObjInsert]
    by_cases hlt : strLt k k2 = true
    · rw [if_pos hlt, List.lookup]
      rw [show (k == k) = true from beq_self_eq_true k]
    · rw [if_neg hlt]
      by_cases heq : k = k2
      · rw [if_pos heq, List.lookup]
        rw [show (k == k) = true from beq_self_eq_true k]
      · rw [if_neg heq, List.lookup]
        rw [show (k == k2) = false from beq_eq_false_iff_ne.mpr heq]
        exact ih

theorem lookup_jsonObjInsert_ne {α : Type} (l : List (String × α)) (k : String)
    (v : α) (a : String) (hne : a ≠ k) :
    (jsonObjInsert l k v).lookup a = l.lookup a := by
  induction l with
  | nil =>
    rw [jsonObjInsert]
    simp [List.lookup, show (a == k) = false from beq_eq_false_iff_ne.mpr hne]
  | cons kv rest ih =>
    obtain ⟨k2, v2⟩ := kv
    rw [jsonObjInsert]
    by_cases hlt : strLt k k2 = true
    · rw [if_pos hlt, List.lookup]
      rw [show (a == k) = false from beq_eq_false_iff_ne.mpr hne]
    · rw [if_neg hlt]
      by_cases heq : k = k2
      · rw [if_pos heq, List.lookup]
        rw [show (a == k) = false from beq_eq_false_iff_ne.mpr hne]
        subst heq
        rw [List.lookup]
        rw [show (a == k) = false from beq_eq_false_iff_ne.mpr hne]
      · rw [if_neg heq, List.lookup, List.lookup]
        by_cases hak : a = k2
        · rw [show (a == k2) = true from beq_iff_eq.mpr hak]
        · rw [show (a == k2) = false from beq_eq_false_iff_ne.mpr hak]
          exact ih

theorem jsonObjInsert_front {α : Type} (m : List (String × α)) (k : String) (v : α)
    (hall : ∀ y ∈ m, strLt k y.1 = true) : jsonObjInsert m k v = (k, v) :: m := by
  cases m with
  | nil => rfl
  | cons kv rest =>
    obtain ⟨k2, v2⟩ := kv
    rw [jsonObjInsert, if_pos (hall (k2, v2) (List.mem_cons_self _ _))]

theorem keySorted_foldl_jsonObjInsert {α : Type} :
    ∀ (e : List (String × α)) (acc : List (String × α)), KeySorted acc →
    KeySorted (List.foldl (fun a kv => jsonObjInsert a kv.1 kv.2) acc e)
  | [], _, hs => hs
  | kv :: rest, acc, hs => by
    rw [List.foldl_cons]
    exact keySorted_foldl_jsonObjInsert rest _ (keySorted_jsonObjInsert _ _ hs)

theorem lookup_foldl_jsonObjInsert {α : Type} :
    ∀ (e : List (String × α)) (acc : List (String × α)) (a : String),
    a ∉ e.map Prod.fst →
    (List.foldl (fun ac kv => jsonObjInsert ac kv.1 kv.2) acc e).lookup a =
      acc.lookup a
  | [], _, _, _ => rfl
  | kv :: rest, acc, a, hna => by
    rw [List.map_cons, List.mem_cons, not_or] at hna
    rw [List.foldl_cons,
      lookup_foldl_jsonObjInsert rest _ a hna.2,
      lookup_jsonObjInsert_ne acc kv.1 kv.2 a hna.1]

theorem mem_keys_foldl_jsonObjInsert {α : Type} :
    ∀ (e : List (String × α)) (acc : List (String × α)) (a : String),
    a ∈ (List.foldl (fun ac kv => jsonObjInsert ac kv.1 kv.2) acc e).map Prod.fst →
    a ∈ acc.map Prod.fst ∨ a ∈ e.map Prod.fst
  | [], _, _, hm => Or.inl hm
  | kv :: rest, acc, a, hm => by
    rw [List.foldl_cons] at hm
    rcases mem_keys_foldl_jsonObjInsert rest _ a hm with hm2 | hm2
    · rcases (mem_keys_jsonObjInsert acc kv.1 kv.2 a).mp hm2 with he | hm3
      · right
        rw [List.map_cons, List.mem_cons]
        exact Or.inl he
      · exact Or.inl hm3
    · right
      rw [List.map_cons, List.mem_cons]
      exact Or.inr hm2

theorem jsonObjInsert_liftKV :
    ∀ (l : List (String × String)) (k v : String),
    jsonObjInsert (liftKV l) k (JsonValue.str v) = liftKV (jsonObjInsert l k v)
  | [], _, _ => rfl
  | (k2, v2) :: rest, k, v => by
    rw [show liftKV ((k2, v2) :: rest) = (k2, JsonValue.str v2) :: liftKV rest from rfl,
      jsonObjInsert, jsonObjInsert]
    by_cases hlt : strLt k k2 = true
    · rw [if_pos hlt, if_pos hlt]
      rfl
    · rw [if_neg hlt, if_neg hlt]
      by_cases heq : k = k2
      · rw [if_pos heq, if_pos heq]
        rfl
      · rw [if_neg heq, if_neg heq, jsonObjInsert_liftKV rest k v]
        rfl

theorem foldl_jsonObjInsert_liftKV :
    ∀ (e : List (String × String)) (acc : List (String × String)),
    List.foldl (fun a kv => jsonObjInsert a kv.1 (JsonValue.str kv.2)) (liftKV acc) e =
      liftKV (List.foldl (fun a kv => jsonObjInsert a kv.1 kv.2) acc e)
  | [], _ => rfl
  | (k, v) :: rest, acc => by
    rw [List.foldl_cons, List.foldl_cons]
    dsimp only
    rw [jsonObjInsert_liftKV acc k v, foldl_jsonObjInsert_liftKV rest _]

theorem lookup_liftKV : ∀ (l : List (String × String)) (a : String),
    (liftKV l).lookup a = (l.lookup a).map JsonValue.str
  | [], _ => rfl
  | (k, v) :: rest, a => by
    rw [show liftKV ((k, v) :: rest) = (k, JsonValue.str v) :: liftKV rest from rfl,
      List.lookup, List.lookup]
    by_cases hak : a = k
    · rw [show (a == k) = true from beq_iff_eq.mpr hak]
      rfl
    · rw [show (a == k) = false from beq_eq_false_iff_ne.mpr hak]
      exact lookup_liftKV rest a

theorem foldl_jsonObjInsert_skipkey {α β : Type} (f : β → String → α → β)
    (k : String) (hf : ∀ b v, f b k v = b) :
    ∀ (l : List (String × α)) (v : α) (b : β),
    List.foldl (fun b2 kv => f b2 kv.1 kv.2) b (jsonObjInsert l k v) =
      List.foldl (fun b2 kv => f b2 kv.1 kv.2) b l
  | [], v, b => by
    rw [jsonObjInsert, List.foldl_cons, List.foldl_nil, List.foldl_nil]
    exact hf b v
  | (k2, v2) :: rest, v, b => by
    rw [jsonObjInsert]
    by_cases hlt : strLt k k2 = true
    · rw [if_pos hlt, List.foldl_cons]
      dsimp only
      rw [hf]
    · rw [if_neg hlt]
      by_cases heq : k = k2
      · subst heq
        rw [if_pos rfl, List.foldl_cons, List.foldl_cons]
        dsimp only
        rw [hf, hf]
      · rw [if_neg heq, List.foldl_cons, List.foldl_cons]
        exact foldl_jsonObjInsert_skipkey f k hf rest v _

theorem jsonFieldsExtra_liftKV_aux :
    ∀ (l acc : List (String × String)),
    List.foldl
      (fun acc2 kv =>
        if kv.1 = "name" then acc2
        else if kv.1 = "children" then acc2
        else match kv.2.stringish with
          | some value => kvSet acc2 kv.1 value
          | none => acc2)
      acc (liftKV l) =
    List.foldl
      (fun acc2 kv =>
        if kv.1 = "name" then acc2
        else if kv.1 = "children" then acc2
        else kvSet acc2 kv.1 kv.2)
      acc l
  | [], _ => rfl
  | (k, v) :: rest, acc => by
    rw [show liftKV ((k, v) :: rest) = (k, JsonValue.str v) :: liftKV rest from rfl,
      List.foldl_cons, List.foldl_cons]
    exact jsonFieldsExtra_liftKV_aux rest _

theorem jsonFieldsExtra_liftKV (l : List (String × String)) :
    jsonFieldsExtra (liftKV l) = strExtract l := by
  rw [jsonFieldsExtra, strExtract]
  exact jsonFieldsExtra_liftKV_aux l []

theorem jsonFieldsExtra_insert_children (l : List (String × JsonValue))
    (v : JsonValue) :
    jsonFieldsExtra (jsonObjInsert l "children" v) = jsonFieldsExtra l := by
  rw [jsonFieldsExtra, jsonFieldsExtra]
  exact foldl_jsonObjInsert_skipkey
    (fun acc2 k v2 =>
      if k = "name" then acc2
      else if k = "children" then acc2
      else match v2.stringish with
        | some value => kvSet acc2 k value
        | none => acc2)
    "children"
    (fun b v2 => by
      dsimp only
      rw [if_neg (by decide : ¬ ("children" : String) = "name"), if_pos rfl])
    l v []

theorem strExtract_aux :
    ∀ (l acc : List (String × String)),
    (l.map Prod.fst).Nodup →
    (∀ k ∈ l.map Prod.fst, k ∉ acc.map Prod.fst) →
    List.foldl
      (fun acc2 kv =>
        if kv.1 = "name" then acc2
        else if kv.1 = "children" then acc2
        else kvSet acc2 kv.1 kv.2)
      acc l = acc ++ l.filter jsonPlainKey
  | [], acc, _, _ => by rw [List.foldl_nil, List.filter_nil, List.append_nil]
  | (k, v) :: rest, acc, hnd, hdisj => by
    rw [List.map_cons] at hnd hdisj
    rcases List.nodup_cons.mp hnd with ⟨hk, hnd2⟩
    rw [List.foldl_cons, List.filter_cons]
    by_cases hn : k = "name"
    · rw [show jsonPlainKey (k, v) = false from by
        rw [jsonPlainKey, show (k == "name") = true from beq_iff_eq.mpr hn]
        rfl]
      dsimp only
      rw [if_pos hn]
      exact strExtract_aux rest acc hnd2
        (fun a ha => hdisj a (List.mem_cons_of_mem _ ha))
    · by_cases hc : k = "children"
      · rw [show jsonPlainKey (k, v) = false from by
          rw [jsonPlainKey, show (k == "children") = true from beq_iff_eq.mpr hc,
            show (k == "name") = false from beq_eq_false_iff_ne.mpr hn]
          rfl]
        dsimp only
        rw [if_neg hn, if_pos hc]
        exact strExtract_aux rest acc hnd2
          (fun a ha => hdisj a (List.mem_cons_of_mem _ ha))
      · rw [show jsonPlainKey (k, v) = true from by
          rw [jsonPlainKey, show (k == "children") = false from beq_eq_false_iff_ne.mpr hc,
            show (k == "name") = false from beq_eq_false_iff_ne.mpr hn]
          rfl]
        dsimp only
        rw [if_neg hn, if_neg hc]
        have hknacc : k ∉ acc.map Prod.fst := hdisj k (List.mem_cons_self _ _)
        rw [show kvSet acc k v = acc ++ [(k, v)] from by
          rw [kvSet, lookup_none_of_not_mem_keys acc k hknacc]
          rfl]
        rw [strExtract_aux rest (acc ++ [(k, v)]) hnd2 (by
          intro a ha
          rw [List.map_append, List.mem_append]
          rintro (ha2 | ha2)
          · exact hdisj a (List.mem_cons_of_mem _ ha) ha2
          · rw [show ([(k, v)] : List (String × String)).map Prod.fst = [k] from rfl,
              List.mem_singleton] at ha2
            exact hk (ha2 ▸ ha))]
        rw [List.append_assoc, List.singleton_append, if_pos rfl]

theorem strExtract_eq_filter (l : List (String × String))
    (hnd : (l.map Prod.fst).Nodup) : strExtract l = l.filter jsonPlainKey := by
  rw [strExtract, strExtract_aux l [] hnd (by intro a _ ha; cases ha),
    List.nil_append]

theorem filter_jsonObjInsert :
    ∀ (l : List (String × String)) (k v : String), KeySorted l →
    jsonPlainKey ((k, v) : String × String) = true →
    (jsonObjInsert l k v).filter jsonPlainKey =
      jsonObjInsert (l.filter jsonPlainKey) k v
  | [], k, v, _, hp => by
    rw [jsonObjInsert, List.filter_cons, hp, if_pos rfl, List.filter_nil]
    rfl
  | (k2, v2) :: rest, k, v, hs, hp => by
    rw [KeySorted, List.pairwise_cons] at hs
    obtain ⟨hall, hrest⟩ := hs
    rw [jsonObjInsert]
    by_cases hlt : strLt k k2 = true
    · rw [if_pos hlt, List.filter_cons, hp, if_pos rfl]
      have hfront : jsonObjInsert (((k2, v2) :: rest).filter jsonPlainKey) k v =
          (k, v) :: ((k2, v2) :: rest).filter jsonPlainKey := by
        apply jsonObjInsert_front
        intro y hy
        have hy2 : y ∈ (k2, v2) :: rest := List.mem_of_mem_filter hy
        rcases List.mem_cons.mp hy2 with he | hy3
        · rw [he]
          exact hlt
        · exact strLt_trans hlt (hall y hy3)
      rw [hfront]
    · rw [if_neg hlt]
      by_cases heq : k = k2
      · subst heq
        rw [if_pos rfl, List.filter_cons, List.filter_cons,
          show jsonPlainKey ((k, v2) : String × String) = true from hp, hp,
          if_pos rfl, if_pos rfl, jsonObjInsert,
          if_neg (by rw [strLt_irrefl]; exact Bool.false_ne_true), if_pos rfl]
      · rw [if_neg heq, List.filter_cons, List.filter_cons]
        by_cases hp2 : jsonPlainKey ((k2, v2) : String × String) = true
        · rw [hp2, if_pos rfl, if_pos rfl,
            filter_jsonObjInsert rest k v hrest hp, jsonObjInsert,
            if_neg hlt, if_neg heq]
        · have hp2f : jsonPlainKey ((k2, v2) : String × String) = false := by
            simpa using hp2
          rw [hp2f, if_neg Bool.false_ne_true, if_neg Bool.false_ne_true]
          exact filter_jsonObjInsert rest k v hrest hp

theorem filter_foldl_jsonObjInsert :
    ∀ (e : List (String × String)) (acc : List (String × String)), KeySorted acc →
    (∀ kv ∈ e, jsonPlainKey kv = true) →
    (List.foldl (fun a kv => jsonObjInsert a kv.1 kv.2) acc e).filter jsonPlainKey =
      List.foldl (fun a kv => jsonObjInsert a kv.1 kv.2) (acc.filter jsonPlainKey) e
  | [], _, _, _ => rfl
  | (k, v) :: rest, acc, hs, hall => by
    rw [List.foldl_cons, List.foldl_cons]
    dsimp only
    rw [filter_foldl_jsonObjInsert rest _ (keySorted_jsonObjInsert k v hs)
      (fun kv hkv => hall kv (List.mem_cons_of_mem _ hkv))]
    rw [filter_jsonObjInsert acc k v hs (hall (k, v) (List.mem_cons_self _ _))]

theorem keys_liftKV (l : List (String × String)) :
    (liftKV l).map Prod.fst = l.map Prod.fst := by
  rw [liftKV, List.map_map]
  rfl

theorem lookup_name_writeJsonObj (n i : String) (e : List (String × String))
    (ch : List Item) (hname : "name" ∉ e.map Prod.fst) :
    (writeJsonObj (Item.mk n i e ch)).lookup "name" = some (JsonValue.str n) := by
  rw [writeJsonObj]
  have hbase : (List.foldl (fun acc kv => jsonObjInsert acc kv.1 (JsonValue.str kv.2))
      (jsonObjInsert [] "name" (JsonValue.str n)) e).lookup "name" =
      some (JsonValue.str n) := by
    rw [show jsonObjInsert ([] : List (String × JsonValue)) "name" (JsonValue.str n) =
      liftKV (jsonObjInsert [] "name" n) from rfl]
    rw [foldl_jsonObjInsert_liftKV e _, lookup_liftKV,
      lookup_foldl_jsonObjInsert e _ "name" hname, lookup_jsonObjInsert_self]
    rfl
  by_cases hch : ch.isEmpty = true
  · rw [if_pos hch]
    exact hbase
  · rw [if_neg hch,
      lookup_jsonObjInsert_ne _ _ _ _ (by decide : ("name" : String) ≠ "children")]
    exact hbase

theorem jsonFieldName_writeJsonObj (n i : String) (e : List (String × String))
    (ch : List Item) (hname : "name" ∉ e.map Prod.fst) :
    jsonFieldName (writeJsonObj (Item.mk n i e ch)) = n := by
  rw [jsonFieldName, lookup_name_writeJsonObj n i e ch hname]
  rfl

theorem jsonFieldsExtra_writeJsonObj (n i : String) (e : List (String × String))
    (ch : List Item) (hname : "name" ∉ e.map Prod.fst)
    (hch : "children" ∉ e.map Prod.fst) :
    jsonFieldsExtra (writeJsonObj (Item.mk n i e ch)) = sortKV e := by
  rw [writeJsonObj]
  have hbase : jsonFieldsExtra
      (List.foldl (fun acc kv => jsonObjInsert acc kv.1 (JsonValue.str kv.2))
        (jsonObjInsert [] "name" (JsonValue.str n)) e) = sortKV e := by
    rw [show jsonObjInsert ([] : List (String × JsonValue)) "name" (JsonValue.str n) =
      liftKV (jsonObjInsert [] "name" n) from rfl]
    rw [foldl_jsonObjInsert_liftKV e _, jsonFieldsExtra_liftKV]
    have hsorted : KeySorted
        (List.foldl (fun a kv => jsonObjInsert a kv.1 kv.2)
          (jsonObjInsert ([] : List (String × String)) "name" n) e) :=
      keySorted_foldl_jsonObjInsert e _ (keySorted_jsonObjInsert _ _ List.Pairwise.nil)
    rw [strExtract_eq_filter _ (keys_nodup_of_keySorted hsorted)]
    rw [filter_foldl_jsonObjInsert e _ (keySorted_jsonObjInsert _ _ List.Pairwise.nil)
      (fun kv hkv => by
        rw [jsonPlainKey]
        have h1 : kv.1 ≠ "name" :=
          fun he => hname (he ▸ List.mem_map_of_mem Prod.fst hkv)
        have h2 : kv.1 ≠ "children" :=
          fun he => hch (he ▸ List.mem_map_of_mem Prod.fst hkv)
        rw [show (kv.1 == "name") = false from beq_eq_false_iff_ne.mpr h1,
          show (kv.1 == "children") = false from beq_eq_false_iff_ne.mpr h2]
        rfl)]
    rw [show (jsonObjInsert ([] : List (String × String)) "name" n).filter
        jsonPlainKey = [] from by
      rw [jsonObjInsert, List.filter_cons,
        show jsonPlainKey (("name", n) : String × String) = false from rfl,
        if_neg Bool.false_ne_true, List.filter_nil]]
    rw [sortKV]
  by_cases hchE : ch.isEmpty = true
  · rw [if_pos hchE]
    exact hbase
  · rw [if_neg hchE, jsonFieldsExtra_insert_children]
    exact hbase

theorem jsonScanChildren_none : ∀ (h : CaretHierarchy) (nm : String)
    (l : List (String × JsonValue)), (∀ kv ∈ l, kv.1 ≠ "children") →
    jsonScanChildren h nm l = (h, none)
  | _, _, [], _ => rfl
  | h, nm, (k, v) :: rest, hno => by
    rw [jsonScanChildren, if_neg (hno (k, v) (List.mem_cons_self _ _))]
    exact jsonScanChildren_none h nm rest
      (fun kv hkv => hno kv (List.mem_cons_of_mem _ hkv))

theorem jsonScanChildren_insert : ∀ (h : CaretHierarchy) (nm : String)
    (l : List (String × JsonValue)) (v : JsonValue),
    (∀ kv ∈ l, kv.1 ≠ "children") →
    jsonScanChildren h nm (jsonObjInsert l "children" v) =
      recurseJsonArrayish h nm v
  | h, nm, [], v, _ => by
    rw [jsonObjInsert, jsonScanChildren, if_pos rfl]
  | h, nm, (k2, v2) :: rest, v, hno => by
    rw [jsonObjInsert]
    by_cases hlt : strLt "children" k2 = true
    · rw [if_pos hlt, jsonScanChildren, if_pos rfl]
    · rw [if_neg hlt]
      have hne : ("children" : String) ≠ k2 :=
        fun he => hno (k2, v2) (List.mem_cons_self _ _) he.symm
      rw [if_neg hne, jsonScanChildren,
        if_neg (hno (k2, v2) (List.mem_cons_self _ _))]
      exact jsonScanChildren_insert h nm rest v
        (fun kv hkv => hno kv (List.mem_cons_of_mem _ hkv))

theorem jsonScanChildren_writeJsonObj (hh : CaretHierarchy) (nm : String)
    (n i : String) (e : List (String × String)) (ch : List Item)
    (hch : "children" ∉ e.map Prod.fst) :
    jsonScanChildren hh nm (writeJsonObj (Item.mk n i e ch)) =
      if ch.isEmpty then (hh, none)
      else recurseJsonArrayish hh nm (JsonValue.arr (writeJsonArr ch)) := by
  rw [writeJsonObj]
  have hno : ∀ kv ∈ List.foldl
      (fun acc kv => jsonObjInsert acc kv.1 (JsonValue.str kv.2))
      (jsonObjInsert [] "name" (JsonValue.str n)) e, kv.1 ≠ "children" := by
    intro kv hkv he
    have h1 := List.mem_map_of_mem Prod.fst hkv
    rw [show jsonObjInsert ([] : List (String × JsonValue)) "name" (JsonValue.str n) =
      liftKV (jsonObjInsert [] "name" n) from rfl, foldl_jsonObjInsert_liftKV e _,
      keys_liftKV] at h1
    rcases mem_keys_foldl_jsonObjInsert e _ kv.1 h1 with h2 | h2
    · rw [show (jsonObjInsert ([] : List (String × String)) "name" n).map Prod.fst =
        ["name"] from rfl, List.mem_singleton] at h2
      rw [he] at h2
      exact absurd h2 (by decide)
    · rw [he] at h2
      exact hch h2
  by_cases hchE : ch.isEmpty = true
  · rw [if_pos hchE, if_pos hchE]
    exact jsonScanChildren_none hh nm _ hno
  · rw [if_neg hchE, if_neg hchE]
    exact jsonScanChildren_insert hh nm _ _ hno

mutual

theorem Item.names_jsonNorm : ∀ t : Item, t.jsonNorm.names = t.names
  | .mk n i e ch => by
    rw [Item.jsonNorm, Item.names, Item.names, Item.forestNames_jsonNormForest]

theorem Item.forestNames_jsonNormForest : ∀ ch : List Item,
    Item.forestNames (Item.jsonNormForest ch) = Item.forestNames ch
  | [] => rfl
  | c :: rest => by
    rw [Item.jsonNormForest, Item.forestNames, Item.forestNames,
      Item.names_jsonNorm, Item.forestNames_jsonNormForest]

end

/-- Iterated composition for the JSON replay: grafting the normalised
children of the freshly grafted node named `n` builds the whole normalised
subtree in place. -/
theorem jsonGraftReplay_compose (ch : List Item) (t : Item) (p n : String)
    (i : String) (e : List (String × String)) (cs : List Item)
    (hnt : n ∉ t.names) (hncs : n ∉ Item.forestNames cs)
    (hnch : n ∉ Item.forestNames ch) :
    jsonGraftReplay (t.graft p (.mk n i e cs)) n ch =
      t.graft p (.mk n i e (cs ++ Item.jsonNormForest ch)) := by
  induction ch generalizing cs with
  | nil =>
    rw [jsonGraftReplay, Item.jsonNormForest, List.append_nil]
  | cons c rest ih =>
    rw [Item.forestNames] at hnch
    simp only [List.mem_append, not_or] at hnch
    rw [jsonGraftReplay, Item.graft_graft_step t p n i e cs c.jsonNorm hnt hncs,
      Item.jsonNormForest]
    have hncs2 : n ∉ Item.forestNames (cs ++ [c.jsonNorm]) := by
      rw [Item.forestNames_append]
      simp only [List.mem_append, not_or]
      refine ⟨hncs, ?_⟩
      rw [Item.forestNames, Item.names_jsonNorm, Item.forestNames, List.append_nil]
      exact hnch.1
    rw [ih (cs ++ [c.jsonNorm]) hncs2 hnch.2, List.append_assoc]
    rfl

/-- JSON replay at the root: grafting the normalised children under the
root's own name appends them to the root. -/
theorem jsonGraftReplay_root (ch : List Item) (n i : String)
    (e : List (String × String)) (cs : List Item)
    (hncs : n ∉ Item.forestNames cs) (hnch : n ∉ Item.forestNames ch) :
    jsonGraftReplay (.mk n i e cs) n ch =
      .mk n i e (cs ++ Item.jsonNormForest ch) := by
  induction ch generalizing cs with
  | nil => rw [jsonGraftReplay, Item.jsonNormForest, List.append_nil]
  | cons c rest ih =>
    rw [Item.forestNames] at hnch
    simp only [List.mem_append, not_or] at hnch
    rw [jsonGraftReplay]
    have hg : (Item.mk n i e cs).graft n c.jsonNorm =
        Item.mk n i e (cs ++ [c.jsonNorm]) := by
      unfold Item.graft
      rw [if_pos rfl, Item.graftForest_not_mem cs n c.jsonNorm hncs]
    rw [hg]
    have hncs2 : n ∉ Item.forestNames (cs ++ [c.jsonNorm]) := by
      rw [Item.forestNames_append]
      simp only [List.mem_append, not_or]
      refine ⟨hncs, ?_⟩
      rw [Item.forestNames, Item.names_jsonNorm, Item.forestNames, List.append_nil]
      exact hnch.1
    rw [ih (cs ++ [c.jsonNorm]) hncs2 hnch.2, List.append_assoc]
    rfl

set_option maxHeartbeats 1000000 in
/-- Reading back the JSON array written for the forest `ch` replays its
items into the hierarchy in array order under parent `p`, each item followed
by its own children, leaving the grafted normalised subtrees and all names
registered. -/
theorem json_replay : ∀ (ch : List Item) (h : CaretHierarchy) (p : String),
    HierarchyInv h → "" ∈ h.m_usedNames → p ∈ h.m_usedNames →
    (∀ s ∈ Item.forestNames ch, s ∉ h.m_usedNames) →
    (Item.forestNames ch).Nodup → Item.kvNodupForest ch = true →
    Item.jsonKeysOKForest ch = true →
    jsonChildList h p (writeJsonArr ch) =
      (⟨jsonGraftReplay h.m_root p ch, h.m_usedNames ++ Item.forestNames ch⟩, none)
  | [], h, p, _, _, _, _, _, _, _ => by
    rw [writeJsonArr, jsonChildList, Item.forestNames, List.append_nil,
      jsonGraftReplay]
  | (Item.mk n i e ch') :: rest, h, p, hinv, hempty, hpar, hfresh, hnd, hkv, hok => by
    rw [Item.forestNames, Item.names] at hfresh hnd
    rw [Item.kvNodupForest, Item.kvNodup] at hkv
    rw [Item.jsonKeysOKForest, Item.jsonKeysOK] at hok
    simp only [Bool.and_eq_true, decide_eq_true_eq] at hkv hok
    obtain ⟨⟨_hkv_e, hkv_ch⟩, hkv_rest⟩ := hkv
    obtain ⟨⟨⟨hok_name, hok_child⟩, hok_ch⟩, hok_rest⟩ := hok
    have hn_used : n ∉ h.m_usedNames :=
      hfresh n (List.mem_append.mpr (Or.inl (List.mem_cons_self _ _)))
    have hnn : ¬ (n = "") := fun he => hn_used (he ▸ hempty)
    rcases List.nodup_append.mp hnd with ⟨hnd_c, hnd_rest, hdisj⟩
    rcases List.nodup_cons.mp hnd_c with ⟨hn_notin_ch, hnd_ch⟩
    have hch_fresh : ∀ s ∈ Item.forestNames ch', s ∉ h.m_usedNames :=
      fun s hs =>
        hfresh s (List.mem_append.mpr (Or.inl (List.mem_cons_of_mem _ hs)))
    have hrest_fresh : ∀ s ∈ Item.forestNames rest, s ∉ h.m_usedNames :=
      fun s hs => hfresh s (List.mem_append.mpr (Or.inr hs))
    have hn_notin_root : n ∉ h.m_root.names := fun hm => hn_used (hinv.1.2 n hm)
    have hitem2 : h.addItem (Item.mk n "" (sortKV e) []) p =
        (true, ⟨h.m_root.graft p (Item.mk n "" (sortKV e) []),
          h.m_usedNames ++ [n]⟩) := by
      have h1 := addItem_success_graft h (Item.mk n "" (sortKV e) []) p
        hinv.1 hinv.2 hn_used hpar
      rwa [show (Item.mk n "" (sortKV e) []).name = n from rfl] at h1
    have hinv2 : HierarchyInv (⟨h.m_root.graft p (Item.mk n "" (sortKV e) []),
        h.m_usedNames ++ [n]⟩ : CaretHierarchy) := by
      have h1 := addItem_preserves_inv h (Item.mk n "" (sortKV e) []) p rfl hinv
      rwa [hitem2] at h1
    rw [writeJsonArr, jsonChildList,
      jsonFieldName_writeJsonObj n i e ch' hok_name, if_neg hnn,
      jsonFieldsExtra_writeJsonObj n i e ch' hok_name hok_child,
      hitem2, if_pos rfl]
    dsimp only
    rw [jsonScanChildren_writeJsonObj _ n n i e ch' hok_child]
    by_cases hchE : ch'.isEmpty = true
    · have hchE2 : ch' = [] := by simpa using hchE
      subst hchE2
      rw [if_pos hchE]
      dsimp only
      have hrest_fresh2 : ∀ s ∈ Item.forestNames rest,
          s ∉ h.m_usedNames ++ [n] := by
        intro s hs
        simp only [List.mem_append, List.mem_singleton, not_or]
        exact ⟨hrest_fresh s hs,
          fun he => hdisj (List.mem_cons_self n _) (he ▸ hs)⟩
      rw [json_replay rest _ p hinv2
        (List.mem_append.mpr (Or.inl hempty))
        (List.mem_append.mpr (Or.inl hpar))
        hrest_fresh2 hnd_rest hkv_rest hok_rest]
      dsimp only
      rw [show jsonGraftReplay h.m_root p (Item.mk n i e [] :: rest) =
        jsonGraftReplay (h.m_root.graft p (Item.mk n i e []).jsonNorm) p rest
        from rfl]
      dsimp only [Item.jsonNorm, Item.jsonNormForest, Item.forestNames, Item.names]
      simp only [List.append_assoc, List.singleton_append, List.cons_append,
        List.nil_append]
    · rw [if_neg hchE]
      have hch_fresh2 : ∀ s ∈ Item.forestNames ch',
          s ∉ h.m_usedNames ++ [n] := by
        intro s hs
        simp only [List.mem_append, List.mem_singleton, not_or]
        exact ⟨hch_fresh s hs, fun he => hn_notin_ch (he ▸ hs)⟩
      rw [show recurseJsonArrayish (⟨h.m_root.graft p (Item.mk n "" (sortKV e) []),
          h.m_usedNames ++ [n]⟩ : CaretHierarchy) n
          (JsonValue.arr (writeJsonArr ch')) =
        jsonChildList (⟨h.m_root.graft p (Item.mk n "" (sortKV e) []),
          h.m_usedNames ++ [n]⟩ : CaretHierarchy) n (writeJsonArr ch') from rfl]
      rw [json_replay ch' _ n hinv2
        (List.mem_append.mpr (Or.inl hempty))
        (List.mem_append.mpr (Or.inr (List.mem_singleton.mpr rfl)))
        hch_fresh2 hnd_ch hkv_ch hok_ch]
      dsimp only
      rw [jsonGraftReplay_compose ch' h.m_root p n "" (sortKV e) [] hn_notin_root
        (by simp [Item.forestNames]) hn_notin_ch]
      rw [List.nil_append]
      have hcount : h.m_root.names.count p = 1 :=
        List.count_eq_one_of_mem hinv.2 (hinv.1.1 p hpar)
      have hpermX : (h.m_root.graft p (Item.mk n "" (sortKV e)
          (Item.jsonNormForest ch'))).names.Perm
          (h.m_root.names ++ (n :: Item.forestNames ch')) := by
        have h1 := Item.names_add_perm h.m_root
          (Item.mk n "" (sortKV e) (Item.jsonNormForest ch')) p _
          (Item.add_eq_graft h.m_root
            (Item.mk n "" (sortKV e) (Item.jsonNormForest ch')) p hcount)
        rwa [show (Item.mk n "" (sortKV e) (Item.jsonNormForest ch')).names =
          n :: Item.forestNames ch' from by
            rw [Item.names, Item.forestNames_jsonNormForest]] at h1
      have hdisj_root : ∀ s ∈ (n :: Item.forestNames ch'), s ∉ h.m_root.names := by
        intro s hs hm
        have hu : s ∈ h.m_usedNames := hinv.1.2 s hm
        rcases List.mem_cons.mp hs with he | hs2
        · exact hn_used (he ▸ hu)
        · exact hch_fresh s hs2 hu
      have hinv3 : HierarchyInv (⟨h.m_root.graft p (Item.mk n "" (sortKV e)
          (Item.jsonNormForest ch')),
          h.m_usedNames ++ [n] ++ Item.forestNames ch'⟩ : CaretHierarchy) := by
        refine ⟨⟨?_, ?_⟩, ?_⟩
        · intro s hs
          rw [hpermX.mem_iff]
          simp only [List.mem_append, List.mem_singleton] at hs
          rcases hs with (hs1 | hs1) | hs1
          · exact List.mem_append.mpr (Or.inl (hinv.1.1 s hs1))
          · exact List.mem_append.mpr (Or.inr (hs1 ▸ List.mem_cons_self _ _))
          · exact List.mem_append.mpr (Or.inr (List.mem_cons_of_mem _ hs1))
        · intro s hs
          rw [hpermX.mem_iff] at hs
          simp only [List.mem_append, List.mem_singleton]
          rcases List.mem_append.mp hs with hs1 | hs1
          · exact Or.inl (Or.inl (hinv.1.2 s hs1))
          · rcases List.mem_cons.mp hs1 with he | hs2
            · exact Or.inl (Or.inr he)
            · exact Or.inr hs2
        · exact hpermX.nodup_iff.mpr
            (List.nodup_append.mpr
              ⟨hinv.2, hnd_c, fun a ha1 ha2 => hdisj_root a ha2 ha1⟩)
      have hrest_fresh3 : ∀ s ∈ Item.forestNames rest,
          s ∉ h.m_usedNames ++ [n] ++ Item.forestNames ch' := by
        intro s hs
        simp only [List.mem_append, List.mem_singleton, not_or]
        refine ⟨⟨hrest_fresh s hs, ?_⟩, ?_⟩
        · intro he
          exact hdisj (List.mem_cons_self n _) (he ▸ hs)
        · intro hs2
          exact hdisj (List.mem_cons_of_mem _ hs2) hs
      rw [json_replay rest _ p hinv3
        (List.mem_append.mpr (Or.inl (List.mem_append.mpr (Or.inl hempty))))
        (List.mem_append.mpr (Or.inl (List.mem_append.mpr (Or.inl hpar))))
        hrest_fresh3 hnd_rest hkv_rest hok_rest]
      dsimp only
      rw [show jsonGraftReplay h.m_root p (Item.mk n i e ch' :: rest) =
        jsonGraftReplay (h.m_root.graft p (Item.mk n i e ch').jsonNorm) p rest
        from rfl]
      dsimp only [Item.jsonNorm, Item.forestNames, Item.names]
      simp only [List.append_assoc, List.singleton_append, List.cons_append,
        List.nil_append]

theorem jsonObjInsert_perm {α : Type} :
    ∀ (l : List (String × α)) (k : String) (v : α), k ∉ l.map Prod.fst →
    (jsonObjInsert l k v).Perm ((k, v) :: l)
  | [], _, _, _ => List.Perm.refl _
  | (k2, v2) :: rest, k, v, hk => by
    rw [List.map_cons, List.mem_cons, not_or] at hk
    rw [jsonObjInsert]
    by_cases hlt : strLt k k2 = true
    · rw [if_pos hlt]
    · rw [if_neg hlt, if_neg hk.1]
      exact (List.Perm.cons (k2, v2) (jsonObjInsert_perm rest k v hk.2)).trans
        (List.Perm.swap (k, v) (k2, v2) rest)

theorem foldl_jsonObjInsert_perm {α : Type} :
    ∀ (e : List (String × α)) (acc : List (String × α)),
    (e.map Prod.fst).Nodup → (∀ k ∈ e.map Prod.fst, k ∉ acc.map Prod.fst) →
    (List.foldl (fun a kv => jsonObjInsert a kv.1 kv.2) acc e).Perm (acc ++ e)
  | [], acc, _, _ => by rw [List.foldl_nil, List.append_nil]
  | (k, v) :: rest, acc, hnd, hdisj => by
    rw [List.map_cons] at hnd hdisj
    rcases List.nodup_cons.mp hnd with ⟨hk, hnd2⟩
    rw [List.foldl_cons]
    have hstep := foldl_jsonObjInsert_perm rest (jsonObjInsert acc k v) hnd2 (by
      intro a ha hmem
      rcases (mem_keys_jsonObjInsert acc k v a).mp hmem with he | hmem2
      · exact hk (he ▸ ha)
      · exact hdisj a (List.mem_cons_of_mem _ ha) hmem2)
    refine hstep.trans ?_
    refine (List.Perm.append_right rest
      (jsonObjInsert_perm acc k v (hdisj k (List.mem_cons_self _ _)))).trans ?_
    rw [List.cons_append]
    exact List.perm_middle.symm

theorem sortKV_perm (e : List (String × String))
    (hnd : (e.map Prod.fst).Nodup) : (sortKV e).Perm e := by
  rw [sortKV]
  have h1 := foldl_jsonObjInsert_perm e [] hnd (by intro a _ ha; cases ha)
  rwa [List.nil_append] at h1

/-- C8 counterexample: the claim quantifies over every `CaretHierarchy`, but
an annotation whose key is the reserved JSON member name `name` (reachable,
for instance, through an XML `Info` block) is written with
`QJsonObject::insert` over the item's own `name` member, so the reread tree
carries a different item name — not an isomorphic tree. -/
theorem C8_json_round_trip_counterexample :
    ((⟨Item.mk "" "" [] [Item.mk "x" "" [("name", "y")] []], ["", "x"]⟩ :
        CaretHierarchy).readJson
      (⟨Item.mk "" "" [] [Item.mk "x" "" [("name", "y")] []], ["", "x"]⟩ :
        CaretHierarchy).writeJson).1.m_root.names ≠
      (⟨Item.mk "" "" [] [Item.mk "x" "" [("name", "y")] []], ["", "x"]⟩ :
        CaretHierarchy).m_root.names := by decide

/-- C8 (amended): for a hierarchy maintained by the class interface whose
annotation keys avoid the reserved JSON member names `name` and `children`,
the JSON round trip succeeds and reproduces the tree up to erasing the item
ids (not written to JSON) and reordering each annotation store by key
(`QJsonObject` keeps members sorted) — `sortKV` is a permutation of the
store, so every item keeps the same name, the same children in the same
order, and the same annotation key/value pairs, all values read back as
strings. A JSON boolean `true` in the input becomes the string annotation
`"True"`, and re-serialising emits it as a JSON string. -/
theorem C8_json_round_trip_amended (h : CaretHierarchy)
    (hname : h.m_root.name = "") (hinfoE : h.m_root.extraInfo = [])
    (hnd : h.m_root.names.Nodup) (hkv : h.m_root.kvNodup = true)
    (hok : h.m_root.jsonKeysOK = true) :
    h.readJson h.writeJson = (⟨h.m_root.jsonNorm, h.m_root.names⟩, none) ∧
    (∀ e : List (String × String), (e.map Prod.fst).Nodup → (sortKV e).Perm e) ∧
    initialHierarchy.readJson (JsonValue.arr
        [JsonValue.obj [("b", JsonValue.boolean true), ("name", JsonValue.str "x")]]) =
      (⟨Item.mk "" "" [] [Item.mk "x" "" [("b", "True")] []], ["", "x"]⟩, none) ∧
    (⟨Item.mk "" "" [] [Item.mk "x" "" [("b", "True")] []], ["", "x"]⟩ :
        CaretHierarchy).writeJson =
      JsonValue.arr [JsonValue.obj [("b", JsonValue.str "True"),
        ("name", JsonValue.str "x")]] := by
  refine ⟨?_, sortKV_perm, by decide, rfl⟩
  obtain ⟨root, used⟩ := h
  obtain ⟨n, rid, re, rch⟩ := root
  have hn : n = "" := hname
  subst hn
  have hre : re = [] := hinfoE
  subst hre
  have hnd2 : ("" :: Item.forestNames rch).Nodup := hnd
  have hne : "" ∉ Item.forestNames rch := (List.nodup_cons.mp hnd2).1
  have hndf : (Item.forestNames rch).Nodup := (List.nodup_cons.mp hnd2).2
  have hkvf : Item.kvNodupForest rch = true := by
    have hkv2 : (decide (List.map Prod.fst ([] : List (String × String))).Nodup
        && Item.kvNodupForest rch) = true := hkv
    simpa using hkv2
  have hokf : Item.jsonKeysOKForest rch = true := by
    have hok2 : (decide ("name" ∉ List.map Prod.fst ([] : List (String × String)))
        && decide ("children" ∉ List.map Prod.fst ([] : List (String × String)))
        && Item.jsonKeysOKForest rch) = true := hok
    simpa using hok2
  have hfresh : ∀ s ∈ Item.forestNames rch, s ∉ ([""] : List String) := by
    intro s hs hmem
    rw [List.mem_singleton] at hmem
    exact hne (hmem ▸ hs)
  rw [show (⟨Item.mk "" rid [] rch, used⟩ : CaretHierarchy).readJson
      ((⟨Item.mk "" rid [] rch, used⟩ : CaretHierarchy).writeJson) =
      jsonChildList initialHierarchy "" (writeJsonArr rch) from rfl]
  rw [json_replay rch initialHierarchy "" initialHierarchy_inv
    (List.mem_singleton.mpr rfl) (List.mem_singleton.mpr rfl) hfresh hndf hkvf hokf]
  rw [show initialHierarchy.m_root = Item.mk "" "" [] [] from rfl]
  rw [jsonGraftReplay_root rch "" "" [] [] (by simp [Item.forestNames]) hne]
  rfl

/-- Closed instance of `C8_json_round_trip_amended`: a hierarchy with one
annotated item round-trips through the JSON writer and reader. -/
theorem C8_json_round_trip_amended_witness :
    exampleHierarchy.m_root.name = "" ∧
    exampleHierarchy.readJson exampleHierarchy.writeJson =
      (⟨exampleHierarchy.m_root.jsonNorm, exampleHierarchy.m_root.names⟩, none) :=
  ⟨by decide, (C8_json_round_trip_amended exampleHierarchy (by decide) (by decide)
    (by decide) (by decide) (by decide)).1⟩

mutual

theorem buildTree_container_none : ∀ (it : Item) (t : GiftiLabelTable)
    (st : BuildTreeState),
    (LabelSelectionItemModel.buildTree it t none st).2.2 = none
  | .mk nm idv e ch, t, st => by
    cases ch with
    | nil =>
      unfold LabelSelectionItemModel.buildTree
      cases hl : t.getLabel nm with
      | some gl => rfl
      | none => rfl
    | cons c crest =>
      unfold LabelSelectionItemModel.buildTree
      cases hl : t.getLabel nm with
      | some gl =>
        dsimp only
        rw [show (optGetClustersWithKey none gl.m_key).2 = none from rfl]
        rcases hx : LabelSelectionItemModel.buildTreeForest (c :: crest) t none st
          with ⟨a, b, cc2⟩
        have hf := buildTreeForest_container_none (c :: crest) t st
        rw [hx] at hf
        exact hf
      | none =>
        dsimp only
        rcases hx : LabelSelectionItemModel.buildTreeForest (c :: crest) t none st
          with ⟨a, b, cc2⟩
        have hf := buildTreeForest_container_none (c :: crest) t st
        rw [hx] at hf
        exact hf

theorem buildTreeForest_container_none : ∀ (items : List Item)
    (t : GiftiLabelTable) (st : BuildTreeState),
    (LabelSelectionItemModel.buildTreeForest items t none st).2.2 = none
  | [], _, _ => rfl
  | it :: rest, t, st => by
    unfold LabelSelectionItemModel.buildTreeForest
    rcases hx : LabelSelectionItemModel.buildTree it t none st with ⟨item, st2, cc2⟩
    have ht := buildTree_container_none it t st
    rw [hx] at ht
    have hcc2 : cc2 = none := ht
    subst hcc2
    dsimp only
    rcases hy : LabelSelectionItemModel.buildTreeForest rest t none st2
      with ⟨i2, st3, cc3⟩
    have hr := buildTreeForest_container_none rest t st2
    rw [hy] at hr
    exact hr

end

theorem labelTableOnlyItems_container_none : ∀ (t : GiftiLabelTable)
    (names : List String) (mapped : List Int),
    (LabelSelectionItemModel.labelTableOnlyItems t names mapped none).2.2 = none
  | _, [], _ => rfl
  | t, name :: rest, mapped => by
    unfold LabelSelectionItemModel.labelTableOnlyItems
    cases hl : t.getLabel name with
    | none =>
      exact labelTableOnlyItems_container_none t rest mapped
    | some gl =>
      dsimp only
      rw [show (optGetClustersWithKey none gl.m_key).2 = none from rfl]
      rcases hx : LabelSelectionItemModel.labelTableOnlyItems t rest
        (intListInsert mapped gl.m_key) none with ⟨a, m2, cc2⟩
      have hr := labelTableOnlyItems_container_none t rest
        (intListInsert mapped gl.m_key)
      rw [hx] at hr
      exact hr

/-- C3: the claim is refuted by the code — `buildModel` reads
`clusterContainer->getKeysThatAreNotInAnyClusters()` with no NULL check
(LabelSelectionItemModel.cxx:271) although the parameter is documented "may
be NULL" and every other container use in `buildModel` and `buildTree` is
guarded, so for every label table whose hierarchy is non-empty the build
with an absent container hits the NULL dereference before `m_validFlag` is
set: it does not complete, and no model with `isValid() = true` results. -/
theorem C3_null_container_unguarded (t : GiftiLabelTable)
    (hne : t.m_hierarchy.isEmpty = false) :
    LabelSelectionItemModel.buildModel t none = none := by
  rw [LabelSelectionItemModel.buildModel,
    if_neg (by rw [hne]; exact Bool.false_ne_true)]
  rcases hx : LabelSelectionItemModel.buildTreeForest t.m_hierarchy.m_root.children
    t none ⟨[], [], []⟩ with ⟨tops, st1, cc1⟩
  have h1 := buildTreeForest_container_none t.m_hierarchy.m_root.children t
    ⟨[], [], []⟩
  rw [hx] at h1
  have hcc1 : cc1 = none := h1
  subst hcc1
  dsimp only
  rcases hm : LabelSelectionItemModel.mismatchNames t
    st1.m_labelKeyToLabelSelectionItem st1.m_hierarchyParentNames with ⟨mh, ph⟩
  dsimp only
  rcases hy : LabelSelectionItemModel.labelTableOnlyItems t mh
    st1.m_labelKeyToLabelSelectionItem none with ⟨a, m2, cc2⟩
  have h2 := labelTableOnlyItems_container_none t mh
    st1.m_labelKeyToLabelSelectionItem
  rw [hy] at h2
  have hcc2 : cc2 = none := h2
  subst hcc2
  rfl

/-- Closed instance of `C3_null_container_unguarded`: a label table with a
one-item hierarchy and no cluster container faults. -/
theorem C3_null_container_unguarded_witness :
    (⟨[], 0, exampleHierarchy⟩ : GiftiLabelTable).m_hierarchy.isEmpty = false ∧
    LabelSelectionItemModel.buildModel (⟨[], 0, exampleHierarchy⟩ : GiftiLabelTable)
      none = none :=
  ⟨by decide,
   C3_null_container_unguarded (⟨[], 0, exampleHierarchy⟩ : GiftiLabelTable)
     (by decide)⟩

end Caret

